import Mathlib

set_option maxHeartbeats 1000000
set_option maxRecDepth 10000

/- Verification of the core algorithms of the labyrinth raycaster
   (src/main.py): tile grid, axis-separated collision motion, A* grid
   pathfinding, pellet collection, camera rotation, DDA raycasting and
   depth-tested billboard compositing.

   Real-valued quantities that the program computes with floats are
   modelled exactly: with ℚ where the source only uses field operations,
   comparisons and truncation, and with ℝ where the source calls
   math.sqrt / math.cos / math.sin (monster update, rotation). -/

namespace Labyrinth

/-- MAP_LAYOUT from src/main.py, verbatim. -/
def MAP_LAYOUT : List String := [
  "111111111111111111111",
  "100000000000000000001",
  "101111101111111011101",
  "101000101000001010001",
  "101010101011101011101",
  "101010001010001000101",
  "101011111010111110101",
  "101000001010000010101",
  "101111101011111010101",
  "101000101000001010101",
  "101010101111101011101",
  "101010001000101000101",
  "101011111010101110101",
  "101000000010100010001",
  "101111111110111011101",
  "101000000000001010001",
  "101011111111101011101",
  "100010000000001000001",
  "111111111111111111111"]

/-- WORLD_MAP = [list(row) for row in MAP_LAYOUT]. -/
def WORLD_MAP : List (List Char) := MAP_LAYOUT.map (fun r => r.toList)

/-- MAP_WIDTH = len(WORLD_MAP[0]). -/
def MAP_WIDTH : ℕ := (WORLD_MAP.headD []).length

/-- MAP_HEIGHT = len(WORLD_MAP). -/
def MAP_HEIGHT : ℕ := WORLD_MAP.length

/-- Character of the world map at integer cell (tx, ty).  Only consulted
after the bound guards of the source functions, so the out-of-range
defaults are never reached from guarded call sites. -/
def tileAt (tx ty : ℤ) : Char := (WORLD_MAP.getD ty.toNat []).getD tx.toNat ' '

/-- Python int(q) on a rational float value: truncation toward zero. -/
def pyInt (q : ℚ) : ℤ := if 0 ≤ q then ⌊q⌋ else -⌊-q⌋

/-- is_blocking(x, y) from src/main.py.  Inside the bound guard the
coordinates are nonnegative, where Python int() truncation agrees with
the floor used by pyInt. -/
def is_blocking (x y : ℚ) : Bool :=
  if x < 0 ∨ y < 0 ∨ (MAP_WIDTH : ℚ) ≤ x ∨ (MAP_HEIGHT : ℚ) ≤ y then true
  else tileAt (pyInt x) (pyInt y) != '0'

/-- move_entity(x, y, move_x, move_y) from src/main.py: the X displacement
is kept only if the resulting (new_x, y) is free, then the Y displacement
is tested against the (possibly updated) X. -/
def move_entity (x y move_x move_y : ℚ) : ℚ × ℚ :=
  let new_x := x + move_x
  let new_y := y + move_y
  let x1 := if is_blocking new_x y = false then new_x else x
  let y1 := if is_blocking x1 new_y = false then new_y else y
  (x1, y1)

/-- Iterated application of move_entity to a starting position, one call
per displacement pair in the list. -/
def applyMoves (x y : ℚ) (moves : List (ℚ × ℚ)) : ℚ × ℚ :=
  moves.foldl (fun p m => move_entity p.1 p.2 m.1 m.2) (x, y)

/-- grid_blocked(tile_x, tile_y) from src/main.py. -/
def grid_blocked (tile_x tile_y : ℤ) : Bool :=
  if tile_x < 0 ∨ tile_y < 0 ∨ (MAP_WIDTH : ℤ) ≤ tile_x ∨ (MAP_HEIGHT : ℤ) ≤ tile_y then true
  else tileAt tile_x tile_y != '0'

/-- Integer grid cells, as the (x, y) tuples of the source. -/
abbrev Cell : Type := ℤ × ℤ

/-- Manhattan-distance heuristic of astar_path. -/
def heuristic (a b : Cell) : ℕ := (a.1 - b.1).natAbs + (a.2 - b.2).natAbs

/-- Neighbour cells in the order the source iterates them:
(cx+1, cy), (cx-1, cy), (cx, cy+1), (cx, cy-1). -/
def neighborsOf (c : Cell) : List Cell :=
  [(c.1 + 1, c.2), (c.1 - 1, c.2), (c.1, c.2 + 1), (c.1, c.2 - 1)]

/-- Association-list lookup, modelling Python dict access. -/
def alookup {α β : Type} [DecidableEq α] : List (α × β) → α → Option β
  | [], _ => none
  | (k, v) :: rest, a => if a = k then some v else alookup rest a

/-- Association-list update, modelling Python dict assignment (the old
binding for the key, if any, is replaced). -/
def aset {α β : Type} [DecidableEq α] (l : List (α × β)) (k : α) (v : β) : List (α × β) :=
  (k, v) :: l.filter (fun p => p.1 ≠ k)

/-- Lexicographic comparison of heap entries (priority, (x, y)), exactly
the tuple comparison Python heapq uses to order (float, tuple) entries. -/
def pleB (a b : ℕ × Cell) : Bool :=
  decide (a.1 < b.1) ||
    (decide (a.1 = b.1) &&
      (decide (a.2.1 < b.2.1) || (decide (a.2.1 = b.2.1) && decide (a.2.2 ≤ b.2.2))))

/-- Minimum of a nonempty collection of heap entries under pleB. -/
def heapMin (x : ℕ × Cell) (l : List (ℕ × Cell)) : ℕ × Cell :=
  l.foldl (fun best e => if pleB e best then e else best) x

/-- heapq.heappop: remove and return the least entry of the heap (the heap
is modelled as the multiset of its entries, kept as a list). -/
def popMin (l : List (ℕ × Cell)) : Option ((ℕ × Cell) × List (ℕ × Cell)) :=
  match l with
  | [] => none
  | x :: xs => some (heapMin x xs, l.erase (heapMin x xs))

/-- The mutable state of astar_path: open_heap, came_from, g_score. -/
structure AState where
  heap : List (ℕ × Cell)
  came : List (Cell × Cell)
  g : List (Cell × ℕ)

/-- One neighbour relaxation of the astar_path main loop: skip blocked
cells, otherwise update came_from / g_score and push when the tentative
score improves on the recorded one (absent meaning infinity). -/
def relaxOne (goal cur : Cell) (st : AState) (nb : Cell) : AState :=
  if grid_blocked nb.1 nb.2 then st
  else
    let t := (alookup st.g cur).getD 0 + 1
    let better := match alookup st.g nb with
      | some gn => decide (t < gn)
      | none => true
    if better then
      { heap := (t + heuristic nb goal, nb) :: st.heap
        came := aset st.came nb cur
        g := aset st.g nb t }
    else st

/-- Path reconstruction of astar_path: follow came_from links from the
goal until a cell without a predecessor (the start).  The source while
loop terminates because g_score strictly decreases along came_from links;
any fuel at least the length of that chain yields the same list. -/
def rebuild : ℕ → List (Cell × Cell) → Cell → List Cell
  | 0, _, c => [c]
  | f + 1, came, c =>
    match alookup came c with
    | none => [c]
    | some p => c :: rebuild f came p

/-- Fuel for the astar_path main loop; an upper bound on the number of
heap pops, proved sufficient below. -/
def astarFuel : ℕ := 200000

/-- Main loop of astar_path: pop the least open entry; if it is the goal,
reconstruct and return the (reversed) path, otherwise relax the four
neighbours and continue.  Fuel exhaustion returns the empty path, just as
an exhausted heap does. -/
def astarLoop : ℕ → Cell → AState → List Cell
  | 0, _, _ => []
  | fuel + 1, goal, st =>
    match popMin st.heap with
    | none => []
    | some ((_, cur), rest) =>
      if cur = goal then (rebuild astarFuel st.came cur).reverse
      else astarLoop fuel goal
        ((neighborsOf cur).foldl (relaxOne goal cur) { st with heap := rest })

/-- astar_path(start, goal) from src/main.py. -/
def astar_path (start goal : Cell) : List Cell :=
  if start = goal then [start]
  else if grid_blocked goal.1 goal.2 then []
  else astarLoop astarFuel goal { heap := [(0, start)], came := [], g := [(start, 0)] }

/-- A step of a 4-connected walk usable by astar_path: the target cell is
adjacent to the source cell and is open and inside the grid. -/
def edgeStep (p v : Cell) : Prop := v ∈ neighborsOf p ∧ grid_blocked v.1 v.2 = false

/-- chainOK s l g: the cell list l continues a walk that is at s, moving
one edgeStep at a time, and ends at g (so l lists the cells after s). -/
def chainOK : Cell → List Cell → Cell → Prop
  | s, [], g => s = g
  | s, c :: cs, g => edgeStep s c ∧ chainOK c cs g

/-- reachN n s g: some walk of exactly n steps leads from s to g through
open in-grid cells (the start cell itself may be blocked; astar_path never
inspects it). -/
def reachN : ℕ → Cell → Cell → Bool
  | 0, s, g => decide (s = g)
  | n + 1, s, g => (neighborsOf s).any (fun m => !grid_blocked m.1 m.2 && reachN n m g)

/-- distIs s g d: d is the length of a shortest open 4-connected walk from
s to g. -/
def distIs (s g : Cell) (d : ℕ) : Prop :=
  reachN d s g = true ∧ ∀ m < d, reachN m s g = false

/-- All in-grid cells, as a finite set (MAP_WIDTH = 21, MAP_HEIGHT = 19). -/
def uGrid : Finset Cell := (Finset.Icc (0 : ℤ) 20) ×ˢ (Finset.Icc (0 : ℤ) 18)

/-- Termination potential for the astar_path main loop: heap size, plus
recorded g_score values, plus 401 for every cell not yet scored (at most
400 cells can ever be scored: the in-grid cells and the start).  Every
loop iteration strictly decreases it, which bounds the number of pops. -/
def phiA (st : AState) : ℕ :=
  st.heap.length + (st.g.map (fun p => p.2)).sum + 401 * (400 - st.g.length)

/-- The core loop invariant of astar_path (everything except the frontier
property): dictionary keys are unique; the start has score 0 and no
predecessor; every scored cell is the start or an open cell; scores bound
the length of some real walk from the start; came_from links are real
edges along which the score strictly increases, and exactly the non-start
scored cells have them; heap entries carry a priority at least the
current score of their cell; and a scored goal keeps an entry with its
score as priority (the pushed priority plus a zero heuristic). -/
structure ACore (s goal : Cell) (st : AState) : Prop where
  g_nodup : (st.g.map Prod.fst).Nodup
  came_nodup : (st.came.map Prod.fst).Nodup
  g_start : alookup st.g s = some 0
  g_cells : ∀ p ∈ st.g, p.1 = s ∨ grid_blocked p.1.1 p.1.2 = false
  g_reach : ∀ p ∈ st.g, ∃ n ≤ p.2, reachN n s p.1 = true
  came_g : ∀ q ∈ st.came, edgeStep q.2 q.1 ∧
    ∃ gv gp, alookup st.g q.1 = some gv ∧ alookup st.g q.2 = some gp ∧ gp + 1 ≤ gv
  came_keys : ∀ v : Cell, v ≠ s →
    ((∃ gv, alookup st.g v = some gv) ↔ (∃ p, alookup st.came v = some p))
  came_start : alookup st.came s = none
  heap_g : ∀ e ∈ st.heap, ∃ gv, alookup st.g e.2 = some gv ∧ gv ≤ e.1
  goal_entry : ∀ gv, alookup st.g goal = some gv → (gv, goal) ∈ st.heap

/-- The full loop invariant: ACore plus the frontier property, which
states that every optimally scored cell either still has a cheap enough
heap entry or has had all its open neighbours relaxed to within one of
its score. -/
structure AInv (s goal : Cell) (st : AState) extends ACore s goal st : Prop where
  good_heap : ∀ v dv, distIs s v dv → alookup st.g v = some dv →
    (∃ pr, (pr, v) ∈ st.heap ∧ pr ≤ dv + heuristic v goal) ∨
    (∀ w ∈ neighborsOf v, grid_blocked w.1 w.2 = false →
      ∃ gw, alookup st.g w = some gw ∧ gw ≤ dv + 1)

/-- The frontier property of AInv restricted to cells other than an
excluded one (the cell whose heap entry was just popped and whose
neighbours are being relaxed). -/
def goodHeapExc (s goal cur : Cell) (st : AState) : Prop :=
  ∀ v dv, v ≠ cur → distIs s v dv → alookup st.g v = some dv →
    (∃ pr, (pr, v) ∈ st.heap ∧ pr ≤ dv + heuristic v goal) ∨
    (∀ w ∈ neighborsOf v, grid_blocked w.1 w.2 = false →
      ∃ gw, alookup st.g w = some gw ∧ gw ≤ dv + 1)

/-- A pellet of src/main.py: position and one-way collected flag. -/
structure Pellet where
  x : ℚ
  y : ℚ
  collected : Bool
deriving DecidableEq

/-- math.hypot(dx, dy) < r, stated with squares so it stays inside ℚ.
For every r the two are equivalent: a nonnegative hypotenuse is below r
exactly when r is nonnegative and the squares compare. -/
def hypotLtB (dx dy r : ℚ) : Bool :=
  decide (0 ≤ r) && decide (dx ^ 2 + dy ^ 2 < r ^ 2)

/-- Per-pellet body of the collect_pellets loop. -/
def collectStep (px py r : ℚ) (p : Pellet) : Pellet :=
  if p.collected then p
  else if hypotLtB (px - p.x) (py - p.y) r then { p with collected := true } else p

/-- collect_pellets(player, pellets, radius) from src/main.py: marks every
uncollected pellet within the capture radius and counts the newly
collected ones. -/
def collect_pellets (px py : ℚ) (ps : List Pellet) (r : ℚ) : List Pellet × ℕ :=
  ps.foldr
    (fun p acc =>
      if p.collected then (p :: acc.1, acc.2)
      else if hypotLtB (px - p.x) (py - p.y) r then
        ({ p with collected := true } :: acc.1, acc.2 + 1)
      else (p :: acc.1, acc.2))
    ([], 0)

/-- A sequence of collect_pellets calls at the given player positions,
with the default capture radius 0.35 of the source. -/
def runCollect (ps : List Pellet) (calls : List (ℚ × ℚ)) : List Pellet :=
  calls.foldl (fun l c => (collect_pellets c.1 c.2 l (0.35 : ℚ)).1) ps

/-- rotate_player from src/main.py, on the (dir, plane) vector pair; the
source saves old_dir_x / old_plane_x before overwriting, which the pure
lets reproduce. -/
noncomputable def rotate_player (dir_x dir_y plane_x plane_y angle : ℝ) :
    (ℝ × ℝ) × (ℝ × ℝ) :=
  let cos_a := Real.cos angle
  let sin_a := Real.sin angle
  let new_dir_x := dir_x * cos_a - dir_y * sin_a
  let new_dir_y := dir_x * sin_a + dir_y * cos_a
  let new_plane_x := plane_x * cos_a - plane_y * sin_a
  let new_plane_y := plane_x * sin_a + plane_y * cos_a
  ((new_dir_x, new_dir_y), (new_plane_x, new_plane_y))

/-- SCREEN_WIDTH from src/main.py. -/
def SCREEN_WIDTH : ℕ := 960

/-- SCREEN_HEIGHT from src/main.py. -/
def SCREEN_HEIGHT : ℕ := 600

/-- Extended rationals Option ℚ model Python floats where float("inf") can
occur; none stands for the infinite value.  Strict comparison: a finite
value is below infinity, infinity is below nothing (matching IEEE inf). -/
def eLt : Option ℚ → Option ℚ → Bool
  | some a, some b => decide (a < b)
  | some _, none => true
  | none, _ => false

/-- Addition on extended rationals (inf + x = inf). -/
def eAdd : Option ℚ → Option ℚ → Option ℚ
  | some a, some b => some (a + b)
  | _, _ => none

/-- Scaling of an extended rational by a rational.  In cast_rays the scale
factor is positive whenever the scaled value is infinite (the else branch
coefficients lie in (0, 1] resp. [1, ∞)), so q * inf = inf is faithful and
the float nan case 0 * inf is unreachable. -/
def eScale (q : ℚ) : Option ℚ → Option ℚ
  | some a => some (q * a)
  | none => none

/-- Difference of two extended rationals; the single use site (perpendicular
distance on the hit axis) has both operands finite, which is proved where
used, so the junk value for infinite operands is never reached. -/
def eSub : Option ℚ → Option ℚ → ℚ
  | some a, some b => a - b
  | _, _ => 0

/-- The Player dataclass of src/main.py. -/
structure Player where
  x : ℚ
  y : ℚ
  dir_x : ℚ
  dir_y : ℚ
  plane_x : ℚ
  plane_y : ℚ

/-- Mutable state of the DDA loop in cast_rays, plus the steps counter. -/
structure DState where
  map_x : ℤ
  map_y : ℤ
  side_dist_x : Option ℚ
  side_dist_y : Option ℚ
  side : ℕ
  steps : ℕ

/-- Per-column constants of the DDA in cast_rays. -/
structure RaySetup where
  ray_dir_x : ℚ
  ray_dir_y : ℚ
  delta_dist_x : Option ℚ
  delta_dist_y : Option ℚ
  step_x : ℤ
  step_y : ℤ
  start : DState

/-- The initialization part of one cast_rays column: camera offset, ray
direction, per-axis delta distances (infinite when the ray component is
exactly zero) and initial side distances. -/
def columnSetup (pl : Player) (column : ℕ) : RaySetup :=
  let camera_x : ℚ := 2 * column / SCREEN_WIDTH - 1
  let ray_dir_x := pl.dir_x + pl.plane_x * camera_x
  let ray_dir_y := pl.dir_y + pl.plane_y * camera_x
  let map_x := pyInt pl.x
  let map_y := pyInt pl.y
  let delta_dist_x : Option ℚ := if ray_dir_x = 0 then none else some |1 / ray_dir_x|
  let delta_dist_y : Option ℚ := if ray_dir_y = 0 then none else some |1 / ray_dir_y|
  let step_x : ℤ := if ray_dir_x < 0 then -1 else 1
  let side_dist_x := if ray_dir_x < 0 then eScale (pl.x - map_x) delta_dist_x
    else eScale ((map_x : ℚ) + 1 - pl.x) delta_dist_x
  let step_y : ℤ := if ray_dir_y < 0 then -1 else 1
  let side_dist_y := if ray_dir_y < 0 then eScale (pl.y - map_y) delta_dist_y
    else eScale ((map_y : ℚ) + 1 - pl.y) delta_dist_y
  { ray_dir_x := ray_dir_x, ray_dir_y := ray_dir_y,
    delta_dist_x := delta_dist_x, delta_dist_y := delta_dist_y,
    step_x := step_x, step_y := step_y,
    start := { map_x := map_x, map_y := map_y,
               side_dist_x := side_dist_x, side_dist_y := side_dist_y,
               side := 0, steps := 0 } }

/-- One iteration body of the DDA while loop: advance along the axis with
the smaller accumulated side distance, recording which axis stepped. -/
def ddaStep (rs : RaySetup) (s : DState) : DState :=
  if eLt s.side_dist_x s.side_dist_y then
    { s with side_dist_x := eAdd s.side_dist_x rs.delta_dist_x,
             map_x := s.map_x + rs.step_x, side := 0, steps := s.steps + 1 }
  else
    { s with side_dist_y := eAdd s.side_dist_y rs.delta_dist_y,
             map_y := s.map_y + rs.step_y, side := 1, steps := s.steps + 1 }

/-- The out-of-grid test of the DDA loop, in source order. -/
def ddaOut (s : DState) : Prop :=
  s.map_x < 0 ∨ (MAP_WIDTH : ℤ) ≤ s.map_x ∨ s.map_y < 0 ∨ (MAP_HEIGHT : ℤ) ≤ s.map_y

instance (s : DState) : Decidable (ddaOut s) := by unfold ddaOut; infer_instance

/-- The DDA while loop of cast_rays: step, then stop with a hit when the
stepped-into cell is outside the grid (default wall material '1') or a
non-open tile; none models running out of the step cap without a hit. -/
def ddaLoop (rs : RaySetup) : ℕ → DState → Option (Char × DState)
  | 0, _ => none
  | fuel + 1, s =>
    let t := ddaStep rs s
    if ddaOut t then some ('1', t)
    else if tileAt t.map_x t.map_y ≠ '0' then some (tileAt t.map_x t.map_y, t)
    else ddaLoop rs fuel t

/-- The stop condition of the DDA loop: the stepped-into cell is outside
the grid or holds a non-open tile. -/
def ddaBad (s : DState) : Prop := ddaOut s ∨ tileAt s.map_x s.map_y ≠ '0'

instance (s : DState) : Decidable (ddaBad s) := by unfold ddaBad; infer_instance

/-- The per-column result of cast_rays that later stages consume. -/
structure ColHit where
  tile : Char
  side : ℕ
  perp : ℚ
  steps : ℕ

/-- One column of cast_rays: run the DDA with the step cap
MAP_WIDTH * MAP_HEIGHT; on a hit, take the side distance before the last
increment on the hit axis and clamp it below by 0.0001. -/
def castColumn (pl : Player) (column : ℕ) : Option ColHit :=
  let rs := columnSetup pl column
  match ddaLoop rs (MAP_WIDTH * MAP_HEIGHT) rs.start with
  | none => none
  | some (tile, s) =>
    let perp_raw := if s.side = 0 then eSub s.side_dist_x rs.delta_dist_x
      else eSub s.side_dist_y rs.delta_dist_y
    some { tile := tile, side := s.side, perp := max perp_raw (0.0001 : ℚ),
           steps := s.steps }

/-- cast_rays from src/main.py, restricted to its returned value: the
per-column depth buffer, initialized to infinity (none) and set to the
perpendicular distance for columns with a hit. -/
def cast_rays (pl : Player) : List (Option ℚ) :=
  (List.range SCREEN_WIDTH).map (fun column => (castColumn pl column).map (fun r => r.perp))

/-- spawn_player() from src/main.py. -/
def spawn_player : Player :=
  { x := 3.5, y := 3.5, dir_x := -1.0, dir_y := 0.0, plane_x := 0.0, plane_y := 0.66 }

/-- The camera determinant det = plane_x * dir_y - dir_x * plane_y of the
sprite compositor. -/
def camDet (pl : Player) : ℚ :=
  pl.plane_x * pl.dir_y - pl.dir_x * pl.plane_y

/-- Camera-space transform of a world-space offset (sx, sy) from the
player, as in draw_monsters / draw_collectibles. -/
def spriteTransform (pl : Player) (sx sy : ℚ) : ℚ × ℚ :=
  let inv_det := 1 / camDet pl
  (inv_det * (pl.dir_y * sx - pl.dir_x * sy),
   inv_det * (-pl.plane_y * sx + pl.plane_x * sy))

/-- range(a, b) over integers. -/
def intRange (a b : ℤ) : List ℤ := (List.range (b - a).toNat).map (fun k => a + (k : ℤ))

/-- depth_buffer[stripe], total: the in-range guard of the stripe loop
precedes every real access. -/
def depthAt (depth : List (Option ℚ)) (i : ℤ) : Option ℚ := depth.getD i.toNat none

/-- The per-stripe loop shared by draw_monsters and draw_collectibles: a
stripe is drawn when it is within screen bounds, within the sprite's
texture width, and the depth buffer value at that column exceeds the
sprite's camera-space depth ty.  Each drawn stripe is recorded as the
event (stripe, ty). -/
def stripeEvents (depth : List (Option ℚ))
    (draw_start_x draw_end_x sprite_left sprite_width : ℤ) (ty : ℚ) : List (ℤ × ℚ) :=
  (intRange draw_start_x draw_end_x).filterMap (fun stripe =>
    let tex_x := stripe - sprite_left
    if 0 ≤ stripe ∧ stripe < (SCREEN_WIDTH : ℤ) ∧ 0 ≤ tex_x ∧ tex_x < sprite_width ∧
        eLt (some ty) (depthAt depth stripe) = true
    then some (stripe, ty) else none)

/-- The drawn stripes of one monster billboard in draw_monsters.  Only the
geometry that decides which screen columns are drawn is modelled; the
animation frame choice and pulsing tint only affect pixel colours. -/
def monsterStripes (pl : Player) (depth : List (Option ℚ)) (mx my : ℚ) : List (ℤ × ℚ) :=
  let t := spriteTransform pl (mx - pl.x) (my - pl.y)
  if t.2 ≤ 0 then []
  else
    let sprite_screen_x := pyInt ((SCREEN_WIDTH : ℚ) / 2 * (1 + t.1 / t.2))
    let sprite_height : ℤ := max 1 |pyInt ((SCREEN_HEIGHT : ℚ) / t.2)|
    let sprite_width : ℤ := max 1 sprite_height
    let draw_start_y := max (Int.fdiv (-sprite_height) 2 + Int.fdiv (SCREEN_HEIGHT : ℤ) 2) 0
    let draw_end_y := min (Int.fdiv sprite_height 2 + Int.fdiv (SCREEN_HEIGHT : ℤ) 2)
      ((SCREEN_HEIGHT : ℤ) - 1)
    let draw_start_x := max (Int.fdiv (-sprite_width) 2 + sprite_screen_x) 0
    let draw_end_x := min (Int.fdiv sprite_width 2 + sprite_screen_x) ((SCREEN_WIDTH : ℤ) - 1)
    if draw_end_x ≤ draw_start_x ∨ draw_end_y ≤ draw_start_y then []
    else
      let sprite_left := Int.fdiv (-sprite_width) 2 + sprite_screen_x
      stripeEvents depth draw_start_x draw_end_x sprite_left sprite_width t.2

/-- draw_monsters from src/main.py as its stream of drawn stripe events:
skip everything when the camera determinant is exactly zero or the frame
table is empty, skip billboards with non-positive camera depth, depth-test
every stripe. -/
def draw_monsters (pl : Player) (monsters : List (ℚ × ℚ)) (depth : List (Option ℚ))
    (framesLen : ℕ) : List (ℤ × ℚ) :=
  if camDet pl = 0 then []
  else if framesLen = 0 then []
  else monsters.foldr (fun m acc => monsterStripes pl depth m.1 m.2 ++ acc) []

/-- The drawn stripes of one pellet billboard in draw_collectibles;
w0 / h0 are the base sprite dimensions from sprite.get_size(). -/
def pelletStripes (pl : Player) (depth : List (Option ℚ)) (w0 h0 : ℚ) (p : Pellet) :
    List (ℤ × ℚ) :=
  let t := spriteTransform pl (p.x - pl.x) (p.y - pl.y)
  if t.2 ≤ 0 then []
  else
    let sprite_screen_x := pyInt ((SCREEN_WIDTH : ℚ) / 2 * (1 + t.1 / t.2))
    let sprite_height : ℤ := max 1 |pyInt ((SCREEN_HEIGHT : ℚ) / t.2 * (0.35 : ℚ))|
    let sprite_width : ℤ := max 1 (pyInt ((sprite_height : ℚ) * (w0 / h0)))
    let draw_start_y := max (Int.fdiv (-sprite_height) 2 + Int.fdiv (SCREEN_HEIGHT : ℤ) 2) 0
    let draw_end_y := min (Int.fdiv sprite_height 2 + Int.fdiv (SCREEN_HEIGHT : ℤ) 2)
      ((SCREEN_HEIGHT : ℤ) - 1)
    let draw_start_x := max (Int.fdiv (-sprite_width) 2 + sprite_screen_x) 0
    let draw_end_x := min (Int.fdiv sprite_width 2 + sprite_screen_x) ((SCREEN_WIDTH : ℤ) - 1)
    if draw_end_x ≤ draw_start_x ∨ draw_end_y ≤ draw_start_y then []
    else
      let sprite_left := Int.fdiv (-sprite_width) 2 + sprite_screen_x
      stripeEvents depth draw_start_x draw_end_x sprite_left sprite_width t.2

/-- draw_collectibles from src/main.py as its stream of drawn stripe
events: early return on a zero determinant or no pellets, skip collected
pellets and billboards behind the camera, depth-test every stripe. -/
def draw_collectibles (pl : Player) (pellets : List Pellet) (depth : List (Option ℚ))
    (w0 h0 : ℚ) : List (ℤ × ℚ) :=
  if camDet pl = 0 ∨ pellets = [] then []
  else pellets.foldr
    (fun p acc => (if p.collected then [] else pelletStripes pl depth w0 h0 p) ++ acc) []

/-- Python int() truncation toward zero, on the reals used for the
monster's float position. -/
noncomputable def pyIntR (r : ℝ) : ℤ := if 0 ≤ r then ⌊r⌋ else -⌊-r⌋

/-- Python float modulo a % b (floored), used for the pulse and animation
accumulators. -/
noncomputable def pyModR (a b : ℝ) : ℝ := a - b * ⌊a / b⌋

/-- is_blocking at the real-valued monster positions; the same source
function as is_blocking, which the player-facing claims use at ℚ. -/
noncomputable def is_blockingR (x y : ℝ) : Bool :=
  if x < 0 ∨ y < 0 ∨ (MAP_WIDTH : ℝ) ≤ x ∨ (MAP_HEIGHT : ℝ) ≤ y then true
  else tileAt (pyIntR x) (pyIntR y) != '0'

/-- move_entity at the real-valued monster positions. -/
noncomputable def move_entityR (x y move_x move_y : ℝ) : ℝ × ℝ :=
  let new_x := x + move_x
  let new_y := y + move_y
  let x1 := if is_blockingR new_x y = false then new_x else x
  let y1 := if is_blockingR x1 new_y = false then new_y else y
  (x1, y1)

/-- The Monster dataclass of src/main.py.  The random initial pulse phase
is a construction-time input here (spec design note: inject the seed). -/
structure Monster where
  x : ℝ
  y : ℝ
  speed : ℝ
  pulse : ℝ
  anim_timer : ℝ
  path : List Cell
  path_cooldown : ℝ

/-- One monster's body of the update_monsters loop in src/main.py, given
the player position and the elapsed delta_time.  Besides the updated
monster it reports whether astar_path was invoked this tick.  math.hypot
is Real.sqrt of the squared sum, math.tau is 2π. -/
noncomputable def update_monster (player_x player_y delta_time : ℝ) (m : Monster) :
    Monster × Bool :=
  let pulse := pyModR (m.pulse + delta_time * 2.0) (2 * Real.pi)
  let anim_timer := pyModR (m.anim_timer + delta_time) 1000.0
  let cooldown := m.path_cooldown - delta_time
  let monster_tile : Cell := (pyIntR m.x, pyIntR m.y)
  let goal_tile : Cell := (pyIntR player_x, pyIntR player_y)
  let upd :=
    if cooldown ≤ 0 ∨ m.path = [] ∨ m.path.getLast? ≠ some goal_tile ∨
        monster_tile ∉ m.path then
      (astar_path monster_tile goal_tile, (0.4 : ℝ), true)
    else (m.path, cooldown, false)
  let path0 := upd.1
  let cooldown1 := upd.2.1
  let invoked := upd.2.2
  let tgt :=
    if 1 < path0.length then
      let next_tile := path0.getD 1 (0, 0)
      let tx := (next_tile.1 : ℝ) + 0.5
      let ty := (next_tile.2 : ℝ) + 0.5
      if |m.x - tx| < 0.1 ∧ |m.y - ty| < 0.1 then
        let popped := path0.tail
        if 1 < popped.length then
          let nt := popped.getD 1 (0, 0)
          (popped, ((nt.1 : ℝ) + 0.5, (nt.2 : ℝ) + 0.5))
        else (popped, (player_x, player_y))
      else (path0, (tx, ty))
    else (path0, (player_x, player_y))
  let path1 := tgt.1
  let dir_x := tgt.2.1 - m.x
  let dir_y := tgt.2.2 - m.y
  let distance := Real.sqrt (dir_x ^ 2 + dir_y ^ 2)
  let dir2 := if 0.001 < distance then (dir_x / distance, dir_y / distance)
    else (dir_x, dir_y)
  let move_x := dir2.1 * m.speed * delta_time
  let move_y := dir2.2 * m.speed * delta_time
  let pos := move_entityR m.x m.y move_x move_y
  ({ x := pos.1, y := pos.2, speed := m.speed, pulse := pulse,
     anim_timer := anim_timer, path := path1, path_cooldown := cooldown1 }, invoked)

/-- A sequence of update_monsters ticks for one monster: each list entry
is ((player_x, player_y), delta_time); returns the final monster and the
per-tick astar_path invocation flags. -/
noncomputable def runTicks (m : Monster) : List ((ℝ × ℝ) × ℝ) → Monster × List Bool
  | [] => (m, [])
  | t :: ts =>
    let r := update_monster t.1.1 t.1.2 t.2 m
    let rest := runTicks r.1 ts
    (rest.1, r.2 :: rest.2)

/-- Simulated seconds elapsed strictly after tick i, up to and including
tick j. -/
noncomputable def elapsedBetween (ticks : List ((ℝ × ℝ) × ℝ)) (i j : ℕ) : ℝ :=
  (((ticks.drop (i + 1)).take (j - i)).map (fun t => t.2)).sum

/-- C3 as stated: for every pursuer and every tick sequence, any two
consecutive astar_path invocations are separated by at least 0.4 seconds
of accumulated delta time. -/
def searchThrottleClaim : Prop :=
  ∀ (m : Monster) (ticks : List ((ℝ × ℝ) × ℝ)) (i j : ℕ),
    i < j → j < ticks.length →
    (runTicks m ticks).2.getD i false = true →
    (runTicks m ticks).2.getD j false = true →
    (∀ k, i < k → k < j → (runTicks m ticks).2.getD k false = false) →
    (0.4 : ℝ) ≤ elapsedBetween ticks i j

/-- Spec-side model for the C5 refinement comparison: a marching sample
point is blocking when its cell lies outside the grid or holds a non-open
tile — the same test the DDA applies to stepped-into cells. -/
def marchBlocked (x y : ℚ) : Bool :=
  decide (pyInt x < 0) || decide ((MAP_WIDTH : ℤ) ≤ pyInt x) ||
    decide (pyInt y < 0) || decide ((MAP_HEIGHT : ℤ) ≤ pyInt y) ||
    decide (tileAt (pyInt x) (pyInt y) ≠ '0')

/-- Spec-side model for the C5 refinement comparison: brute-force
small-step marching of the ray from (px, py) along (rdx, rdy), sampling
the ray parameters k*h for k = k0, k0+1, ..., and reporting the index of
the first blocking sample. -/
def marchFrom (px py rdx rdy h : ℚ) : ℕ → ℕ → Option ℕ
  | 0, _ => none
  | fuel + 1, k =>
    if marchBlocked (px + (k : ℚ) * h * rdx) (py + (k : ℚ) * h * rdy) then some k
    else marchFrom px py rdx rdy h fuel (k + 1)

/-- Spec-side model for the C5 refinement comparison: the marching
distance, i.e. the ray parameter of the first blocking sample, which for a
unit direction vector equals the marched distance projected onto the
camera's forward axis. -/
def marchDistance (px py rdx rdy h : ℚ) (fuel : ℕ) : Option ℚ :=
  (marchFrom px py rdx rdy h fuel 1).map (fun k => (k : ℚ) * h)

/-- Ray parameter of the (i+1)-st grid-line crossing on one axis, for a
ray starting at coordinate p in cell m and moving with component rd: the
initial side distance of cast_rays followed by equal increments of the
delta distance |1/rd|. -/
def crossT (p : ℚ) (m : ℤ) (rd : ℚ) (i : ℕ) : ℚ :=
  (if rd < 0 then p - (m : ℚ) else (m : ℚ) + 1 - p) * |1/rd| + (i : ℚ) * |1/rd|

/-- Player of the C5 corner-ray counterexample: standing at (6.625, 1.5)
and facing the rational unit direction (0.6, 0.8), with the standard-width
camera plane 0.66 * (-0.8, 0.6) of the source. -/
def cornerPlayer : Player :=
  { x := 6.625, y := 1.5, dir_x := 0.6, dir_y := 0.8,
    plane_x := -0.528, plane_y := 0.396 }

/- ===================================================================
   THEOREMS
   =================================================================== -/

theorem MAP_WIDTH_eq : MAP_WIDTH = 21 := rfl

theorem MAP_HEIGHT_eq : MAP_HEIGHT = 19 := rfl

theorem is_blocking_char (x y : ℚ) (hx0 : 0 ≤ x) (hy0 : 0 ≤ y)
    (hx1 : x < 21) (hy1 : y < 19) :
    is_blocking x y = (tileAt ⌊x⌋ ⌊y⌋ != '0') := by
  have hg : ¬ (x < 0 ∨ y < 0 ∨ (MAP_WIDTH : ℚ) ≤ x ∨ (MAP_HEIGHT : ℚ) ≤ y) := by
    push_neg
    exact ⟨hx0, hy0, by simpa [MAP_WIDTH_eq] using hx1, by simpa [MAP_HEIGHT_eq] using hy1⟩
  rw [is_blocking, if_neg hg]
  simp only [pyInt, if_pos hx0, if_pos hy0]

theorem is_blocking_spawn : is_blocking (7/2) (7/2) = false := by
  rw [is_blocking_char (7/2) (7/2) (by norm_num) (by norm_num) (by norm_num) (by norm_num)]
  have h3 : ⌊(7/2 : ℚ)⌋ = 3 := by norm_num
  rw [h3]
  decide

theorem is_blocking_west_of_spawn : is_blocking (7/2 + -1) (7/2) = true := by
  rw [is_blocking_char (7/2 + -1) (7/2) (by norm_num) (by norm_num) (by norm_num) (by norm_num)]
  have h2 : ⌊(7/2 + -1 : ℚ)⌋ = 2 := by norm_num
  have h3 : ⌊(7/2 : ℚ)⌋ = 3 := by norm_num
  rw [h2, h3]
  decide

theorem is_blocking_south_of_spawn : is_blocking (7/2) (7/2 + 1/2) = false := by
  rw [is_blocking_char (7/2) (7/2 + 1/2) (by norm_num) (by norm_num) (by norm_num) (by norm_num)]
  have h3 : ⌊(7/2 : ℚ)⌋ = 3 := by norm_num
  have h4 : ⌊(7/2 + 1/2 : ℚ)⌋ = 4 := by norm_num
  rw [h3, h4]
  decide

theorem move_entity_preserves (x y mx my : ℚ) (h : is_blocking x y = false) :
    is_blocking (move_entity x y mx my).1 (move_entity x y mx my).2 = false := by
  unfold move_entity
  dsimp only
  by_cases h1 : is_blocking (x + mx) y = false
  · simp only [if_pos h1]
    by_cases h2 : is_blocking (x + mx) (y + my) = false
    · simp only [if_pos h2]
      exact h2
    · simp only [if_neg h2]
      exact h1
  · simp only [if_neg h1]
    by_cases h2 : is_blocking x (y + my) = false
    · simp only [if_pos h2]
      exact h2
    · simp only [if_neg h2]
      exact h

theorem applyMoves_preserves (moves : List (ℚ × ℚ)) :
    ∀ x y : ℚ, is_blocking x y = false →
      is_blocking (applyMoves x y moves).1 (applyMoves x y moves).2 = false := by
  induction moves with
  | nil => intro x y h; simpa [applyMoves] using h
  | cons m ms ih =>
    intro x y h
    have step := move_entity_preserves x y m.1 m.2 h
    simpa [applyMoves, List.foldl_cons] using
      ih (move_entity x y m.1 m.2).1 (move_entity x y m.1 m.2).2 step

/-- C2: starting from any non-blocking position, any sequence of
move_entity displacements keeps the position out of blocking tiles, and a
diagonal displacement whose X component is blocked but whose Y component
is free keeps the Y component (sliding along the wall). -/
theorem motion_never_blocking_and_slides (x y : ℚ) (h : is_blocking x y = false) :
    (∀ moves : List (ℚ × ℚ),
       is_blocking (applyMoves x y moves).1 (applyMoves x y moves).2 = false) ∧
    (∀ mx my : ℚ, is_blocking (x + mx) y = true → is_blocking x (y + my) = false →
       move_entity x y mx my = (x, y + my)) := by
  constructor
  · intro moves
    exact applyMoves_preserves moves x y h
  · intro mx my hx hy
    unfold move_entity
    dsimp only
    have hx' : ¬ is_blocking (x + mx) y = false := by simp [hx]
    simp only [if_neg hx', if_pos hy]

/-- Witness for C2 at the spawn position (3.5, 3.5): a forward move stays
free, and the diagonal move (-1, 0.5) into the wall west of the spawn
slides to (3.5, 4). -/
theorem motion_never_blocking_and_slides_witness :
    is_blocking (applyMoves (7/2) (7/2) [(1, 0)]).1 (applyMoves (7/2) (7/2) [(1, 0)]).2
        = false ∧
    move_entity (7/2) (7/2) (-1) (1/2) = (7/2, 4) := by
  refine ⟨(motion_never_blocking_and_slides (7/2) (7/2) is_blocking_spawn).1 [(1, 0)], ?_⟩
  have h := (motion_never_blocking_and_slides (7/2) (7/2) is_blocking_spawn).2 (-1) (1/2)
    is_blocking_west_of_spawn is_blocking_south_of_spawn
  rw [h]
  norm_num

/-- C10: astar_path(c, c) = [c] for every cell c, blocked or not, because
the start-equals-goal branch precedes the blocked-goal branch; for a
blocked goal c and any other start the result is empty, so a blocked goal
produces a non-empty path exactly when start = goal. -/
theorem astar_path_self (c s : Cell) :
    astar_path c c = [c] ∧
    (grid_blocked c.1 c.2 = true → s ≠ c → astar_path s c = []) := by
  constructor
  · simp [astar_path]
  · intro hb hne
    unfold astar_path
    rw [if_neg hne, if_pos hb]

/-- Witness for C10: the wall corner (0,0) is blocking, yet
astar_path((0,0),(0,0)) = [(0,0)]; from the distinct start (5,5) the same
blocked goal yields the empty path. -/
theorem astar_path_self_witness :
    astar_path ((0, 0) : Cell) ((0, 0) : Cell) = [((0, 0) : Cell)] ∧
    astar_path ((5, 5) : Cell) ((0, 0) : Cell) = [] := by
  exact ⟨(astar_path_self ((0, 0) : Cell) ((5, 5) : Cell)).1,
    (astar_path_self ((0, 0) : Cell) ((5, 5) : Cell)).2 (by decide) (by decide)⟩

theorem collect_pellets_fst (px py r : ℚ) (ps : List Pellet) :
    (collect_pellets px py ps r).1 = ps.map (collectStep px py r) := by
  induction ps with
  | nil => rfl
  | cons p ps ih =>
    unfold collect_pellets at *
    simp only [List.foldr_cons, List.map_cons]
    by_cases h1 : p.collected
    · simp [h1, collectStep, ih]
    · by_cases h2 : hypotLtB (px - p.x) (py - p.y) r = true
      · simp [h1, h2, collectStep, ih]
      · simp only [Bool.not_eq_true] at h2
        simp [h1, h2, collectStep, ih]

theorem collectStep_collected (px py r : ℚ) (p : Pellet) :
    (collectStep px py r p).collected =
      (p.collected || hypotLtB (px - p.x) (py - p.y) r) := by
  unfold collectStep
  by_cases h1 : p.collected
  · simp [h1]
  · by_cases h2 : hypotLtB (px - p.x) (py - p.y) r = true
    · simp [h1, h2]
    · simp only [Bool.not_eq_true] at h2
      simp [h1, h2]

theorem collectStep_pos (px py r : ℚ) (p : Pellet) :
    (collectStep px py r p).x = p.x ∧ (collectStep px py r p).y = p.y := by
  unfold collectStep
  by_cases h1 : p.collected
  · simp [h1]
  · by_cases h2 : hypotLtB (px - p.x) (py - p.y) r = true
    · simp [h1, h2]
    · simp only [Bool.not_eq_true] at h2
      simp [h1, h2]

theorem hypotLtB_radius (dx dy : ℚ) :
    hypotLtB dx dy (0.35 : ℚ) = true ↔ dx ^ 2 + dy ^ 2 < (0.35 : ℚ) ^ 2 := by
  unfold hypotLtB
  norm_num

/-- C8: along any sequence of collect_pellets calls, a pellet ends up
collected exactly when it started collected or some call's player position
came within Euclidean distance 0.35 of it (stated with squares); its
position never changes, so in particular the collected flag is monotone
and never reverts. -/
theorem collect_monotone_exact (calls : List (ℚ × ℚ)) :
    ∀ (ps : List Pellet) (i : ℕ) (p0 : Pellet), ps[i]? = some p0 →
      ∃ p1 : Pellet, (runCollect ps calls)[i]? = some p1 ∧
        p1.x = p0.x ∧ p1.y = p0.y ∧
        (p1.collected = true ↔
          (p0.collected = true ∨
            ∃ c ∈ calls, (c.1 - p0.x) ^ 2 + (c.2 - p0.y) ^ 2 < (0.35 : ℚ) ^ 2)) := by
  induction calls with
  | nil =>
    intro ps i p0 h
    refine ⟨p0, ?_, rfl, rfl, ?_⟩
    · simpa [runCollect] using h
    · simp
  | cons c cs ih =>
    intro ps i p0 h
    have hmap : ((collect_pellets c.1 c.2 ps (0.35 : ℚ)).1)[i]? =
        some (collectStep c.1 c.2 (0.35 : ℚ) p0) := by
      rw [collect_pellets_fst]
      simp [List.getElem?_map, h]
    have hrun : runCollect ps (c :: cs) =
        runCollect (collect_pellets c.1 c.2 ps (0.35 : ℚ)).1 cs := by
      simp [runCollect, List.foldl_cons]
    obtain ⟨p1, hget, hx, hy, hiff⟩ :=
      ih (collect_pellets c.1 c.2 ps (0.35 : ℚ)).1 i (collectStep c.1 c.2 (0.35 : ℚ) p0) hmap
    refine ⟨p1, by rw [hrun]; exact hget, ?_, ?_, ?_⟩
    · rw [hx]; exact (collectStep_pos c.1 c.2 (0.35 : ℚ) p0).1
    · rw [hy]; exact (collectStep_pos c.1 c.2 (0.35 : ℚ) p0).2
    · rw [hiff]
      rw [collectStep_collected]
      have hps := collectStep_pos c.1 c.2 (0.35 : ℚ) p0
      simp only [hps.1, hps.2, Bool.or_eq_true, hypotLtB_radius]
      constructor
      · rintro (⟨h0 | hc⟩ | ⟨d, hd, hlt⟩)
        · exact Or.inl h0
        · exact Or.inr ⟨c, List.mem_cons_self c cs, hc⟩
        · exact Or.inr ⟨d, List.mem_cons_of_mem c hd, hlt⟩
      · rintro (h0 | ⟨d, hd, hlt⟩)
        · exact Or.inl (Or.inl h0)
        · rcases List.mem_cons.1 hd with rfl | hd'
          · exact Or.inl (Or.inr hlt)
          · exact Or.inr ⟨d, hd', hlt⟩

/-- Witness for C8: the pellet at tile centre (4.5, 4.5) becomes collected
after a single call with the player at (4.4, 4.5), distance 0.1 < 0.35. -/
theorem collect_monotone_exact_witness :
    ∃ p1 : Pellet,
      (runCollect [⟨9/2, 9/2, false⟩] [(22/5, 9/2)])[0]? = some p1 ∧
      p1.x = (9/2 : ℚ) ∧ p1.y = (9/2 : ℚ) ∧
      (p1.collected = true ↔
        ((false : Bool) = true ∨
          ∃ c ∈ [((22/5 : ℚ), (9/2 : ℚ))],
            (c.1 - (9/2 : ℚ)) ^ 2 + (c.2 - (9/2 : ℚ)) ^ 2 < (0.35 : ℚ) ^ 2)) := by
  exact collect_monotone_exact [(22/5, 9/2)] [⟨9/2, 9/2, false⟩] 0 ⟨9/2, 9/2, false⟩ rfl

/-- C6: rotate_player applies one 2D rotation to both vectors, so both
squared magnitudes, the dot product and the cross product of the pair are
preserved exactly (hence magnitudes, perpendicularity and the field of
view are preserved, a fortiori to within any epsilon). -/
theorem rotate_player_preserves (dir_x dir_y plane_x plane_y angle : ℝ) :
    ((rotate_player dir_x dir_y plane_x plane_y angle).1.1 ^ 2 +
        (rotate_player dir_x dir_y plane_x plane_y angle).1.2 ^ 2 =
      dir_x ^ 2 + dir_y ^ 2) ∧
    ((rotate_player dir_x dir_y plane_x plane_y angle).2.1 ^ 2 +
        (rotate_player dir_x dir_y plane_x plane_y angle).2.2 ^ 2 =
      plane_x ^ 2 + plane_y ^ 2) ∧
    ((rotate_player dir_x dir_y plane_x plane_y angle).1.1 *
          (rotate_player dir_x dir_y plane_x plane_y angle).2.1 +
        (rotate_player dir_x dir_y plane_x plane_y angle).1.2 *
          (rotate_player dir_x dir_y plane_x plane_y angle).2.2 =
      dir_x * plane_x + dir_y * plane_y) ∧
    ((rotate_player dir_x dir_y plane_x plane_y angle).1.1 *
          (rotate_player dir_x dir_y plane_x plane_y angle).2.2 -
        (rotate_player dir_x dir_y plane_x plane_y angle).1.2 *
          (rotate_player dir_x dir_y plane_x plane_y angle).2.1 =
      dir_x * plane_y - dir_y * plane_x) := by
  unfold rotate_player
  dsimp only
  refine ⟨?_, ?_, ?_, ?_⟩
  · linear_combination (dir_x ^ 2 + dir_y ^ 2) * Real.sin_sq_add_cos_sq angle
  · linear_combination (plane_x ^ 2 + plane_y ^ 2) * Real.sin_sq_add_cos_sq angle
  · linear_combination (dir_x * plane_x + dir_y * plane_y) * Real.sin_sq_add_cos_sq angle
  · linear_combination (dir_x * plane_y - dir_y * plane_x) * Real.sin_sq_add_cos_sq angle

theorem mem_foldr_append {α β : Type} (f : α → List β) (l : List α) (b : β) :
    b ∈ l.foldr (fun a acc => f a ++ acc) [] ↔ ∃ a ∈ l, b ∈ f a := by
  induction l with
  | nil => simp
  | cons x xs ih => simp [List.foldr_cons, List.mem_append, ih]

theorem stripeEvents_mem {depth : List (Option ℚ)} {dsx dex sl w : ℤ} {ty : ℚ}
    {ev : ℤ × ℚ} (h : ev ∈ stripeEvents depth dsx dex sl w ty) :
    0 ≤ ev.1 ∧ ev.1 < (SCREEN_WIDTH : ℤ) ∧ ev.2 = ty ∧
      ∀ v, depthAt depth ev.1 = some v → ev.2 < v := by
  unfold stripeEvents at h
  rcases List.mem_filterMap.1 h with ⟨a, _ha, hsome⟩
  dsimp only at hsome
  by_cases hc : 0 ≤ a ∧ a < (SCREEN_WIDTH : ℤ) ∧ 0 ≤ a - sl ∧ a - sl < w ∧
      eLt (some ty) (depthAt depth a) = true
  · rw [if_pos hc] at hsome
    obtain ⟨h1, h2, _h3, _h4, h5⟩ := hc
    injection hsome with hev
    subst hev
    refine ⟨h1, h2, rfl, ?_⟩
    intro v hv
    rw [hv] at h5
    simpa [eLt] using h5
  · rw [if_neg hc] at hsome
    exact absurd hsome (by simp)

theorem monsterStripes_mem {pl : Player} {depth : List (Option ℚ)} {mx my : ℚ}
    {ev : ℤ × ℚ} (h : ev ∈ monsterStripes pl depth mx my) :
    0 ≤ ev.1 ∧ ev.1 < (SCREEN_WIDTH : ℤ) ∧ 0 < ev.2 ∧
      ∀ v, depthAt depth ev.1 = some v → ev.2 < v := by
  unfold monsterStripes at h
  by_cases h0 : (spriteTransform pl (mx - pl.x) (my - pl.y)).2 ≤ 0
  · rw [if_pos h0] at h
    exact absurd h (by simp)
  · rw [if_neg h0] at h
    dsimp only at h
    split at h
    · exact absurd h (by simp)
    · rcases stripeEvents_mem h with ⟨h1, h2, h3, h4⟩
      exact ⟨h1, h2, by rw [h3]; exact lt_of_not_le h0, h4⟩

theorem pelletStripes_mem {pl : Player} {depth : List (Option ℚ)} {w0 h0q : ℚ}
    {p : Pellet} {ev : ℤ × ℚ} (h : ev ∈ pelletStripes pl depth w0 h0q p) :
    0 ≤ ev.1 ∧ ev.1 < (SCREEN_WIDTH : ℤ) ∧ 0 < ev.2 ∧
      ∀ v, depthAt depth ev.1 = some v → ev.2 < v := by
  unfold pelletStripes at h
  by_cases h0 : (spriteTransform pl (p.x - pl.x) (p.y - pl.y)).2 ≤ 0
  · rw [if_pos h0] at h
    exact absurd h (by simp)
  · rw [if_neg h0] at h
    dsimp only at h
    split at h
    · exact absurd h (by simp)
    · rcases stripeEvents_mem h with ⟨h1, h2, h3, h4⟩
      exact ⟨h1, h2, by rw [h3]; exact lt_of_not_le h0, h4⟩

theorem draw_monsters_mem {pl : Player} {monsters : List (ℚ × ℚ)}
    {depth : List (Option ℚ)} {framesLen : ℕ} {ev : ℤ × ℚ}
    (h : ev ∈ draw_monsters pl monsters depth framesLen) :
    0 ≤ ev.1 ∧ ev.1 < (SCREEN_WIDTH : ℤ) ∧ 0 < ev.2 ∧
      ∀ v, depthAt depth ev.1 = some v → ev.2 < v := by
  unfold draw_monsters at h
  split at h
  · exact absurd h (by simp)
  · split at h
    · exact absurd h (by simp)
    · rcases (mem_foldr_append _ _ _).1 h with ⟨m, _hm, hev⟩
      exact monsterStripes_mem hev

theorem draw_collectibles_mem {pl : Player} {pellets : List Pellet}
    {depth : List (Option ℚ)} {w0 h0q : ℚ} {ev : ℤ × ℚ}
    (h : ev ∈ draw_collectibles pl pellets depth w0 h0q) :
    0 ≤ ev.1 ∧ ev.1 < (SCREEN_WIDTH : ℤ) ∧ 0 < ev.2 ∧
      ∀ v, depthAt depth ev.1 = some v → ev.2 < v := by
  unfold draw_collectibles at h
  split at h
  · exact absurd h (by simp)
  · rcases (mem_foldr_append _ _ _).1 h with ⟨p, _hp, hev⟩
    by_cases hcol : p.collected
    · rw [if_pos hcol] at hev
      exact absurd hev (by simp)
    · rw [if_neg hcol] at hev
      exact pelletStripes_mem hev

/-- C4: for every player state, depth buffer and billboard (monster or
pellet), a stripe is drawn into a screen column only when the column is
within screen bounds and the depth buffer value there is strictly greater
than the billboard's camera-space depth; a column whose buffer value is
less than or equal to the sprite depth is never drawn. -/
theorem sprite_depth_occlusion (pl : Player) (monsters : List (ℚ × ℚ))
    (pellets : List Pellet) (depth : List (Option ℚ)) (framesLen : ℕ) (w0 h0q : ℚ) :
    (∀ ev ∈ draw_monsters pl monsters depth framesLen,
        0 ≤ ev.1 ∧ ev.1 < (SCREEN_WIDTH : ℤ) ∧
          ∀ v, depthAt depth ev.1 = some v → ev.2 < v) ∧
    (∀ ev ∈ draw_collectibles pl pellets depth w0 h0q,
        0 ≤ ev.1 ∧ ev.1 < (SCREEN_WIDTH : ℤ) ∧
          ∀ v, depthAt depth ev.1 = some v → ev.2 < v) := by
  constructor
  · intro ev hev
    rcases draw_monsters_mem hev with ⟨h1, h2, _h3, h4⟩
    exact ⟨h1, h2, h4⟩
  · intro ev hev
    rcases draw_collectibles_mem hev with ⟨h1, h2, _h3, h4⟩
    exact ⟨h1, h2, h4⟩

theorem ddaStep_steps (rs : RaySetup) (s : DState) :
    (ddaStep rs s).steps = s.steps + 1 := by
  unfold ddaStep
  split <;> rfl

theorem ddaStep_iterate_steps (rs : RaySetup) (n : ℕ) (s : DState) :
    ((ddaStep rs)^[n] s).steps = s.steps + n := by
  induction n with
  | zero => rfl
  | succ k ih =>
    rw [Function.iterate_succ_apply', ddaStep_steps, ih]
    omega

theorem ddaLoop_spec (rs : RaySetup) : ∀ (fuel : ℕ) (s : DState),
    (match ddaLoop rs fuel s with
     | some (c, t) => ∃ n, 1 ≤ n ∧ n ≤ fuel ∧ t = (ddaStep rs)^[n] s ∧ ddaBad t ∧
         (∀ k, 1 ≤ k → k < n → ¬ ddaBad ((ddaStep rs)^[k] s)) ∧
         (ddaOut t → c = '1') ∧ (¬ ddaOut t → c = tileAt t.map_x t.map_y ∧ c ≠ '0')
     | none => ∀ k, 1 ≤ k → k ≤ fuel → ¬ ddaBad ((ddaStep rs)^[k] s)) := by
  intro fuel
  induction fuel with
  | zero =>
    intro s
    simp only [ddaLoop]
    intro k h1 h2
    omega
  | succ f ih =>
    intro s
    simp only [ddaLoop]
    by_cases hout : ddaOut (ddaStep rs s)
    · rw [if_pos hout]
      exact ⟨1, le_refl 1, by omega, (Function.iterate_one (ddaStep rs) ▸ rfl),
        Or.inl hout, fun k h1 h2 => absurd (lt_of_lt_of_le h2 h1) (lt_irrefl k),
        fun _ => rfl, fun hn => absurd hout hn⟩
    · rw [if_neg hout]
      by_cases htile : tileAt (ddaStep rs s).map_x (ddaStep rs s).map_y ≠ '0'
      · rw [if_pos htile]
        exact ⟨1, le_refl 1, by omega, (Function.iterate_one (ddaStep rs) ▸ rfl),
          Or.inr htile, fun k h1 h2 => absurd (lt_of_lt_of_le h2 h1) (lt_irrefl k),
          fun hob => absurd hob hout, fun _ => ⟨rfl, htile⟩⟩
      · rw [if_neg htile]
        have hnotbad : ¬ ddaBad (ddaStep rs s) := by
          unfold ddaBad
          push_neg
          exact ⟨hout, not_not.1 htile⟩
        have h := ih (ddaStep rs s)
        cases hres : ddaLoop rs f (ddaStep rs s) with
        | none =>
          rw [hres] at h
          intro k h1 h2
          rcases Nat.exists_eq_add_of_le h1 with ⟨j, hj⟩
          subst hj
          cases j with
          | zero =>
            simpa [Function.iterate_one] using hnotbad
          | succ i =>
            have := h (i + 1) (by omega) (by omega)
            rw [← Function.iterate_succ_apply] at this
            simpa [Nat.add_comm] using this
        | some ct =>
          rw [hres] at h
          obtain ⟨c, t⟩ := ct
          obtain ⟨n, hn1, hnf, ht, hbad, hmin, hc1, hc2⟩ := h
          refine ⟨n + 1, by omega, by omega, ?_, hbad, ?_, hc1, hc2⟩
          · rw [ht, ← Function.iterate_succ_apply]
          · intro k h1 h2
            rcases Nat.exists_eq_add_of_le h1 with ⟨j, hj⟩
            subst hj
            cases j with
            | zero =>
              simpa [Function.iterate_one] using hnotbad
            | succ i =>
              have := hmin (i + 1) (by omega) (by omega)
              rw [← Function.iterate_succ_apply] at this
              simpa [Nat.add_comm] using this

theorem columnSetup_start_steps (pl : Player) (column : ℕ) :
    (columnSetup pl column).start.steps = 0 := rfl

theorem castColumn_def (pl : Player) (column : ℕ) :
    castColumn pl column =
      (match ddaLoop (columnSetup pl column) (MAP_WIDTH * MAP_HEIGHT)
          (columnSetup pl column).start with
      | none => none
      | some (tile, s) =>
        some { tile := tile, side := s.side,
               perp := max (if s.side = 0 then
                   eSub s.side_dist_x (columnSetup pl column).delta_dist_x
                 else eSub s.side_dist_y (columnSetup pl column).delta_dist_y) (0.0001 : ℚ),
               steps := s.steps }) := rfl

/-- C7: for every column and player state, the DDA traversal stops within
MAP_WIDTH * MAP_HEIGHT steps: on a hit the number of steps taken is at
most the cap, every earlier stepped-into cell was open and inside the
grid, the final cell is blocking or outside, and a step that leaves the
grid reports the default wall material '1'; when the cap runs out without
a hit, every stepped-into cell up to the cap was open and inside. -/
theorem dda_step_cap (pl : Player) (column : ℕ) :
    (∀ r : ColHit, castColumn pl column = some r →
       1 ≤ r.steps ∧ r.steps ≤ MAP_WIDTH * MAP_HEIGHT ∧
       (∃ t : DState,
          t = (ddaStep (columnSetup pl column))^[r.steps] (columnSetup pl column).start ∧
          ddaBad t ∧ (ddaOut t → r.tile = '1') ∧
          (¬ ddaOut t → r.tile = tileAt t.map_x t.map_y)) ∧
       (∀ k, 1 ≤ k → k < r.steps →
          ¬ ddaBad ((ddaStep (columnSetup pl column))^[k] (columnSetup pl column).start))) ∧
    (castColumn pl column = none →
       ∀ k, 1 ≤ k → k ≤ MAP_WIDTH * MAP_HEIGHT →
         ¬ ddaBad ((ddaStep (columnSetup pl column))^[k] (columnSetup pl column).start)) := by
  have hspec := ddaLoop_spec (columnSetup pl column) (MAP_WIDTH * MAP_HEIGHT)
    (columnSetup pl column).start
  constructor
  · intro r hr
    rw [castColumn_def] at hr
    cases hres : ddaLoop (columnSetup pl column) (MAP_WIDTH * MAP_HEIGHT)
        (columnSetup pl column).start with
    | none =>
      rw [hres] at hr
      exact absurd hr (by simp)
    | some ct =>
      obtain ⟨c, t⟩ := ct
      rw [hres] at hr hspec
      dsimp only at hr hspec
      obtain ⟨n, hn1, hnf, ht, hbad, hmin, hc1, hc2⟩ := hspec
      have hsteps : t.steps = n := by
        rw [ht, ddaStep_iterate_steps, columnSetup_start_steps]
        omega
      injection hr with hr'
      have hrsteps : r.steps = n := by rw [← hr']; exact hsteps
      have hrtile : r.tile = c := by rw [← hr']
      refine ⟨by omega, by omega, ⟨t, by rw [hrsteps, ← ht], hbad, ?_, ?_⟩, ?_⟩
      · intro hob
        rw [hrtile]
        exact hc1 hob
      · intro hob
        rw [hrtile]
        exact (hc2 hob).1
      · intro k h1 h2
        rw [hrsteps] at h2
        exact hmin k h1 h2
  · intro hr
    rw [castColumn_def] at hr
    cases hres : ddaLoop (columnSetup pl column) (MAP_WIDTH * MAP_HEIGHT)
        (columnSetup pl column).start with
    | none =>
      rw [hres] at hspec
      exact hspec
    | some ct =>
      obtain ⟨c, t⟩ := ct
      rw [hres] at hr
      exact absurd hr (by simp)

theorem columnSetup_ray_dir_x (pl : Player) (column : ℕ) :
    (columnSetup pl column).ray_dir_x =
      pl.dir_x + pl.plane_x * (2 * column / SCREEN_WIDTH - 1) := rfl

theorem columnSetup_ray_dir_y (pl : Player) (column : ℕ) :
    (columnSetup pl column).ray_dir_y =
      pl.dir_y + pl.plane_y * (2 * column / SCREEN_WIDTH - 1) := rfl

theorem columnSetup_delta_x (pl : Player) (column : ℕ) :
    (columnSetup pl column).delta_dist_x =
      (if (columnSetup pl column).ray_dir_x = 0 then none
       else some |1 / (columnSetup pl column).ray_dir_x|) := rfl

theorem columnSetup_delta_y (pl : Player) (column : ℕ) :
    (columnSetup pl column).delta_dist_y =
      (if (columnSetup pl column).ray_dir_y = 0 then none
       else some |1 / (columnSetup pl column).ray_dir_y|) := rfl

/-- C9: with a zero camera determinant the compositor draws nothing at
all; every drawn stripe's billboard has strictly positive camera-space
depth (so the projection divisions have nonzero denominators); the
raycaster's clamped perpendicular distance is at least 0.0001 before it
divides by it; and a zero ray component yields the infinite delta
distance instead of a division by zero. -/
theorem division_guards :
    (∀ (pl : Player) (monsters : List (ℚ × ℚ)) (pellets : List Pellet)
        (depth : List (Option ℚ)) (framesLen : ℕ) (w0 h0q : ℚ), camDet pl = 0 →
      draw_monsters pl monsters depth framesLen = [] ∧
      draw_collectibles pl pellets depth w0 h0q = []) ∧
    (∀ (pl : Player) (monsters : List (ℚ × ℚ)) (depth : List (Option ℚ)) (framesLen : ℕ),
      ∀ ev ∈ draw_monsters pl monsters depth framesLen, 0 < ev.2) ∧
    (∀ (pl : Player) (pellets : List Pellet) (depth : List (Option ℚ)) (w0 h0q : ℚ),
      ∀ ev ∈ draw_collectibles pl pellets depth w0 h0q, 0 < ev.2) ∧
    (∀ (pl : Player) (column : ℕ) (r : ColHit),
      castColumn pl column = some r → (0.0001 : ℚ) ≤ r.perp) ∧
    (∀ (pl : Player) (column : ℕ),
      ((columnSetup pl column).ray_dir_x = 0 → (columnSetup pl column).delta_dist_x = none) ∧
      ((columnSetup pl column).ray_dir_y = 0 → (columnSetup pl column).delta_dist_y = none)) := by
  refine ⟨?_, ?_, ?_, ?_, ?_⟩
  · intro pl monsters pellets depth framesLen w0 h0q h
    constructor
    · unfold draw_monsters
      rw [if_pos h]
    · unfold draw_collectibles
      rw [if_pos (Or.inl h)]
  · intro pl monsters depth framesLen ev hev
    exact (draw_monsters_mem hev).2.2.1
  · intro pl pellets depth w0 h0q ev hev
    exact (draw_collectibles_mem hev).2.2.1
  · intro pl column r hr
    rw [castColumn_def] at hr
    cases hres : ddaLoop (columnSetup pl column) (MAP_WIDTH * MAP_HEIGHT)
        (columnSetup pl column).start with
    | none =>
      rw [hres] at hr
      exact absurd hr (by simp)
    | some ct =>
      obtain ⟨c, t⟩ := ct
      rw [hres] at hr
      dsimp only at hr
      injection hr with hr'
      rw [← hr']
      exact le_max_right _ _
  · intro pl column
    constructor
    · intro h
      rw [columnSetup_delta_x, if_pos h]
    · intro h
      rw [columnSetup_delta_y, if_pos h]

theorem ddaLoop_succ (rs : RaySetup) (f : ℕ) (s : DState) :
    ddaLoop rs (f + 1) s =
      if ddaOut (ddaStep rs s) then some ('1', ddaStep rs s)
      else if tileAt (ddaStep rs s).map_x (ddaStep rs s).map_y ≠ '0' then
        some (tileAt (ddaStep rs s).map_x (ddaStep rs s).map_y, ddaStep rs s)
      else ddaLoop rs f (ddaStep rs s) := rfl

theorem columnSetup_spawn :
    columnSetup spawn_player 480 =
      { ray_dir_x := -1, ray_dir_y := 0, delta_dist_x := some 1, delta_dist_y := none,
        step_x := -1, step_y := 1,
        start := { map_x := 3, map_y := 3, side_dist_x := some (1/2), side_dist_y := none,
                   side := 0, steps := 0 } } := by
  unfold columnSetup spawn_player
  norm_num [SCREEN_WIDTH, pyInt, eScale]

theorem castColumn_spawn :
    castColumn spawn_player 480 = some { tile := '1', side := 0, perp := 1/2, steps := 1 } := by
  rw [castColumn_def, columnSetup_spawn]
  have hstep : ddaStep
      { ray_dir_x := -1, ray_dir_y := 0, delta_dist_x := some 1, delta_dist_y := none,
        step_x := -1, step_y := 1,
        start := { map_x := 3, map_y := 3, side_dist_x := some (1/2), side_dist_y := none,
                   side := 0, steps := 0 } }
      { map_x := 3, map_y := 3, side_dist_x := some (1/2), side_dist_y := none,
        side := 0, steps := 0 } =
      { map_x := 2, map_y := 3, side_dist_x := some (1/2 + 1), side_dist_y := none,
        side := 0, steps := 1 } := by
    unfold ddaStep
    norm_num [eLt, eAdd]
  rw [show MAP_WIDTH * MAP_HEIGHT = 398 + 1 from rfl, ddaLoop_succ, hstep]
  have hno : ¬ ddaOut { map_x := 2, map_y := 3, side_dist_x := some (1/2 + 1), side_dist_y := none, side := 0, steps := 1 } := by
    unfold ddaOut
    norm_num [MAP_WIDTH_eq, MAP_HEIGHT_eq]
  rw [if_neg hno]
  have htile : tileAt (2 : ℤ) (3 : ℤ) = '1' := rfl
  rw [if_pos (by rw [htile]; decide)]
  dsimp only
  rw [htile]
  have hsub : eSub (some (1/2 + 1 : ℚ)) (some 1) = 1/2 := by norm_num [eSub]
  rw [hsub, if_pos rfl, max_eq_left (by norm_num : (0.0001 : ℚ) ≤ 1/2)]

/-- Witness for C7 at the spawn player, column 480: the ray hits the wall
west of the spawn after exactly one DDA step, within the step cap. -/
theorem dda_step_cap_witness :
    1 ≤ (1 : ℕ) ∧ (1 : ℕ) ≤ MAP_WIDTH * MAP_HEIGHT ∧
    (∃ t : DState,
        t = (ddaStep (columnSetup spawn_player 480))^[1] (columnSetup spawn_player 480).start ∧
        ddaBad t ∧ (ddaOut t → ('1' : Char) = '1') ∧
        (¬ ddaOut t → ('1' : Char) = tileAt t.map_x t.map_y)) ∧
    (∀ k, 1 ≤ k → k < 1 →
        ¬ ddaBad ((ddaStep (columnSetup spawn_player 480))^[k]
          (columnSetup spawn_player 480).start)) :=
  (dda_step_cap spawn_player 480).1 { tile := '1', side := 0, perp := 1/2, steps := 1 }
    castColumn_spawn

/-- Witness for C9: a degenerate camera (dir and plane parallel) draws no
billboards at all, the clamped perpendicular distance at the spawn column
is 1/2 which is at least 0.0001, and the spawn ray's zero Y component
produces the infinite delta distance. -/
theorem division_guards_witness :
    draw_monsters ⟨0, 0, 1, 0, 1, 0⟩ [(5, 5)] [] 4 = [] ∧
    draw_collectibles ⟨0, 0, 1, 0, 1, 0⟩ [⟨5, 5, false⟩] [] 26 26 = [] ∧
    (0.0001 : ℚ) ≤ (1/2 : ℚ) ∧
    (columnSetup spawn_player 480).delta_dist_y = none := by
  have hdet : camDet ⟨0, 0, 1, 0, 1, 0⟩ = 0 := by norm_num [camDet]
  obtain ⟨h1, h2⟩ :=
    division_guards.1 ⟨0, 0, 1, 0, 1, 0⟩ [(5, 5)] [⟨5, 5, false⟩] [] 4 26 26 hdet
  refine ⟨h1, h2, ?_, ?_⟩
  · exact division_guards.2.2.2.1 spawn_player 480
      { tile := '1', side := 0, perp := 1/2, steps := 1 } castColumn_spawn
  · refine (division_guards.2.2.2.2 spawn_player 480).2 ?_
    rw [columnSetup_ray_dir_y]
    norm_num [spawn_player, SCREEN_WIDTH]

theorem monsterStripes_far_eval :
    monsterStripes ⟨0, 0, 0, 1, 1, 0⟩ (List.replicate 960 (some 200)) 0 100 =
      stripeEvents (List.replicate 960 (some 200)) 477 483 477 6 100 := by
  unfold monsterStripes
  norm_num [spriteTransform, camDet, pyInt, SCREEN_WIDTH, SCREEN_HEIGHT]
  rw [show Int.fdiv (-6 : ℤ) 2 = -3 from by decide, show Int.fdiv (6 : ℤ) 2 = 3 from by decide,
    show Int.fdiv (600 : ℤ) 2 = 300 from by decide, if_neg (by decide)]
  norm_num [show ((477 : ℤ) ⊔ 0) = 477 from by decide, show ((483 : ℤ) ⊓ 959) = 483 from by decide]

theorem pelletStripes_far_eval :
    pelletStripes ⟨0, 0, 0, 1, 1, 0⟩ (List.replicate 960 (some 200)) 26 26 ⟨0, 100, false⟩ =
      stripeEvents (List.replicate 960 (some 200)) 479 481 479 2 100 := by
  unfold pelletStripes
  norm_num [spriteTransform, camDet, pyInt, SCREEN_WIDTH, SCREEN_HEIGHT]
  rw [show Int.fdiv (600 : ℤ) 2 = 300 from by decide, if_neg (by decide)]
  norm_num [show Int.fdiv (-2 : ℤ) 2 = -1 from by decide,
    show ((479 : ℤ) ⊔ 0) = 479 from by decide]

/-- Witness for C4: with the camera at the origin looking along +Y, a
monster 100 tiles ahead draws its stripe into column 477 and a pellet
draws into column 479; both columns are in bounds and their depth-buffer
values 200 exceed the billboard depth 100. -/
theorem sprite_depth_occlusion_witness :
    (((477 : ℤ), (100 : ℚ)) ∈ draw_monsters ⟨0, 0, 0, 1, 1, 0⟩ [(0, 100)]
        (List.replicate 960 (some 200)) 4 ∧
      0 ≤ (477 : ℤ) ∧ (477 : ℤ) < (SCREEN_WIDTH : ℤ) ∧
      (∀ v, depthAt (List.replicate 960 (some 200)) (477 : ℤ) = some v → (100 : ℚ) < v)) ∧
    (((479 : ℤ), (100 : ℚ)) ∈ draw_collectibles ⟨0, 0, 0, 1, 1, 0⟩ [⟨0, 100, false⟩]
        (List.replicate 960 (some 200)) 26 26 ∧
      0 ≤ (479 : ℤ) ∧ (479 : ℤ) < (SCREEN_WIDTH : ℤ) ∧
      (∀ v, depthAt (List.replicate 960 (some 200)) (479 : ℤ) = some v → (100 : ℚ) < v)) := by
  have hm : ((477 : ℤ), (100 : ℚ)) ∈ draw_monsters ⟨0, 0, 0, 1, 1, 0⟩ [(0, 100)]
      (List.replicate 960 (some 200)) 4 := by
    unfold draw_monsters
    rw [if_neg (by norm_num [camDet]), if_neg (by norm_num)]
    simp only [List.foldr_cons, List.foldr_nil, List.append_nil]
    rw [monsterStripes_far_eval]
    decide
  have hp : ((479 : ℤ), (100 : ℚ)) ∈ draw_collectibles ⟨0, 0, 0, 1, 1, 0⟩ [⟨0, 100, false⟩]
      (List.replicate 960 (some 200)) 26 26 := by
    unfold draw_collectibles
    rw [if_neg (by simp [camDet])]
    simp only [List.foldr_cons, List.foldr_nil, List.append_nil]
    rw [if_neg (by decide), pelletStripes_far_eval]
    decide
  refine ⟨⟨hm, ?_⟩, ⟨hp, ?_⟩⟩
  · exact (sprite_depth_occlusion ⟨0, 0, 0, 1, 1, 0⟩ [(0, 100)] [⟨0, 100, false⟩]
      (List.replicate 960 (some 200)) 4 26 26).1 ((477 : ℤ), (100 : ℚ)) hm
  · exact (sprite_depth_occlusion ⟨0, 0, 0, 1, 1, 0⟩ [(0, 100)] [⟨0, 100, false⟩]
      (List.replicate 960 (some 200)) 4 26 26).2 ((479 : ℤ), (100 : ℚ)) hp

theorem update_monster_invoked_iff (px py dt : ℝ) (m : Monster) :
    (update_monster px py dt m).2 = true ↔
      (m.path_cooldown - dt ≤ 0 ∨ m.path = [] ∨
        m.path.getLast? ≠ some (pyIntR px, pyIntR py) ∨
        (pyIntR m.x, pyIntR m.y) ∉ m.path) := by
  by_cases hc : m.path_cooldown - dt ≤ 0 ∨ m.path = [] ∨
      m.path.getLast? ≠ some (pyIntR px, pyIntR py) ∨ (pyIntR m.x, pyIntR m.y) ∉ m.path
  · simp only [update_monster]
    rw [if_pos hc]
    simpa using hc
  · simp only [update_monster]
    rw [if_neg hc]
    simpa using hc

theorem update_monster_cooldown_true (px py dt : ℝ) (m : Monster)
    (h : (update_monster px py dt m).2 = true) :
    (update_monster px py dt m).1.path_cooldown = 0.4 := by
  by_cases hc : m.path_cooldown - dt ≤ 0 ∨ m.path = [] ∨
      m.path.getLast? ≠ some (pyIntR px, pyIntR py) ∨ (pyIntR m.x, pyIntR m.y) ∉ m.path
  · simp only [update_monster]
    rw [if_pos hc]
  · simp only [update_monster] at h
    rw [if_neg hc] at h
    exact absurd h (by simp)

theorem update_monster_cooldown_false (px py dt : ℝ) (m : Monster)
    (h : (update_monster px py dt m).2 = false) :
    (update_monster px py dt m).1.path_cooldown = m.path_cooldown - dt := by
  by_cases hc : m.path_cooldown - dt ≤ 0 ∨ m.path = [] ∨
      m.path.getLast? ≠ some (pyIntR px, pyIntR py) ∨ (pyIntR m.x, pyIntR m.y) ∉ m.path
  · simp only [update_monster] at h
    rw [if_pos hc] at h
    exact absurd h (by simp)
  · simp only [update_monster]
    rw [if_neg hc]

theorem runTicks_cooldown_of_no_invoke :
    ∀ (seg : List ((ℝ × ℝ) × ℝ)) (m : Monster),
      (∀ b ∈ (runTicks m seg).2, b = false) →
      (runTicks m seg).1.path_cooldown =
        m.path_cooldown - (seg.map (fun t => t.2)).sum := by
  intro seg
  induction seg with
  | nil =>
    intro m _h
    simp [runTicks]
  | cons t ts ih =>
    intro m h
    simp only [runTicks] at h ⊢
    have hr : (update_monster t.1.1 t.1.2 t.2 m).2 = false :=
      h _ (List.mem_cons_self _ _)
    have hrest : ∀ b ∈ (runTicks (update_monster t.1.1 t.1.2 t.2 m).1 ts).2, b = false :=
      fun b hb => h b (List.mem_cons_of_mem _ hb)
    rw [ih _ hrest, update_monster_cooldown_false _ _ _ _ hr]
    simp only [List.map_cons, List.sum_cons]
    ring

/-- C3 amended: the 0.4-second throttle holds only while the cached path
stays valid.  Every tick that invokes astar_path leaves the cooldown at
0.4 seconds, and a later invocation that fires while the cached path is
nonempty, still ends at the current goal tile and still contains the
monster's tile can only happen once at least 0.4 seconds of delta time
have accumulated since the previous invocation.  (An invocation caused by
a changed goal tile or an invalidated cache may fire sooner, as the
counterexample shows.) -/
theorem search_throttle_amended :
    (∀ (px py dt : ℝ) (m : Monster),
        (update_monster px py dt m).2 = true →
        (update_monster px py dt m).1.path_cooldown = 0.4) ∧
    (∀ (m : Monster) (seg : List ((ℝ × ℝ) × ℝ)) (tj : (ℝ × ℝ) × ℝ),
        m.path_cooldown = 0.4 →
        (∀ b ∈ (runTicks m seg).2, b = false) →
        (update_monster tj.1.1 tj.1.2 tj.2 (runTicks m seg).1).2 = true →
        (runTicks m seg).1.path ≠ [] →
        (runTicks m seg).1.path.getLast? = some (pyIntR tj.1.1, pyIntR tj.1.2) →
        (pyIntR (runTicks m seg).1.x, pyIntR (runTicks m seg).1.y) ∈ (runTicks m seg).1.path →
        (0.4 : ℝ) ≤ (seg.map (fun t => t.2)).sum + tj.2) := by
  constructor
  · exact update_monster_cooldown_true
  · intro m seg tj hcd hflags hinv h1 h2 h3
    have hC := (update_monster_invoked_iff _ _ _ _).1 hinv
    rcases hC with h | h | h | h
    · have hacc := runTicks_cooldown_of_no_invoke seg m hflags
      rw [hacc, hcd] at h
      have : (0.4 : ℝ) ≤ (seg.map (fun t => t.2)).sum + tj.2 := by linarith
      exact this
    · exact absurd h h1
    · exact absurd h2 h
    · exact absurd h3 h

theorem pyIntR_155 : pyIntR (15.5 : ℝ) = 15 := by norm_num [pyIntR]

theorem pyIntR_95 : pyIntR (9.5 : ℝ) = 9 := by norm_num [pyIntR]

theorem pyIntR_135 : pyIntR (13.5 : ℝ) = 13 := by norm_num [pyIntR]

theorem tick1_flag :
    (update_monster 15.5 9.5 0 ⟨15.5, 9.5, 1.2, 0, 0, [], 0.0⟩).2 = true := by
  rw [update_monster_invoked_iff]
  exact Or.inr (Or.inl rfl)

theorem tick1_path :
    (update_monster 15.5 9.5 0 ⟨15.5, 9.5, 1.2, 0, 0, [], 0.0⟩).1.path = [(15, 9)] := by
  simp only [update_monster, pyIntR_155, pyIntR_95]
  rw [show astar_path ((15, 9) : Cell) ((15, 9) : Cell) = [((15, 9) : Cell)] from by
    simp [astar_path]]
  norm_num

theorem tick2_flag :
    (update_monster 13.5 9.5 0
      (update_monster 15.5 9.5 0 ⟨15.5, 9.5, 1.2, 0, 0, [], 0.0⟩).1).2 = true := by
  rw [update_monster_invoked_iff]
  refine Or.inr (Or.inr (Or.inl ?_))
  rw [tick1_path, pyIntR_135, pyIntR_95]
  simp

/-- C3 counterexample: a monster with expired cooldown at (15.5, 9.5) and
a player who moves from tile (15, 9) to tile (13, 9) between two ticks of
zero delta time makes astar_path run on both ticks: the goal-tile change
forces an immediate replan, so consecutive invocations are 0 < 0.4
seconds apart. -/
theorem search_throttle_counterexample : ¬ searchThrottleClaim := by
  intro h
  have hflags : (runTicks ⟨15.5, 9.5, 1.2, 0, 0, [], 0.0⟩
      [((15.5, 9.5), 0), ((13.5, 9.5), 0)]).2 = [true, true] := by
    simp only [runTicks]
    rw [tick1_flag, tick2_flag]
  have hcon := h ⟨15.5, 9.5, 1.2, 0, 0, [], 0.0⟩ [((15.5, 9.5), 0), ((13.5, 9.5), 0)] 0 1
    (by norm_num) (by norm_num)
    (by rw [hflags]; rfl) (by rw [hflags]; rfl)
    (by intro k hk1 hk2; omega)
  rw [show elapsedBetween [((15.5, 9.5), 0), ((13.5, 9.5), 0)] 0 1 = 0 from by
    simp [elapsedBetween]] at hcon
  norm_num at hcon

/-- Witness for the amended C3: a tick that invokes astar_path leaves a
0.4-second cooldown, and with the player staying on the monster's tile a
second invocation (with the cached one-cell path still valid) needs a
full 0.4 seconds of elapsed time. -/
theorem search_throttle_amended_witness :
    (update_monster 15.5 9.5 0 ⟨15.5, 9.5, 1.2, 0, 0, [], 0.0⟩).1.path_cooldown = 0.4 ∧
    (0.4 : ℝ) ≤ (([] : List ((ℝ × ℝ) × ℝ)).map (fun t => t.2)).sum +
      (((15.5, 9.5), (0.4 : ℝ)) : (ℝ × ℝ) × ℝ).2 := by
  constructor
  · exact search_throttle_amended.1 15.5 9.5 0 ⟨15.5, 9.5, 1.2, 0, 0, [], 0.0⟩ tick1_flag
  · refine search_throttle_amended.2 ⟨15.5, 9.5, 1.2, 0, 0, [(15, 9)], 0.4⟩ []
      ((15.5, 9.5), 0.4) rfl ?_ ?_ ?_ ?_ ?_
    · intro b hb
      simp [runTicks] at hb
    · show (update_monster 15.5 9.5 0.4 ⟨15.5, 9.5, 1.2, 0, 0, [(15, 9)], 0.4⟩).2 = true
      rw [update_monster_invoked_iff]
      exact Or.inl (by norm_num)
    · show ([(15, 9)] : List Cell) ≠ []
      simp
    · show ([((15, 9) : Cell)]).getLast? = some (pyIntR 15.5, pyIntR 9.5)
      rw [pyIntR_155, pyIntR_95]
      rfl
    · show ((pyIntR 15.5, pyIntR 9.5) : Cell) ∈ ([((15, 9) : Cell)])
      rw [pyIntR_155, pyIntR_95]
      simp

theorem alookup_nil {α β : Type} [DecidableEq α] (a : α) :
    alookup ([] : List (α × β)) a = none := rfl

theorem alookup_cons {α β : Type} [DecidableEq α] (k : α) (v : β) (ps : List (α × β)) (a : α) :
    alookup ((k, v) :: ps) a = if a = k then some v else alookup ps a := rfl

theorem alookup_mem {α β : Type} [DecidableEq α] {l : List (α × β)} {a : α} {b : β}
    (h : alookup l a = some b) : (a, b) ∈ l := by
  induction l with
  | nil => exact absurd h (by simp [alookup_nil])
  | cons p ps ih =>
    obtain ⟨k, v⟩ := p
    rw [alookup_cons] at h
    by_cases hk : a = k
    · rw [if_pos hk] at h
      injection h with h
      subst hk
      subst h
      exact List.mem_cons_self _ _
    · rw [if_neg hk] at h
      exact List.mem_cons_of_mem _ (ih h)

theorem not_key_iff {α β : Type} [DecidableEq α] (l : List (α × β)) (k : α) :
    k ∉ l.map Prod.fst ↔ ∀ q ∈ l, q.1 ≠ k := by
  simp only [List.mem_map, not_exists]
  constructor
  · intro h q hq hqk
    exact (h q) ⟨hq, hqk⟩
  · rintro h q ⟨hq, hqk⟩
    exact h q hq hqk

theorem alookup_none_iff {α β : Type} [DecidableEq α] (l : List (α × β)) (a : α) :
    alookup l a = none ↔ ∀ q ∈ l, q.1 ≠ a := by
  induction l with
  | nil => simp [alookup_nil]
  | cons p ps ih =>
    obtain ⟨k, v⟩ := p
    rw [alookup_cons]
    by_cases hk : a = k
    · subst hk
      simp only [if_pos rfl]
      constructor
      · intro h
        exact absurd h (by simp)
      · intro h
        exact absurd rfl (h (a, v) (List.mem_cons_self _ _))
    · rw [if_neg hk]
      rw [ih]
      constructor
      · intro h q hq
        rcases List.mem_cons.1 hq with hq' | hq'
        · rw [hq']
          exact fun hh => hk hh.symm
        · exact h q hq'
      · intro h q hq
        exact h q (List.mem_cons_of_mem _ hq)

theorem filter_ne_of_not_key {α β : Type} [DecidableEq α] (l : List (α × β)) (k : α)
    (h : ∀ q ∈ l, q.1 ≠ k) : l.filter (fun p => p.1 ≠ k) = l :=
  List.filter_eq_self.2 (fun q hq => by simpa using h q hq)

theorem filter_cons_ne {α β : Type} [DecidableEq α] (k' : α) (v' : β) (ps : List (α × β))
    (k : α) (h : k' ≠ k) :
    ((k', v') :: ps).filter (fun p => p.1 ≠ k) = (k', v') :: ps.filter (fun p => p.1 ≠ k) := by
  simp [List.filter_cons, h]

theorem filter_cons_eq {α β : Type} [DecidableEq α] (v' : β) (ps : List (α × β)) (k : α) :
    ((k, v') :: ps).filter (fun p => p.1 ≠ k) = ps.filter (fun p => p.1 ≠ k) := by
  simp [List.filter_cons]

theorem alookup_filter_ne {α β : Type} [DecidableEq α] (l : List (α × β)) (k a : α)
    (h : a ≠ k) : alookup (l.filter (fun p => p.1 ≠ k)) a = alookup l a := by
  induction l with
  | nil => rfl
  | cons p ps ih =>
    obtain ⟨k', v'⟩ := p
    by_cases hk : k' = k
    · subst hk
      rw [filter_cons_eq, ih, alookup_cons, if_neg h]
    · rw [filter_cons_ne k' v' ps k hk, alookup_cons, alookup_cons]
      by_cases ha : a = k'
      · rw [if_pos ha, if_pos ha]
      · rw [if_neg ha, if_neg ha]
        exact ih

theorem alookup_aset {α β : Type} [DecidableEq α] (l : List (α × β)) (k a : α) (v : β) :
    alookup (aset l k v) a = if a = k then some v else alookup l a := by
  unfold aset
  rw [alookup_cons]
  by_cases ha : a = k
  · rw [if_pos ha, if_pos ha]
  · rw [if_neg ha, if_neg ha]
    exact alookup_filter_ne l k a ha

theorem aset_mem {α β : Type} [DecidableEq α] {l : List (α × β)} {k a : α} {v b : β} :
    (a, b) ∈ aset l k v ↔ (a = k ∧ b = v) ∨ ((a, b) ∈ l ∧ a ≠ k) := by
  unfold aset
  simp only [List.mem_cons, List.mem_filter, Prod.mk.injEq, decide_eq_true_eq]

theorem aset_keys_nodup {α β : Type} [DecidableEq α] {l : List (α × β)} (k : α) (v : β)
    (h : (l.map Prod.fst).Nodup) : ((aset l k v).map Prod.fst).Nodup := by
  unfold aset
  rw [List.map_cons]
  refine List.Nodup.cons ?_ ?_
  · intro hk
    rcases List.mem_map.1 hk with ⟨p, hp, hpk⟩
    have hne := (List.mem_filter.1 hp).2
    simp only [decide_eq_true_eq] at hne
    exact hne hpk
  · exact List.Nodup.sublist (List.Sublist.map _ (List.filter_sublist l)) h

theorem aset_sum {α : Type} [DecidableEq α] :
    ∀ (l : List (α × ℕ)) (k : α) (v gn : ℕ), (l.map Prod.fst).Nodup →
      alookup l k = some gn →
      ((aset l k v).map (fun p => p.2)).sum + gn = (l.map (fun p => p.2)).sum + v := by
  intro l
  induction l with
  | nil => intro k v gn _ h; exact absurd h (by simp [alookup_nil])
  | cons p ps ih =>
    intro k v gn hnd hl
    obtain ⟨k', v'⟩ := p
    rw [List.map_cons, List.nodup_cons] at hnd
    by_cases hk : k = k'
    · subst hk
      rw [alookup_cons, if_pos rfl] at hl
      injection hl with hl
      subst hl
      have hknot : ∀ q ∈ ps, q.1 ≠ k := (not_key_iff ps k).1 hnd.1
      unfold aset
      rw [filter_cons_eq, filter_ne_of_not_key ps k hknot]
      simp only [List.map_cons, List.sum_cons]
      omega
    · rw [alookup_cons, if_neg hk] at hl
      have hrec := ih k v gn hnd.2 hl
      unfold aset at hrec ⊢
      rw [filter_cons_ne k' v' ps k (fun hh => hk hh.symm)]
      simp only [List.map_cons, List.sum_cons] at hrec ⊢
      omega

theorem aset_length_mem {α β : Type} [DecidableEq α] :
    ∀ (l : List (α × β)) (k : α) (v gn : β), (l.map Prod.fst).Nodup →
      alookup l k = some gn → (aset l k v).length = l.length := by
  intro l
  induction l with
  | nil => intro k v gn _ h; exact absurd h (by simp [alookup_nil])
  | cons p ps ih =>
    intro k v gn hnd hl
    obtain ⟨k', v'⟩ := p
    rw [List.map_cons, List.nodup_cons] at hnd
    by_cases hk : k = k'
    · subst hk
      have hknot : ∀ q ∈ ps, q.1 ≠ k := (not_key_iff ps k).1 hnd.1
      unfold aset
      rw [filter_cons_eq, filter_ne_of_not_key ps k hknot]
      simp
    · rw [alookup_cons, if_neg hk] at hl
      have hrec := ih k v gn hnd.2 hl
      unfold aset at hrec ⊢
      rw [filter_cons_ne k' v' ps k (fun hh => hk hh.symm)]
      simp only [List.length_cons] at hrec ⊢
      omega

theorem aset_length_new {α β : Type} [DecidableEq α] (l : List (α × β)) (k : α) (v : β)
    (h : alookup l k = none) : (aset l k v).length = l.length + 1 := by
  have hknot : ∀ q ∈ l, q.1 ≠ k := (alookup_none_iff l k).1 h
  unfold aset
  rw [filter_ne_of_not_key l k hknot]
  simp

theorem pleB_refl (a : ℕ × Cell) : pleB a a = true := by
  unfold pleB
  simp

theorem pleB_fst_le {a b : ℕ × Cell} (h : pleB a b = true) : a.1 ≤ b.1 := by
  unfold pleB at h
  simp only [Bool.or_eq_true, Bool.and_eq_true, decide_eq_true_eq] at h
  rcases h with h | ⟨h, _⟩ <;> omega

theorem pleB_total (a b : ℕ × Cell) : pleB a b = true ∨ pleB b a = true := by
  unfold pleB
  simp only [Bool.or_eq_true, Bool.and_eq_true, decide_eq_true_eq]
  omega

theorem pleB_trans {a b c : ℕ × Cell} (h1 : pleB a b = true) (h2 : pleB b c = true) :
    pleB a c = true := by
  unfold pleB at h1 h2 ⊢
  simp only [Bool.or_eq_true, Bool.and_eq_true, decide_eq_true_eq] at h1 h2 ⊢
  omega

theorem heapMin_mem : ∀ (l : List (ℕ × Cell)) (x : ℕ × Cell), heapMin x l ∈ x :: l := by
  intro l
  induction l with
  | nil => intro x; simp [heapMin]
  | cons e es ih =>
    intro x
    unfold heapMin at ih ⊢
    rw [List.foldl_cons]
    by_cases h : pleB e x = true
    · rw [if_pos h]
      rcases List.mem_cons.1 (ih e) with h' | h'
      · rw [h']
        simp
      · simp [h']
    · rw [if_neg h]
      rcases List.mem_cons.1 (ih x) with h' | h'
      · simp [h']
      · simp [h']

theorem heapMin_le : ∀ (l : List (ℕ × Cell)) (x : ℕ × Cell),
    ∀ e ∈ x :: l, pleB (heapMin x l) e = true := by
  intro l
  induction l with
  | nil =>
    intro x e he
    rcases List.mem_cons.1 he with h | h
    · rw [h]
      exact pleB_refl x
    · exact absurd h (by simp)
  | cons f fs ih =>
    intro x e he
    unfold heapMin
    rw [List.foldl_cons]
    by_cases h : pleB f x = true
    · rw [if_pos h]
      rcases List.mem_cons.1 he with h' | h'
      · exact pleB_trans (ih f f (List.mem_cons_self _ _)) (h' ▸ h)
      · rcases List.mem_cons.1 h' with h'' | h''
        · exact pleB_trans (ih f f (List.mem_cons_self _ _)) (h'' ▸ pleB_refl f)
        · exact ih f e (List.mem_cons_of_mem _ h'')
    · rw [if_neg h]
      have hxf : pleB x f = true := by
        rcases pleB_total f x with h' | h'
        · exact absurd h' h
        · exact h'
      rcases List.mem_cons.1 he with h' | h'
      · exact ih x e (h' ▸ List.mem_cons_self _ _)
      · rcases List.mem_cons.1 h' with h'' | h''
        · exact pleB_trans (ih x x (List.mem_cons_self _ _)) (h'' ▸ hxf)
        · exact ih x e (List.mem_cons_of_mem _ h'')

theorem popMin_none {l : List (ℕ × Cell)} (h : popMin l = none) : l = [] := by
  cases l with
  | nil => rfl
  | cons x xs => exact absurd h (by simp [popMin])

theorem popMin_spec {l : List (ℕ × Cell)} {m : ℕ × Cell} {r : List (ℕ × Cell)}
    (h : popMin l = some (m, r)) :
    m ∈ l ∧ r = l.erase m ∧ ∀ e ∈ l, m.1 ≤ e.1 := by
  cases l with
  | nil => exact absurd h (by simp [popMin])
  | cons x xs =>
    unfold popMin at h
    injection h with h
    injection h with h1 h2
    subst h1
    subst h2
    refine ⟨heapMin_mem xs x, rfl, ?_⟩
    intro e he
    exact pleB_fst_le (heapMin_le xs x e he)

theorem reachN_zero {s g : Cell} : reachN 0 s g = true ↔ s = g := by
  simp [reachN]

theorem reachN_succ_iff (n : ℕ) (s g : Cell) :
    reachN (n + 1) s g = true ↔
      ∃ m ∈ neighborsOf s, grid_blocked m.1 m.2 = false ∧ reachN n m g = true := by
  simp [reachN, List.any_eq_true, Bool.and_eq_true, Bool.not_eq_true']

theorem chainOK_reachN : ∀ (cs : List Cell) (s g : Cell),
    chainOK s cs g → reachN cs.length s g = true := by
  intro cs
  induction cs with
  | nil =>
    intro s g h
    rw [show chainOK s [] g = (s = g) from rfl] at h
    simp [reachN, h]
  | cons c cs ih =>
    intro s g h
    obtain ⟨he, hc⟩ := h
    rw [List.length_cons, reachN_succ_iff]
    exact ⟨c, he.1, he.2, ih c g hc⟩

theorem reachN_chainOK : ∀ (n : ℕ) (s g : Cell), reachN n s g = true →
    ∃ cs, cs.length = n ∧ chainOK s cs g := by
  intro n
  induction n with
  | zero =>
    intro s g h
    rw [reachN_zero] at h
    exact ⟨[], rfl, h⟩
  | succ k ih =>
    intro s g h
    rw [reachN_succ_iff] at h
    rcases h with ⟨m, hm, hopen, hr⟩
    rcases ih m g hr with ⟨cs, hlen, hc⟩
    exact ⟨m :: cs, by simp [hlen], ⟨hm, hopen⟩, hc⟩

theorem chainOK_snoc : ∀ (cs : List Cell) (s u v : Cell),
    chainOK s cs u → edgeStep u v → chainOK s (cs ++ [v]) v := by
  intro cs
  induction cs with
  | nil =>
    intro s u v h he
    rw [show chainOK s [] u = (s = u) from rfl] at h
    subst h
    exact ⟨he, rfl⟩
  | cons c cs ih =>
    intro s u v h he
    obtain ⟨h1, h2⟩ := h
    exact ⟨h1, ih c u v h2 he⟩

theorem reachN_extend {n : ℕ} {s u v : Cell} (h : reachN n s u = true)
    (he : edgeStep u v) : reachN (n + 1) s v = true := by
  rcases reachN_chainOK n s u h with ⟨cs, hlen, hc⟩
  have := chainOK_reachN (cs ++ [v]) s v (chainOK_snoc cs s u v hc he)
  simpa [hlen] using this

theorem chainOK_cells_open : ∀ (cs : List Cell) (s g : Cell), chainOK s cs g →
    ∀ c ∈ cs, grid_blocked c.1 c.2 = false := by
  intro cs
  induction cs with
  | nil => intro s g _ c hc; exact absurd hc (by simp)
  | cons d cs ih =>
    intro s g h c hc
    obtain ⟨he, hrest⟩ := h
    rcases List.mem_cons.1 hc with h' | h'
    · rw [h']
      exact he.2
    · exact ih d g hrest c h'

theorem chainOK_last_open : ∀ (cs : List Cell) (s g : Cell), chainOK s cs g →
    cs ≠ [] → grid_blocked g.1 g.2 = false := by
  intro cs
  induction cs with
  | nil => intro s g _ h; exact absurd rfl h
  | cons c cs ih =>
    intro s g h _
    obtain ⟨he, hrest⟩ := h
    cases cs with
    | nil =>
      rw [show chainOK c [] g = (c = g) from rfl] at hrest
      rw [← hrest]
      exact he.2
    | cons d ds => exact ih c g hrest (by simp)

theorem chainOK_split : ∀ (xs : List Cell) (s : Cell) {a : Cell} {ys : List Cell} {g : Cell},
    chainOK s (xs ++ a :: ys) g → chainOK a ys g := by
  intro xs
  induction xs with
  | nil => intro s a ys g h; exact h.2
  | cons x xs ih => intro s a ys g h; exact ih x h.2

theorem chainOK_prefix_to : ∀ (xs : List Cell) (s : Cell) {a : Cell} {ys : List Cell} {g : Cell},
    chainOK s (xs ++ a :: ys) g → chainOK s (xs ++ [a]) a := by
  intro xs
  induction xs with
  | nil => intro s a ys g h; exact ⟨h.1, rfl⟩
  | cons x xs ih => intro s a ys g h; exact ⟨h.1, ih x h.2⟩

theorem chainOK_glue : ∀ (xs : List Cell) (s : Cell) {a : Cell} {ys : List Cell} {g : Cell},
    chainOK s (xs ++ [a]) a → chainOK a ys g → chainOK s (xs ++ a :: ys) g := by
  intro xs
  induction xs with
  | nil => intro s a ys g h1 h2; exact ⟨h1.1, h2⟩
  | cons x xs ih => intro s a ys g h1 h2; exact ⟨h1.1, ih x h1.2 h2⟩

theorem nodup_or_dup {α : Type} [DecidableEq α] : ∀ (l : List α),
    l.Nodup ∨ ∃ (a : α) (l₁ l₂ l₃ : List α), l = l₁ ++ a :: (l₂ ++ a :: l₃) := by
  intro l
  induction l with
  | nil => left; simp
  | cons x xs ih =>
    by_cases hx : x ∈ xs
    · right
      rcases List.append_of_mem hx with ⟨s1, t1, rfl⟩
      exact ⟨x, [], s1, t1, by simp⟩
    · rcases ih with h | ⟨a, l₁, l₂, l₃, rfl⟩
      · left
        exact List.nodup_cons.2 ⟨hx, h⟩
      · right
        exact ⟨a, x :: l₁, l₂, l₃, by simp⟩

theorem grid_blocked_false_bounds {x y : ℤ} (h : grid_blocked x y = false) :
    0 ≤ x ∧ x < 21 ∧ 0 ≤ y ∧ y < 19 := by
  unfold grid_blocked at h
  by_cases hc : x < 0 ∨ y < 0 ∨ (MAP_WIDTH : ℤ) ≤ x ∨ (MAP_HEIGHT : ℤ) ≤ y
  · rw [if_pos hc] at h
    exact absurd h (by simp)
  · push_neg at hc
    obtain ⟨h1, h2, h3, h4⟩ := hc
    exact ⟨h1, by simpa [MAP_WIDTH_eq] using h3, h2, by simpa [MAP_HEIGHT_eq] using h4⟩

theorem uGrid_card : uGrid.card = 399 := by
  unfold uGrid
  rw [Finset.card_product, Int.card_Icc, Int.card_Icc]
  rfl

theorem open_list_length_le {cs : List Cell} (hnd : cs.Nodup)
    (hopen : ∀ c ∈ cs, grid_blocked c.1 c.2 = false) : cs.length ≤ 399 := by
  have hsub : cs.toFinset ⊆ uGrid := by
    intro c hc
    rw [List.mem_toFinset] at hc
    have hb := grid_blocked_false_bounds (hopen c hc)
    unfold uGrid
    rw [Finset.mem_product, Finset.mem_Icc, Finset.mem_Icc]
    omega
  calc cs.length = cs.toFinset.card := (List.toFinset_card_of_nodup hnd).symm
    _ ≤ uGrid.card := Finset.card_le_card hsub
    _ = 399 := uGrid_card

theorem reachN_short {s g : Cell} : ∀ n, reachN n s g = true →
    ∃ m ≤ 399, reachN m s g = true := by
  intro n
  induction n using Nat.strong_induction_on with
  | _ n ih =>
    intro h
    by_cases hn : n ≤ 399
    · exact ⟨n, hn, h⟩
    · rcases reachN_chainOK n s g h with ⟨cs, hlen, hc⟩
      rcases nodup_or_dup cs with hnd | ⟨a, l₁, l₂, l₃, heq⟩
      · exact absurd (open_list_length_le hnd (chainOK_cells_open cs s g hc)) (by omega)
      · subst heq
        have h1 : chainOK s (l₁ ++ [a]) a := chainOK_prefix_to l₁ s hc
        have h3 : chainOK a l₃ g := chainOK_split l₂ a (chainOK_split l₁ s hc)
        have h4 : chainOK s (l₁ ++ a :: l₃) g := chainOK_glue l₁ s h1 h3
        have h5 : reachN (l₁ ++ a :: l₃).length s g = true := chainOK_reachN _ s g h4
        have hlt : (l₁ ++ a :: l₃).length < n := by
          rw [← hlen]
          simp only [List.length_append, List.length_cons]
          omega
        exact ih _ hlt h5

theorem distIs_le {s g : Cell} {d n : ℕ} (hd : distIs s g d)
    (h : reachN n s g = true) : d ≤ n := by
  by_contra hlt
  push_neg at hlt
  exact absurd h (by simp [hd.2 n hlt])

theorem distIs_exists {s g : Cell} (h : ∃ n, reachN n s g = true) :
    ∃ d, distIs s g d := by
  refine ⟨Nat.find h, Nat.find_spec h, ?_⟩
  intro m hm
  by_contra hf
  rw [Bool.not_eq_false] at hf
  exact Nat.find_min h hm hf

theorem distIs_bound {s g : Cell} {d : ℕ} (hd : distIs s g d) : d ≤ 399 := by
  rcases reachN_short d hd.1 with ⟨m, hm, hr⟩
  exact le_trans (distIs_le hd hr) hm

theorem heuristic_le : ∀ (n : ℕ) (u g : Cell), reachN n u g = true →
    heuristic u g ≤ n := by
  intro n
  induction n with
  | zero =>
    intro u g h
    rw [reachN_zero] at h
    subst h
    simp [heuristic]
  | succ k ih =>
    intro u g h
    rw [reachN_succ_iff] at h
    rcases h with ⟨m, hm, _hopen, hr⟩
    have hle := ih m g hr
    unfold heuristic at hle ⊢
    simp only [neighborsOf, List.mem_cons, List.not_mem_nil, or_false] at hm
    rcases hm with rfl | rfl | rfl | rfl <;> (dsimp only at hle ⊢; omega)

theorem neighborsOf_ne {nb c : Cell} (h : nb ∈ neighborsOf c) : nb ≠ c := by
  simp only [neighborsOf, List.mem_cons, List.not_mem_nil, or_false] at h
  rcases h with rfl | rfl | rfl | rfl <;>
    (intro he; rw [Prod.ext_iff] at he; dsimp only at he; omega)

theorem chainOK_append : ∀ (xs : List Cell) (s : Cell) {v : Cell} (ys : List Cell) {g : Cell},
    chainOK s xs v → chainOK v ys g → chainOK s (xs ++ ys) g := by
  intro xs
  induction xs with
  | nil =>
    intro s v ys g h1 h2
    rw [show chainOK s [] v = (s = v) from rfl] at h1
    subst h1
    exact h2
  | cons x xs ih =>
    intro s v ys g h1 h2
    exact ⟨h1.1, ih x ys h1.2 h2⟩

theorem reachN_trans {a b : ℕ} {s v g : Cell} (h1 : reachN a s v = true)
    (h2 : reachN b v g = true) : reachN (a + b) s g = true := by
  rcases reachN_chainOK a s v h1 with ⟨xs, hxl, hx⟩
  rcases reachN_chainOK b v g h2 with ⟨ys, hyl, hy⟩
  have h3 := chainOK_reachN (xs ++ ys) s g (chainOK_append xs s ys hx hy)
  simpa [hxl, hyl] using h3

theorem distIs_self (s : Cell) : distIs s s 0 :=
  ⟨by simp [reachN], fun m hm => absurd hm (by omega)⟩

theorem heuristic_self (c : Cell) : heuristic c c = 0 := by
  simp [heuristic]

theorem g_keys_sub (s : Cell) {g : List (Cell × ℕ)}
    (hcells : ∀ p ∈ g, p.1 = s ∨ grid_blocked p.1.1 p.1.2 = false) :
    (g.map Prod.fst).toFinset ⊆ insert s uGrid := by
  intro c hc
  rw [List.mem_toFinset, List.mem_map] at hc
  rcases hc with ⟨p, hp, rfl⟩
  rcases hcells p hp with h | h
  · rw [h]
    exact Finset.mem_insert_self s uGrid
  · have hb := grid_blocked_false_bounds h
    refine Finset.mem_insert.2 (Or.inr ?_)
    unfold uGrid
    rw [Finset.mem_product, Finset.mem_Icc, Finset.mem_Icc]
    omega

theorem g_len_le {s : Cell} {g : List (Cell × ℕ)} (hnd : (g.map Prod.fst).Nodup)
    (hcells : ∀ p ∈ g, p.1 = s ∨ grid_blocked p.1.1 p.1.2 = false) :
    g.length ≤ 400 := by
  have h2 : (g.map Prod.fst).toFinset.card = (g.map Prod.fst).length :=
    List.toFinset_card_of_nodup hnd
  have h1 : (g.map Prod.fst).length = g.length := by simp
  have h3 : (g.map Prod.fst).toFinset.card ≤ (insert s uGrid).card :=
    Finset.card_le_card (g_keys_sub s hcells)
  have h4 : (insert s uGrid).card ≤ uGrid.card + 1 := Finset.card_insert_le s uGrid
  have h5 : uGrid.card = 399 := uGrid_card
  omega

theorem g_len_lt {s : Cell} {g : List (Cell × ℕ)} (hnd : (g.map Prod.fst).Nodup)
    (hcells : ∀ p ∈ g, p.1 = s ∨ grid_blocked p.1.1 p.1.2 = false) {nb : Cell}
    (hop : grid_blocked nb.1 nb.2 = false) (hfresh : alookup g nb = none) :
    g.length ≤ 399 := by
  have hnbmem : nb ∉ (g.map Prod.fst).toFinset := by
    rw [List.mem_toFinset]
    intro hmem
    rcases List.mem_map.1 hmem with ⟨p, hp, hpe⟩
    exact ((alookup_none_iff g nb).1 hfresh p hp) hpe
  have hnbin : nb ∈ insert s uGrid := by
    refine Finset.mem_insert.2 (Or.inr ?_)
    have hb := grid_blocked_false_bounds hop
    unfold uGrid
    rw [Finset.mem_product, Finset.mem_Icc, Finset.mem_Icc]
    omega
  have hsub2 : insert nb (g.map Prod.fst).toFinset ⊆ insert s uGrid := by
    intro c hc
    rcases Finset.mem_insert.1 hc with rfl | hc
    · exact hnbin
    · exact g_keys_sub s hcells hc
  have hcard : (insert nb (g.map Prod.fst).toFinset).card =
      (g.map Prod.fst).toFinset.card + 1 := Finset.card_insert_of_not_mem hnbmem
  have h3 : (insert nb (g.map Prod.fst).toFinset).card ≤ (insert s uGrid).card :=
    Finset.card_le_card hsub2
  have h4 : (insert s uGrid).card ≤ uGrid.card + 1 := Finset.card_insert_le s uGrid
  have h5 : uGrid.card = 399 := uGrid_card
  have h2 : (g.map Prod.fst).toFinset.card = (g.map Prod.fst).length :=
    List.toFinset_card_of_nodup hnd
  have h1 : (g.map Prod.fst).length = g.length := by simp
  omega

theorem relax_update_core (st' : AState) {s goal cur : Cell} {gc : ℕ} {st : AState}
    {nb : Cell}
    (hnb : nb ∈ neighborsOf cur) (hcur : alookup st.g cur = some gc)
    (hA : ACore s goal st) (hop : grid_blocked nb.1 nb.2 = false)
    (hcond : ∀ gn, alookup st.g nb = some gn → gc + 1 < gn)
    (hh : st'.heap = (gc + 1 + heuristic nb goal, nb) :: st.heap)
    (hc : st'.came = aset st.came nb cur)
    (hg : st'.g = aset st.g nb (gc + 1)) :
    ACore s goal st' ∧
    alookup st'.g cur = some gc ∧
    (gc ≤ 399 → phiA st' ≤ phiA st) ∧
    (∀ v gv, alookup st.g v = some gv → ∃ gv', alookup st'.g v = some gv' ∧ gv' ≤ gv) ∧
    (∃ gw, alookup st'.g nb = some gw ∧ gw ≤ gc + 1) ∧
    (∀ e ∈ st.heap, e ∈ st'.heap) ∧
    (goodHeapExc s goal cur st → goodHeapExc s goal cur st') := by
  have hnbcur : nb ≠ cur := neighborsOf_ne hnb
  have hlnb : alookup st'.g nb = some (gc + 1) := by
    rw [hg, alookup_aset, if_pos rfl]
  have hlother : ∀ v : Cell, v ≠ nb → alookup st'.g v = alookup st.g v := by
    intro v hv
    rw [hg, alookup_aset, if_neg hv]
  have hsnb : s ≠ nb := by
    intro h
    have h0 := hA.g_start
    rw [h] at h0
    have := hcond 0 h0
    omega
  have hlcur : alookup st'.g cur = some gc := by
    rw [hlother cur (Ne.symm hnbcur)]
    exact hcur
  have hmono : ∀ v gv, alookup st.g v = some gv →
      ∃ gv', alookup st'.g v = some gv' ∧ gv' ≤ gv := by
    intro v gv hv
    by_cases hvnb : v = nb
    · subst hvnb
      exact ⟨gc + 1, hlnb, by have := hcond gv hv; omega⟩
    · exact ⟨gv, by rw [hlother v hvnb]; exact hv, le_refl gv⟩
  have hedge : edgeStep cur nb := ⟨hnb, hop⟩
  refine ⟨?_, hlcur, ?_, hmono, ⟨gc + 1, hlnb, le_refl _⟩, ?_, ?_⟩
  · refine ACore.mk ?_ ?_ ?_ ?_ ?_ ?_ ?_ ?_ ?_ ?_
    · rw [hg]
      exact aset_keys_nodup _ _ hA.g_nodup
    · rw [hc]
      exact aset_keys_nodup _ _ hA.came_nodup
    · rw [hlother s hsnb]
      exact hA.g_start
    · intro p hp
      rw [hg] at hp
      obtain ⟨a, b⟩ := p
      rcases aset_mem.1 hp with ⟨rfl, rfl⟩ | ⟨hmem, _⟩
      · exact Or.inr hop
      · exact hA.g_cells (a, b) hmem
    · intro p hp
      rw [hg] at hp
      obtain ⟨a, b⟩ := p
      rcases aset_mem.1 hp with ⟨rfl, rfl⟩ | ⟨hmem, _⟩
      · rcases hA.g_reach (cur, gc) (alookup_mem hcur) with ⟨n, hn, hr⟩
        exact ⟨n + 1, by omega, reachN_extend hr hedge⟩
      · exact hA.g_reach (a, b) hmem
    · intro q hq
      rw [hc] at hq
      obtain ⟨a, b⟩ := q
      rcases aset_mem.1 hq with ⟨rfl, rfl⟩ | ⟨hmem, hane⟩
      · exact ⟨hedge, gc + 1, gc, hlnb, hlcur, le_refl _⟩
      · obtain ⟨he, gv, gp, hgv, hgp, hle⟩ := hA.came_g (a, b) hmem
        refine ⟨he, ?_⟩
        by_cases hbnb : b = nb
        · subst hbnb
          have hlt := hcond gp hgp
          exact ⟨gv, gc + 1, by rw [hlother a hane]; exact hgv, hlnb, by omega⟩
        · exact ⟨gv, gp, by rw [hlother a hane]; exact hgv,
            by rw [hlother b hbnb]; exact hgp, hle⟩
    · intro v hv
      by_cases hvnb : v = nb
      · subst hvnb
        constructor
        · intro _
          exact ⟨cur, by rw [hc, alookup_aset, if_pos rfl]⟩
        · intro _
          exact ⟨gc + 1, hlnb⟩
      · rw [hlother v hvnb, hc, alookup_aset, if_neg hvnb]
        exact hA.came_keys v hv
    · rw [hc, alookup_aset, if_neg hsnb]
      exact hA.came_start
    · intro e he
      rw [hh] at he
      rcases List.mem_cons.1 he with rfl | he'
      · exact ⟨gc + 1, hlnb, by omega⟩
      · obtain ⟨gv, hgv, hle⟩ := hA.heap_g e he'
        by_cases henb : e.2 = nb
        · rw [henb] at hgv
          have hlt := hcond gv hgv
          exact ⟨gc + 1, by rw [henb]; exact hlnb, by omega⟩
        · exact ⟨gv, by rw [hlother e.2 henb]; exact hgv, hle⟩
    · intro gv hgv
      by_cases hgnb : goal = nb
      · subst hgnb
        rw [hlnb] at hgv
        injection hgv with h'
        rw [hh, heuristic_self, Nat.add_zero, ← h']
        exact List.mem_cons_self _ _
      · rw [hlother goal hgnb] at hgv
        have hold := hA.goal_entry gv hgv
        rw [hh]
        exact List.mem_cons_of_mem _ hold
  · intro hgc
    rcases hval : alookup st.g nb with _ | gn
    · have hfilt := filter_ne_of_not_key st.g nb ((alookup_none_iff st.g nb).1 hval)
      have hlen : st'.g.length = st.g.length + 1 := by
        rw [hg]
        exact aset_length_new _ _ _ hval
      have hsum : (st'.g.map (fun p => p.2)).sum =
          (gc + 1) + (st.g.map (fun p => p.2)).sum := by
        rw [hg]
        unfold aset
        rw [hfilt]
        simp
      have hle399 : st.g.length ≤ 399 := g_len_lt hA.g_nodup hA.g_cells hop hval
      unfold phiA
      rw [hh, hlen, hsum, List.length_cons]
      omega
    · have hlt := hcond gn hval
      have hlen : st'.g.length = st.g.length := by
        rw [hg]
        exact aset_length_mem _ _ _ _ hA.g_nodup hval
      have hsum := aset_sum st.g nb (gc + 1) gn hA.g_nodup hval
      rw [← hg] at hsum
      unfold phiA
      rw [hh, List.length_cons, hlen]
      omega
  · intro e he
    rw [hh]
    exact List.mem_cons_of_mem _ he
  · intro hGH v dv hvcur hdist hdv
    by_cases hvnb : v = nb
    · subst hvnb
      rw [hlnb] at hdv
      injection hdv with h'
      left
      refine ⟨gc + 1 + heuristic v goal, ?_, by omega⟩
      rw [hh]
      exact List.mem_cons_self _ _
    · rw [hlother v hvnb] at hdv
      rcases hGH v dv hvcur hdist hdv with ⟨pr, hmem, hpr⟩ | hright
      · left
        exact ⟨pr, by rw [hh]; exact List.mem_cons_of_mem _ hmem, hpr⟩
      · right
        intro w hw hopw
        rcases hright w hw hopw with ⟨gw, hgw, hgwle⟩
        rcases hmono w gw hgw with ⟨gw', hgw', hle'⟩
        exact ⟨gw', hgw', by omega⟩

theorem relaxOne_step {s goal cur : Cell} {gc : ℕ} {st : AState} {nb : Cell}
    (hnb : nb ∈ neighborsOf cur) (hcur : alookup st.g cur = some gc)
    (hA : ACore s goal st) :
    ACore s goal (relaxOne goal cur st nb) ∧
    alookup (relaxOne goal cur st nb).g cur = some gc ∧
    (gc ≤ 399 → phiA (relaxOne goal cur st nb) ≤ phiA st) ∧
    (∀ v gv, alookup st.g v = some gv →
      ∃ gv', alookup (relaxOne goal cur st nb).g v = some gv' ∧ gv' ≤ gv) ∧
    (grid_blocked nb.1 nb.2 = false →
      ∃ gw, alookup (relaxOne goal cur st nb).g nb = some gw ∧ gw ≤ gc + 1) ∧
    (∀ e ∈ st.heap, e ∈ (relaxOne goal cur st nb).heap) ∧
    (goodHeapExc s goal cur st → goodHeapExc s goal cur (relaxOne goal cur st nb)) := by
  by_cases hbl : grid_blocked nb.1 nb.2 = true
  · have hst : relaxOne goal cur st nb = st := by
      unfold relaxOne
      rw [if_pos hbl]
    rw [hst]
    refine ⟨hA, hcur, fun _ => le_refl _, fun v gv h => ⟨gv, h, le_refl _⟩, ?_,
      fun e he => he, fun h => h⟩
    intro hop
    rw [hop] at hbl
    exact absurd hbl (by simp)
  · have hop : grid_blocked nb.1 nb.2 = false := by simpa using hbl
    cases hval : alookup st.g nb with
    | none =>
      have hst : relaxOne goal cur st nb =
          AState.mk ((gc + 1 + heuristic nb goal, nb) :: st.heap)
            (aset st.came nb cur) (aset st.g nb (gc + 1)) := by
        unfold relaxOne
        rw [if_neg hbl, hcur, hval]
        rfl
      have hcond : ∀ gn, alookup st.g nb = some gn → gc + 1 < gn := by
        intro gn hgn
        rw [hval] at hgn
        exact absurd hgn (by simp)
      obtain ⟨c1, c2, c3, c4, c5, c6, c7⟩ := relax_update_core (relaxOne goal cur st nb)
        hnb hcur hA hop hcond (by rw [hst]) (by rw [hst]) (by rw [hst])
      exact ⟨c1, c2, c3, c4, fun _ => c5, c6, c7⟩
    | some gn =>
      by_cases himp : gc + 1 < gn
      · have hst : relaxOne goal cur st nb =
            AState.mk ((gc + 1 + heuristic nb goal, nb) :: st.heap)
              (aset st.came nb cur) (aset st.g nb (gc + 1)) := by
          unfold relaxOne
          rw [if_neg hbl, hcur, hval]
          simp only [Option.getD_some]
          rw [decide_eq_true himp]
          rfl
        have hcond : ∀ gn', alookup st.g nb = some gn' → gc + 1 < gn' := by
          intro gn' hgn'
          rw [hval] at hgn'
          injection hgn' with h'
          omega
        obtain ⟨c1, c2, c3, c4, c5, c6, c7⟩ := relax_update_core (relaxOne goal cur st nb)
          hnb hcur hA hop hcond (by rw [hst]) (by rw [hst]) (by rw [hst])
        exact ⟨c1, c2, c3, c4, fun _ => c5, c6, c7⟩
      · have hst : relaxOne goal cur st nb = st := by
          unfold relaxOne
          rw [if_neg hbl, hcur, hval]
          simp only [Option.getD_some]
          rw [decide_eq_false himp]
          rfl
        rw [hst]
        exact ⟨hA, hcur, fun _ => le_refl _, fun v gv h => ⟨gv, h, le_refl _⟩,
          fun _ => ⟨gn, hval, by omega⟩, fun e he => he, fun h => h⟩

theorem fold_relax {s goal cur : Cell} {gc : ℕ} :
    ∀ (nbs : List Cell) (st : AState),
    (∀ nb ∈ nbs, nb ∈ neighborsOf cur) →
    alookup st.g cur = some gc →
    ACore s goal st →
    ACore s goal (nbs.foldl (relaxOne goal cur) st) ∧
    alookup (nbs.foldl (relaxOne goal cur) st).g cur = some gc ∧
    (gc ≤ 399 → phiA (nbs.foldl (relaxOne goal cur) st) ≤ phiA st) ∧
    (∀ v gv, alookup st.g v = some gv →
      ∃ gv', alookup (nbs.foldl (relaxOne goal cur) st).g v = some gv' ∧ gv' ≤ gv) ∧
    (∀ w ∈ nbs, grid_blocked w.1 w.2 = false →
      ∃ gw, alookup (nbs.foldl (relaxOne goal cur) st).g w = some gw ∧ gw ≤ gc + 1) ∧
    (∀ e ∈ st.heap, e ∈ (nbs.foldl (relaxOne goal cur) st).heap) ∧
    (goodHeapExc s goal cur st →
      goodHeapExc s goal cur (nbs.foldl (relaxOne goal cur) st)) := by
  intro nbs
  induction nbs with
  | nil =>
    intro st _ hcur hA
    exact ⟨hA, hcur, fun _ => le_refl _, fun v gv h => ⟨gv, h, le_refl _⟩,
      fun w hw => absurd hw (List.not_mem_nil w), fun e he => he, fun h => h⟩
  | cons nb nbs ih =>
    intro st hnbs hcur hA
    obtain ⟨s1, s2, s3, s4, s5, s6, s7⟩ :=
      relaxOne_step (hnbs nb (List.mem_cons_self nb nbs)) hcur hA
    obtain ⟨i1, i2, i3, i4, i5, i6, i7⟩ := ih (relaxOne goal cur st nb)
      (fun w hw => hnbs w (List.mem_cons_of_mem nb hw)) s2 s1
    rw [show (nb :: nbs).foldl (relaxOne goal cur) st =
      nbs.foldl (relaxOne goal cur) (relaxOne goal cur st nb) from rfl]
    refine ⟨i1, i2, ?_, ?_, ?_, ?_, fun h => i7 (s7 h)⟩
    · intro hgc
      exact le_trans (i3 hgc) (s3 hgc)
    · intro v gv hv
      rcases s4 v gv hv with ⟨gv1, h1, hle1⟩
      rcases i4 v gv1 h1 with ⟨gv2, h2, hle2⟩
      exact ⟨gv2, h2, le_trans hle2 hle1⟩
    · intro w hw hopw
      rcases List.mem_cons.1 hw with rfl | hw'
      · rcases s5 hopw with ⟨gw1, h1, hle1⟩
        rcases i4 w gw1 h1 with ⟨gw2, h2, hle2⟩
        exact ⟨gw2, h2, by omega⟩
      · exact i5 w hw' hopw
    · intro e he
      exact i6 e (s6 e he)

theorem AInv_step {s goal : Cell} {st : AState} {p : ℕ} {cur : Cell}
    {rest : List (ℕ × Cell)}
    (hI : AInv s goal st) (hpop : popMin st.heap = some ((p, cur), rest))
    (hne : cur ≠ goal) :
    ∃ gc, gc ≤ p ∧
      AInv s goal ((neighborsOf cur).foldl (relaxOne goal cur)
        (AState.mk rest st.came st.g)) ∧
      (gc ≤ 399 →
        phiA ((neighborsOf cur).foldl (relaxOne goal cur)
          (AState.mk rest st.came st.g)) < phiA st) := by
  obtain ⟨hm, hrest, hmin⟩ := popMin_spec hpop
  obtain ⟨gc, hgc, hgcle⟩ := hI.heap_g (p, cur) hm
  have hgc' : alookup st.g cur = some gc := hgc
  have hgcle' : gc ≤ p := hgcle
  have hA1 : ACore s goal (AState.mk rest st.came st.g) := by
    refine ACore.mk hI.g_nodup hI.came_nodup hI.g_start hI.g_cells hI.g_reach
      hI.came_g hI.came_keys hI.came_start ?_ ?_
    · intro e he
      have he' : e ∈ st.heap := by
        rw [hrest] at he
        exact List.mem_of_mem_erase he
      exact hI.heap_g e he'
    · intro gv hgv
      have hold : (gv, goal) ∈ st.heap := hI.goal_entry gv hgv
      have hne2 : (gv, goal) ≠ (p, cur) := by
        intro hcontra
        rw [Prod.ext_iff] at hcontra
        exact hne hcontra.2.symm
      show (gv, goal) ∈ rest
      rw [hrest]
      exact (List.mem_erase_of_ne hne2).2 hold
  have hGH1 : goodHeapExc s goal cur (AState.mk rest st.came st.g) := by
    intro v dv hvcur hdist hdv
    rcases hI.good_heap v dv hdist hdv with ⟨pr, hmem, hpr⟩ | hr
    · left
      refine ⟨pr, ?_, hpr⟩
      have hne2 : (pr, v) ≠ (p, cur) := by
        intro hcontra
        rw [Prod.ext_iff] at hcontra
        exact hvcur hcontra.2
      show (pr, v) ∈ rest
      rw [hrest]
      exact (List.mem_erase_of_ne hne2).2 hmem
    · right
      exact hr
  obtain ⟨f1, f2, f3, f4, f5, f6, f7⟩ :=
    fold_relax (neighborsOf cur) (AState.mk rest st.came st.g) (fun w hw => hw) hgc' hA1
  refine ⟨gc, hgcle', AInv.mk f1 ?_, ?_⟩
  · intro v dv hdist hdv
    by_cases hvcur : v = cur
    · subst hvcur
      right
      intro w hw hopw
      rcases f5 w hw hopw with ⟨gw, hgw, hle⟩
      have hdveq : gc = dv := by
        rw [f2] at hdv
        injection hdv
      exact ⟨gw, hgw, by omega⟩
    · exact f7 hGH1 v dv hvcur hdist hdv
  · intro hgc399
    have h1 := f3 hgc399
    have hpos : 0 < st.heap.length := List.length_pos_of_mem hm
    have hlen : rest.length + 1 = st.heap.length := by
      rw [hrest, List.length_erase_of_mem hm]
      omega
    have hphi1 : phiA (AState.mk rest st.came st.g) + 1 = phiA st := by
      unfold phiA
      dsimp only
      omega
    omega

theorem frontier {s goal : Cell} {st : AState} {d : ℕ}
    (hI : AInv s goal st) (hd : distIs s goal d) :
    ∃ e ∈ st.heap, e.1 ≤ d := by
  suffices haux : ∀ (j : ℕ) (v : Cell) (dv : ℕ), distIs s v dv →
      reachN j v goal = true → dv + j = d → alookup st.g v = some dv →
      ∃ e ∈ st.heap, e.1 ≤ d by
    exact haux d s 0 (distIs_self s) hd.1 (by omega) hI.g_start
  intro j
  induction j with
  | zero =>
    intro v dv hdist hreach hsum hg
    rw [reachN_zero] at hreach
    subst hreach
    have hmem := hI.goal_entry dv hg
    exact ⟨(dv, v), hmem, by show dv ≤ d; omega⟩
  | succ k ih =>
    intro v dv hdist hreach hsum hg
    rcases hI.good_heap v dv hdist hg with ⟨pr, hmem, hpr⟩ | hright
    · refine ⟨(pr, v), hmem, ?_⟩
      have hh := heuristic_le (k + 1) v goal hreach
      show pr ≤ d
      omega
    · rw [reachN_succ_iff] at hreach
      rcases hreach with ⟨m, hm, hopm, hrm⟩
      rcases hright m hm hopm with ⟨gm, hgm, hgmle⟩
      have hreach_m : reachN (dv + 1) s m = true := reachN_extend hdist.1 ⟨hm, hopm⟩
      obtain ⟨dm, hdm⟩ := distIs_exists ⟨dv + 1, hreach_m⟩
      have hdm_le : dm ≤ dv + 1 := distIs_le hdm hreach_m
      have hcat : reachN (dm + k) s goal = true := reachN_trans hdm.1 hrm
      have hd_le : d ≤ dm + k := distIs_le hd hcat
      have hdm_eq : dm = dv + 1 := by omega
      have hmem_m : (m, gm) ∈ st.g := alookup_mem hgm
      rcases hI.g_reach (m, gm) hmem_m with ⟨n, hnle, hrn⟩
      have hnle' : n ≤ gm := hnle
      have hrn' : reachN n s m = true := hrn
      have hdmn : dm ≤ n := distIs_le hdm hrn'
      have hgm_eq : gm = dm := by omega
      exact ih m dm hdm hrm (by omega) (by rw [← hgm_eq]; exact hgm)

theorem rebuild_spec {came : List (Cell × Cell)} {g : List (Cell × ℕ)}
    (H1 : ∀ q ∈ came, edgeStep q.2 q.1 ∧ ∃ gv gp, alookup g q.1 = some gv ∧
      alookup g q.2 = some gp ∧ gp + 1 ≤ gv) :
    ∀ (fuel : ℕ) (c : Cell) (gcv : ℕ), alookup g c = some gcv → gcv < fuel →
    ∃ (r : Cell) (cs : List Cell) (gr : ℕ),
      rebuild fuel came c = (r :: cs).reverse ∧
      alookup came r = none ∧ alookup g r = some gr ∧
      chainOK r cs c ∧ cs.length + gr ≤ gcv := by
  intro fuel
  induction fuel with
  | zero =>
    intro c gcv _ hlt
    exact absurd hlt (by omega)
  | succ n ih =>
    intro c gcv hc hlt
    cases hcc : alookup came c with
    | none =>
      refine ⟨c, [], gcv, ?_, hcc, hc, rfl, by simp⟩
      rw [show rebuild (n + 1) came c = (match alookup came c with
        | none => [c]
        | some q => c :: rebuild n came q) from rfl, hcc]
      rfl
    | some p =>
      have hcp : (c, p) ∈ came := alookup_mem hcc
      obtain ⟨hedge, gv, gp, hgv, hgp, hlt2⟩ := H1 (c, p) hcp
      have hgv' : alookup g c = some gv := hgv
      rw [hc] at hgv'
      injection hgv' with hgveq
      obtain ⟨r, cs, gr, hreb, hrc, hgr, hch, hlen⟩ := ih p gp hgp (by omega)
      refine ⟨r, cs ++ [c], gr, ?_, hrc, hgr, chainOK_snoc cs r p c hch hedge, ?_⟩
      · rw [show rebuild (n + 1) came c = (match alookup came c with
          | none => [c]
          | some q => c :: rebuild n came q) from rfl, hcc]
        show c :: rebuild n came p = (r :: (cs ++ [c])).reverse
        rw [hreb]
        simp
      · rw [List.length_append]
        simp only [List.length_cons, List.length_nil]
        omega

theorem astarLoop_succ_eq (fuel : ℕ) (goal : Cell) (st : AState) :
    astarLoop (fuel + 1) goal st =
      match popMin st.heap with
      | none => []
      | some ((_, cur), rest) =>
        if cur = goal then (rebuild astarFuel st.came cur).reverse
        else astarLoop fuel goal
          ((neighborsOf cur).foldl (relaxOne goal cur) { st with heap := rest }) := rfl

theorem astarLoop_unreachable {s goal : Cell} :
    ∀ (fuel : ℕ) (st : AState), AInv s goal st →
      (∀ n, reachN n s goal = false) → astarLoop fuel goal st = [] := by
  intro fuel
  induction fuel with
  | zero => intro st _ _; rfl
  | succ f ih =>
    intro st hI hun
    rw [astarLoop_succ_eq]
    cases hpop : popMin st.heap with
    | none => rfl
    | some pr =>
      obtain ⟨⟨p, cur⟩, rest⟩ := pr
      dsimp only
      by_cases hcg : cur = goal
      · exfalso
        obtain ⟨hm, _, _⟩ := popMin_spec hpop
        obtain ⟨gv, hgv, _⟩ := hI.heap_g (p, cur) hm
        have hgv' : alookup st.g cur = some gv := hgv
        rcases hI.g_reach (cur, gv) (alookup_mem hgv') with ⟨n, _, hr⟩
        have hr' : reachN n s cur = true := hr
        rw [hcg, hun n] at hr'
        exact Bool.noConfusion hr'
      · rw [if_neg hcg]
        obtain ⟨gc, _, hI', _⟩ := AInv_step hI hpop hcg
        exact ih _ hI' hun

theorem astarLoop_correct {s goal : Cell} {d : ℕ} (hd : distIs s goal d) :
    ∀ (fuel : ℕ) (st : AState), AInv s goal st → phiA st < fuel →
      ∃ cs, astarLoop fuel goal st = s :: cs ∧ cs.length = d ∧ chainOK s cs goal := by
  have hd399 : d ≤ 399 := distIs_bound hd
  intro fuel
  induction fuel with
  | zero =>
    intro st _ hphi
    exact absurd hphi (by omega)
  | succ f ih =>
    intro st hI hphi
    obtain ⟨efr, hefr, hefrle⟩ := frontier hI hd
    rw [astarLoop_succ_eq]
    cases hpop : popMin st.heap with
    | none =>
      exfalso
      have hemp : st.heap = [] := popMin_none hpop
      rw [hemp] at hefr
      exact absurd hefr (List.not_mem_nil efr)
    | some pr =>
      obtain ⟨⟨p, cur⟩, rest⟩ := pr
      dsimp only
      obtain ⟨hm, hrest, hmin⟩ := popMin_spec hpop
      have hple : p ≤ d := le_trans (hmin efr hefr) hefrle
      by_cases hcg : cur = goal
      · rw [if_pos hcg, hcg]
        obtain ⟨gv, hgv, hgvle⟩ := hI.heap_g (p, cur) hm
        have hgv' : alookup st.g cur = some gv := hgv
        have hgvle' : gv ≤ p := hgvle
        rcases hI.g_reach (cur, gv) (alookup_mem hgv') with ⟨n, hnle, hrn⟩
        have hnle' : n ≤ gv := hnle
        have hrn' : reachN n s cur = true := hrn
        rw [hcg] at hrn' hgv'
        have hdn : d ≤ n := distIs_le hd hrn'
        have hgvd : gv = d := by omega
        obtain ⟨r, cs, gr, hreb, hrnone, hgr, hch, hlen⟩ :=
          rebuild_spec hI.came_g astarFuel goal gv hgv'
            (by rw [hgvd]; unfold astarFuel; omega)
        have hrs : r = s := by
          by_contra hrs
          rcases (hI.came_keys r hrs).1 ⟨gr, hgr⟩ with ⟨pp, hpp⟩
          rw [hrnone] at hpp
          exact absurd hpp (by simp)
        subst hrs
        have hgr0 : gr = 0 := by
          have h0 := hI.g_start
          rw [h0] at hgr
          injection hgr with h'
          omega
        have hlcs : d ≤ cs.length := distIs_le hd (chainOK_reachN cs r goal hch)
        refine ⟨cs, ?_, by omega, hch⟩
        rw [hreb, List.reverse_reverse]
      · rw [if_neg hcg]
        obtain ⟨gc, hgcle, hI', hphi'⟩ := AInv_step hI hpop hcg
        have hphin : phiA ((neighborsOf cur).foldl (relaxOne goal cur)
            (AState.mk rest st.came st.g)) < f := by
          have hd1 := hphi' (by omega)
          omega
        exact ih _ hI' hphin

theorem AInv_init (s goal : Cell) :
    AInv s goal (AState.mk [(0, s)] [] [(s, 0)]) := by
  refine AInv.mk (ACore.mk ?_ ?_ ?_ ?_ ?_ ?_ ?_ ?_ ?_ ?_) ?_
  · simp
  · simp
  · rw [alookup_cons, if_pos rfl]
  · intro p hp
    rw [List.mem_singleton] at hp
    subst hp
    exact Or.inl rfl
  · intro p hp
    rw [List.mem_singleton] at hp
    subst hp
    exact ⟨0, le_refl 0, by simp [reachN]⟩
  · intro q hq
    exact absurd hq (List.not_mem_nil q)
  · intro v hv
    constructor
    · intro h1
      obtain ⟨gv, hgv⟩ := h1
      rw [alookup_cons, if_neg hv] at hgv
      exact absurd hgv (by simp [alookup_nil])
    · intro h2
      obtain ⟨pp, hpp⟩ := h2
      exact absurd hpp (by simp [alookup_nil])
  · rfl
  · intro e he
    rw [List.mem_singleton] at he
    subst he
    exact ⟨0, by rw [alookup_cons, if_pos rfl], le_refl 0⟩
  · intro gv hgv
    by_cases hgs : goal = s
    · subst hgs
      rw [alookup_cons, if_pos rfl] at hgv
      injection hgv with h'
      rw [← h']
      exact List.mem_singleton.2 rfl
    · rw [alookup_cons, if_neg hgs] at hgv
      exact absurd hgv (by simp [alookup_nil])
  · intro v dv hdist hdv
    by_cases hvs : v = s
    · subst hvs
      rw [alookup_cons, if_pos rfl] at hdv
      injection hdv with h'
      left
      exact ⟨0, List.mem_singleton.2 rfl, Nat.zero_le _⟩
    · rw [alookup_cons, if_neg hvs] at hdv
      exact absurd hdv (by simp [alookup_nil])

/-- C1 counterexample: the claim demands the empty path for every blocking
goal, but when start = goal the source returns [start] before it ever
checks whether the goal is blocking.  Cell (0, 0) is a wall, yet
astar_path((0,0),(0,0)) returns [(0,0)], not []. -/
theorem astar_blocked_goal_counterexample :
    grid_blocked 0 0 = true ∧ astar_path (0, 0) (0, 0) = [(0, 0)] ∧
      astar_path (0, 0) (0, 0) ≠ ([] : List Cell) := by
  refine ⟨by decide, ?_, ?_⟩
  · unfold astar_path
    rw [if_pos rfl]
  · unfold astar_path
    rw [if_pos rfl]
    simp

/-- C1 (amended): for every pair (start, goal) with goal reachable from
start over 4-connected open tiles (in d optimal steps), astar_path returns
an ordered cell sequence from start to goal inclusive whose step count
equals d, the true shortest 4-connected walk length; and for every goal
unreachable from start (which covers every blocking goal other than start
itself) it returns the empty path.  The original claim's "empty for every
blocking goal" fails only in the start = goal corner handled by the
counterexample. -/
theorem astar_shortest_amended :
    (∀ start goal : Cell, ∀ d : ℕ, distIs start goal d →
      ∃ cs, astar_path start goal = start :: cs ∧ cs.length = d ∧
        chainOK start cs goal) ∧
    (∀ start goal : Cell, (∀ n, reachN n start goal = false) →
      astar_path start goal = []) := by
  constructor
  · intro s goal d hd
    by_cases hsg : s = goal
    · subst hsg
      have hd0 : d = 0 := by
        have h1 := distIs_le hd (show reachN 0 s s = true by simp [reachN])
        omega
      subst hd0
      refine ⟨[], ?_, rfl, rfl⟩
      unfold astar_path
      rw [if_pos rfl]
    · have hd1 : 1 ≤ d := by
        rcases Nat.eq_zero_or_pos d with h0 | h1
        · exfalso
          have h2 := hd.1
          rw [h0, reachN_zero] at h2
          exact hsg h2
        · exact h1
      obtain ⟨cs0, hlen0, hch0⟩ := reachN_chainOK d s goal hd.1
      have hcs0ne : cs0 ≠ [] := by
        intro h
        rw [h] at hlen0
        simp at hlen0
        omega
      have hgoalopen : grid_blocked goal.1 goal.2 = false :=
        chainOK_last_open cs0 s goal hch0 hcs0ne
      have hphi0 : phiA (AState.mk [(0, s)] [] [(s, 0)]) < astarFuel := by
        norm_num [phiA, astarFuel]
      obtain ⟨cs, hres, hlen, hch⟩ :=
        astarLoop_correct hd astarFuel (AState.mk [(0, s)] [] [(s, 0)])
          (AInv_init s goal) hphi0
      refine ⟨cs, ?_, hlen, hch⟩
      unfold astar_path
      rw [if_neg hsg, if_neg (by simp [hgoalopen])]
      exact hres
  · intro s goal hun
    have hsg : s ≠ goal := by
      intro h
      subst h
      have h0 := hun 0
      simp [reachN] at h0
    unfold astar_path
    rw [if_neg hsg]
    by_cases hb : grid_blocked goal.1 goal.2 = true
    · rw [if_pos hb]
    · rw [if_neg hb]
      exact astarLoop_unreachable astarFuel (AState.mk [(0, s)] [] [(s, 0)])
        (AInv_init s goal) hun

theorem astar_shortest_amended_witness :
    ∃ cs, astar_path (1, 1) (1, 2) = (1, 1) :: cs ∧ cs.length = 1 ∧
      chainOK (1, 1) cs (1, 2) :=
  astar_shortest_amended.1 (1, 1) (1, 2) 1 ⟨by decide, by decide⟩

theorem pyInt_floor {q : ℚ} (h : 0 ≤ q) : pyInt q = ⌊q⌋ := by
  unfold pyInt
  rw [if_pos h]

theorem pyInt_eq (c : ℤ) (q : ℚ) (hc : 0 ≤ c) (h1 : (c : ℚ) ≤ q) (h2 : q < (c : ℚ) + 1) :
    pyInt q = c := by
  have h0 : (0 : ℚ) ≤ q := le_trans (by exact_mod_cast hc) h1
  rw [pyInt_floor h0]
  refine Int.floor_eq_iff.2 ⟨h1, ?_⟩
  push_cast
  linarith

theorem marchFrom_blocked {px py rdx rdy h : ℚ} :
    ∀ (F k0 j : ℕ), marchFrom px py rdx rdy h F k0 = some j →
      marchBlocked (px + (j : ℚ) * h * rdx) (py + (j : ℚ) * h * rdy) = true := by
  intro F
  induction F with
  | zero =>
    intro k0 j hm
    exact absurd hm (by simp [marchFrom])
  | succ f ih =>
    intro k0 j hm
    unfold marchFrom at hm
    by_cases hb : marchBlocked (px + (k0 : ℚ) * h * rdx) (py + (k0 : ℚ) * h * rdy) = true
    · rw [if_pos hb] at hm
      injection hm with hm'
      subst hm'
      exact hb
    · rw [if_neg hb] at hm
      exact ih (k0 + 1) j hm

theorem marchFrom_hits {px py rdx rdy h : ℚ} :
    ∀ (F k0 K : ℕ), k0 ≤ K → K < k0 + F →
      (∀ j, k0 ≤ j → j < K →
        marchBlocked (px + (j : ℚ) * h * rdx) (py + (j : ℚ) * h * rdy) = false) →
      marchBlocked (px + (K : ℚ) * h * rdx) (py + (K : ℚ) * h * rdy) = true →
      marchFrom px py rdx rdy h F k0 = some K := by
  intro F
  induction F with
  | zero =>
    intro k0 K h1 h2 _ _
    exact absurd h2 (by omega)
  | succ f ih =>
    intro k0 K h1 h2 hop hblock
    unfold marchFrom
    by_cases hk : k0 = K
    · subst hk
      rw [if_pos hblock]
    · have hof : marchBlocked (px + (k0 : ℚ) * h * rdx) (py + (k0 : ℚ) * h * rdy) = false :=
        hop k0 (le_refl k0) (by omega)
      rw [if_neg (by rw [hof]; simp)]
      exact ih (k0 + 1) K (by omega) (by omega) (fun j hj1 hj2 => hop j (by omega) hj2) hblock

theorem marchBlocked_of_tile {x y : ℚ} (h : tileAt (pyInt x) (pyInt y) ≠ '0') :
    marchBlocked x y = true := by
  unfold marchBlocked
  simp [h]

theorem marchBlocked_false_of {x y : ℚ} (h1 : 0 ≤ pyInt x) (h2 : pyInt x < 21)
    (h3 : 0 ≤ pyInt y) (h4 : pyInt y < 19) (h5 : tileAt (pyInt x) (pyInt y) = '0') :
    marchBlocked x y = false := by
  unfold marchBlocked
  rw [MAP_WIDTH_eq, MAP_HEIGHT_eq]
  simp only [Bool.or_eq_false_iff, decide_eq_false_iff_not, h5]
  refine ⟨⟨⟨⟨by omega, by push_cast; omega⟩, by omega⟩, by push_cast; omega⟩, by simp⟩

theorem cornerSetup_eval :
    columnSetup cornerPlayer 480 =
      { ray_dir_x := 3/5, ray_dir_y := 4/5, delta_dist_x := some (5/3),
        delta_dist_y := some (5/4), step_x := 1, step_y := 1,
        start := { map_x := 6, map_y := 1, side_dist_x := some (5/8),
                   side_dist_y := some (5/8), side := 0, steps := 0 } } := by
  unfold columnSetup cornerPlayer
  norm_num [SCREEN_WIDTH, pyInt, eScale]
  refine ⟨?_, ?_⟩ <;> rw [abs_of_pos (by norm_num)] <;> norm_num

theorem castColumn_corner :
    castColumn cornerPlayer 480 =
      some { tile := '1', side := 1, perp := 5/8, steps := 1 } := by
  rw [castColumn_def, cornerSetup_eval]
  have hstep : ddaStep
      { ray_dir_x := 3/5, ray_dir_y := 4/5, delta_dist_x := some (5/3),
        delta_dist_y := some (5/4), step_x := 1, step_y := 1,
        start := { map_x := 6, map_y := 1, side_dist_x := some (5/8),
                   side_dist_y := some (5/8), side := 0, steps := 0 } }
      { map_x := 6, map_y := 1, side_dist_x := some (5/8), side_dist_y := some (5/8),
        side := 0, steps := 0 } =
      { map_x := 6, map_y := 2, side_dist_x := some (5/8),
        side_dist_y := some (5/8 + 5/4), side := 1, steps := 1 } := by
    unfold ddaStep
    norm_num [eLt, eAdd]
  rw [show MAP_WIDTH * MAP_HEIGHT = 398 + 1 from rfl, ddaLoop_succ, hstep]
  have hno : ¬ ddaOut { map_x := 6, map_y := 2, side_dist_x := some (5/8), side_dist_y := some (5/8 + 5/4), side := 1, steps := 1 } := by
    unfold ddaOut
    norm_num [MAP_WIDTH_eq, MAP_HEIGHT_eq]
  rw [if_neg hno]
  have htile : tileAt (6 : ℤ) (2 : ℤ) = '1' := rfl
  rw [if_pos (by rw [htile]; decide)]
  dsimp only
  rw [htile]
  have hsub : eSub (some (5/8 + 5/4 : ℚ)) (some (5/4)) = 5/8 := by norm_num [eSub]
  rw [if_neg (by norm_num), hsub, max_eq_left (by norm_num : (0.0001 : ℚ) ≤ 5/8)]

theorem corner_ray_open (t : ℚ) (h0 : 0 ≤ t) (h1 : t < 15/8) :
    marchBlocked (6.625 + t * (3/5)) (1.5 + t * (4/5)) = false := by
  have hx0 : 0 ≤ t * (3 / 5 : ℚ) := mul_nonneg h0 (by norm_num)
  have hy0 : 0 ≤ t * (4 / 5 : ℚ) := mul_nonneg h0 (by norm_num)
  have hx1 : t * (3 / 5 : ℚ) < 9/8 := by nlinarith
  have hy1 : t * (4 / 5 : ℚ) < 3/2 := by nlinarith
  by_cases ht : t < 5/8
  · have hxu : t * (3 / 5 : ℚ) < 3/8 := by nlinarith
    have hyu : t * (4 / 5 : ℚ) < 1/2 := by nlinarith
    have hX : pyInt (6.625 + t * (3/5)) = 6 :=
      pyInt_eq 6 _ (by norm_num) (by push_cast; norm_num; linarith) (by push_cast; norm_num; linarith)
    have hY : pyInt (1.5 + t * (4/5)) = 1 :=
      pyInt_eq 1 _ (by norm_num) (by push_cast; norm_num; linarith) (by push_cast; norm_num; linarith)
    unfold marchBlocked
    rw [hX, hY]
    decide
  · have ht' : 5/8 ≤ t := le_of_not_lt ht
    have hxl : (3/8 : ℚ) ≤ t * (3 / 5) := by nlinarith
    have hyl : (1/2 : ℚ) ≤ t * (4 / 5) := by nlinarith
    have hX : pyInt (6.625 + t * (3/5)) = 7 :=
      pyInt_eq 7 _ (by norm_num) (by push_cast; norm_num; linarith) (by push_cast; norm_num; linarith)
    have hY : pyInt (1.5 + t * (4/5)) = 2 :=
      pyInt_eq 2 _ (by norm_num) (by push_cast; norm_num; linarith) (by push_cast; norm_num; linarith)
    unfold marchBlocked
    rw [hX, hY]
    decide

/-- C5 counterexample: at the player (6.625, 1.5) facing the unit
direction (3/5, 4/5), the centre column's ray passes exactly through the
lattice corner (7, 2).  The DDA tie-breaks by stepping in y first, lands
in the wall cell (6, 2) that the continuous ray only touches at a single
point, and reports perpendicular distance 5/8; brute-force marching of the
same ray, for every step size and fuel, never enters that cell and cannot
report a first blocking distance below 15/8, so the two differ by at least
5/4 — far beyond floating-point epsilon. -/
theorem dda_perp_counterexample :
    (columnSetup cornerPlayer 480).ray_dir_x = 3/5 ∧
    (columnSetup cornerPlayer 480).ray_dir_y = 4/5 ∧
    castColumn cornerPlayer 480 =
      some { tile := '1', side := 1, perp := 5/8, steps := 1 } ∧
    (∀ (h : ℚ) (F : ℕ) (m : ℚ), 0 < h →
      marchDistance cornerPlayer.x cornerPlayer.y
        (columnSetup cornerPlayer 480).ray_dir_x
        (columnSetup cornerPlayer 480).ray_dir_y h F = some m →
      15/8 ≤ m ∧ 5/4 ≤ |m - 5/8|) := by
  have hrx : (columnSetup cornerPlayer 480).ray_dir_x = 3/5 := by rw [cornerSetup_eval]
  have hry : (columnSetup cornerPlayer 480).ray_dir_y = 4/5 := by rw [cornerSetup_eval]
  refine ⟨hrx, hry, castColumn_corner, ?_⟩
  intro h F m hh hm
  rw [hrx, hry, show cornerPlayer.x = 6.625 from rfl,
    show cornerPlayer.y = 1.5 from rfl] at hm
  unfold marchDistance at hm
  cases hmf : marchFrom 6.625 1.5 (3/5) (4/5) h F 1 with
  | none =>
    rw [hmf] at hm
    exact absurd hm (by simp)
  | some k =>
    rw [hmf] at hm
    simp only [Option.map] at hm
    injection hm with hm'
    have hb := marchFrom_blocked F 1 k hmf
    have hkh0 : 0 ≤ (k : ℚ) * h := mul_nonneg (by positivity) (le_of_lt hh)
    by_cases hlt : (k : ℚ) * h < 15/8
    · exfalso
      have hopn := corner_ray_open ((k : ℚ) * h) hkh0 hlt
      rw [hopn] at hb
      exact Bool.noConfusion hb
    · push_neg at hlt
      refine ⟨by rw [← hm']; exact hlt, ?_⟩
      rw [← hm', abs_of_nonneg (by linarith : (0 : ℚ) ≤ (k : ℚ) * h - 5/8)]
      linarith

theorem columnSetup_start_eq (pl : Player) (column : ℕ) :
    (columnSetup pl column).start = DState.mk (pyInt pl.x) (pyInt pl.y)
      (if (columnSetup pl column).ray_dir_x < 0
        then eScale (pl.x - (pyInt pl.x : ℚ)) (columnSetup pl column).delta_dist_x
        else eScale ((pyInt pl.x : ℚ) + 1 - pl.x) (columnSetup pl column).delta_dist_x)
      (if (columnSetup pl column).ray_dir_y < 0
        then eScale (pl.y - (pyInt pl.y : ℚ)) (columnSetup pl column).delta_dist_y
        else eScale ((pyInt pl.y : ℚ) + 1 - pl.y) (columnSetup pl column).delta_dist_y)
      0 0 := rfl

theorem columnSetup_step_x_eq (pl : Player) (column : ℕ) :
    (columnSetup pl column).step_x =
      (if (columnSetup pl column).ray_dir_x < 0 then -1 else 1) := rfl

theorem not_ddaOut_iff (s : DState) :
    ¬ ddaOut s ↔ 0 ≤ s.map_x ∧ s.map_x < 21 ∧ 0 ≤ s.map_y ∧ s.map_y < 19 := by
  unfold ddaOut
  rw [MAP_WIDTH_eq, MAP_HEIGHT_eq]
  push_cast
  omega

theorem ddaStep_axis (rs : RaySetup) {dxv : ℚ} (hdx : rs.delta_dist_x = some dxv)
    (s : DState) {a : ℚ} (hsx : s.side_dist_x = some a) (hsy : s.side_dist_y = none) :
    ddaStep rs s =
      DState.mk (s.map_x + rs.step_x) s.map_y (some (a + dxv)) none 0 (s.steps + 1) := by
  have hlt : eLt s.side_dist_x s.side_dist_y = true := by
    rw [hsx, hsy]
    rfl
  unfold ddaStep
  rw [if_pos hlt, hsx, hdx, hsy]
  rfl

theorem axis_iterate (rs : RaySetup) {dxv sd0 : ℚ} {mx my : ℤ}
    (hdx : rs.delta_dist_x = some dxv) (s0 : DState)
    (h0 : s0 = DState.mk mx my (some sd0) none 0 0) :
    ∀ k : ℕ, (ddaStep rs)^[k + 1] s0 =
      DState.mk (mx + ((k : ℤ) + 1) * rs.step_x) my
        (some (sd0 + ((k : ℚ) + 1) * dxv)) none 0 (k + 1) := by
  intro k
  induction k with
  | zero =>
    rw [Function.iterate_one, h0, ddaStep_axis rs hdx _ rfl rfl]
    dsimp only
    norm_num
  | succ j ih =>
    rw [Function.iterate_succ_apply', ih, ddaStep_axis rs hdx _ rfl rfl]
    dsimp only
    have hx : mx + ((j : ℤ) + 1) * rs.step_x + rs.step_x =
        mx + (((j + 1 : ℕ) : ℤ) + 1) * rs.step_x := by
      push_cast
      ring
    have hs : sd0 + ((j : ℚ) + 1) * dxv + dxv = sd0 + (((j + 1 : ℕ) : ℚ) + 1) * dxv := by
      push_cast
      ring
    rw [hx, hs]

theorem march_open_of_cell_range {py : ℚ} {my lo hi : ℤ} (X : ℚ)
    (hlo : (lo : ℚ) ≤ X) (hhi : X < (hi : ℚ) + 1) (hlo0 : 0 ≤ lo) (hhi21 : hi < 21)
    (hmyv : pyInt py = my) (hmy0 : 0 ≤ my) (hmyH : my < 19)
    (htiles : ∀ c : ℤ, lo ≤ c → c ≤ hi → tileAt c my = '0') :
    marchBlocked X py = false := by
  have hX0 : (0 : ℚ) ≤ X := le_trans (by exact_mod_cast hlo0) hlo
  have hfl : pyInt X = ⌊X⌋ := pyInt_floor hX0
  have h1 : lo ≤ ⌊X⌋ := Int.le_floor.2 hlo
  have h2 : ⌊X⌋ ≤ hi := by
    have h3 : ⌊X⌋ < hi + 1 := Int.floor_lt.2 (by push_cast; linarith)
    omega
  apply marchBlocked_false_of
  · rw [hfl]; omega
  · rw [hfl]; omega
  · rw [hmyv]; omega
  · rw [hmyv]; omega
  · rw [hfl, hmyv]
    exact htiles ⌊X⌋ h1 h2

theorem axis_march_core (rs : RaySetup) (r px py : ℚ) (mx my : ℤ)
    (tile : Char) (sF : DState) (h : ℚ)
    (hr : r ≠ 0)
    (hdx : rs.delta_dist_x = some |1/r|)
    (hstx : rs.step_x = if r < 0 then -1 else 1)
    (hstart : rs.start = DState.mk mx my
      (some ((if r < 0 then px - (mx : ℚ) else (mx : ℚ) + 1 - px) * |1/r|)) none 0 0)
    (hmxlo : (mx : ℚ) ≤ px) (hmxhi : px < (mx : ℚ) + 1)
    (hmx0 : 0 ≤ mx) (hmxW : mx < 21)
    (hmy0 : 0 ≤ my) (hmyH : my < 19)
    (hmyv : pyInt py = my)
    (hopen : tileAt mx my = '0')
    (hrun : ddaLoop rs 399 rs.start = some (tile, sF))
    (hin : ¬ ddaOut sF)
    (hh : 0 < h) (hsmall : h * |r| < 1) :
    ∃ (F K : ℕ), marchFrom px py r 0 h F 1 = some K ∧
      sF.side = 0 ∧
      0 ≤ eSub sF.side_dist_x rs.delta_dist_x ∧
      eSub sF.side_dist_x rs.delta_dist_x ≤ (K : ℚ) * h ∧
      (K : ℚ) * h ≤ eSub sF.side_dist_x rs.delta_dist_x + h := by
  have hspec := ddaLoop_spec rs 399 rs.start
  rw [hrun] at hspec
  obtain ⟨n, hn1, hn399, hsF, hbad, hmin, hc1, hc2⟩ := hspec
  obtain ⟨k, rfl⟩ : ∃ k, n = k + 1 := ⟨n - 1, by omega⟩
  rw [axis_iterate rs hdx rs.start hstart k] at hsF
  have hside : sF.side = 0 := by rw [hsF]
  have hsdx : sF.side_dist_x =
      some ((if r < 0 then px - (mx : ℚ) else (mx : ℚ) + 1 - px) * |1/r| +
        ((k : ℚ) + 1) * |1/r|) := by rw [hsF]
  have hmap : sF.map_x = mx + ((k : ℤ) + 1) * rs.step_x := by rw [hsF]
  have hmapy : sF.map_y = my := by rw [hsF]
  have hTval : eSub sF.side_dist_x rs.delta_dist_x =
      (if r < 0 then px - (mx : ℚ) else (mx : ℚ) + 1 - px) * |1/r| + (k : ℚ) * |1/r| := by
    rw [hsdx, hdx]
    show ((if r < 0 then px - (mx : ℚ) else (mx : ℚ) + 1 - px) * |1/r| +
        ((k : ℚ) + 1) * |1/r|) - |1/r| = _
    ring
  have hinb := (not_ddaOut_iff sF).1 hin
  rw [hmap, hmapy] at hinb
  have htileF : tileAt (mx + ((k : ℤ) + 1) * rs.step_x) my ≠ '0' := by
    rcases hbad with hout | hnt
    · exact absurd hout hin
    · rw [hmap, hmapy] at hnt
      exact hnt
  have hopenCell : ∀ j' : ℕ, j' + 1 ≤ k →
      tileAt (mx + ((j' : ℤ) + 1) * rs.step_x) my = '0' ∧
      0 ≤ mx + ((j' : ℤ) + 1) * rs.step_x ∧ mx + ((j' : ℤ) + 1) * rs.step_x < 21 := by
    intro j' hj
    have hnb := hmin (j' + 1) (by omega) (by omega)
    rw [axis_iterate rs hdx rs.start hstart j'] at hnb
    unfold ddaBad at hnb
    push_neg at hnb
    obtain ⟨hno, hti⟩ := hnb
    rw [not_ddaOut_iff] at hno
    dsimp only at hno hti
    exact ⟨hti, hno.1, hno.2.1⟩
  rcases lt_or_gt_of_ne hr with hneg | hpos
  · -- leftward ray: r < 0
    have hu : (0 : ℚ) < -r := by linarith
    have habs : |1/r| = 1/(-r) := by
      have h2 : -(1/r) = 1/(-r) := by field_simp
      rw [abs_of_neg (one_div_neg.mpr hneg), h2]
    have habsr : |r| = -r := abs_of_neg hneg
    have hstep1 : rs.step_x = -1 := by rw [hstx, if_pos hneg]
    rw [hstep1, show mx + ((k : ℤ) + 1) * (-1 : ℤ) = mx - ((k : ℤ) + 1) from by ring]
      at hinb htileF
    have hTv2 : eSub sF.side_dist_x rs.delta_dist_x =
        (px - ((mx : ℚ) - (k : ℚ))) / (-r) := by
      rw [hTval, if_pos hneg, habs]
      ring
    have hT0 : 0 ≤ (px - ((mx : ℚ) - (k : ℚ))) / (-r) := by
      apply div_nonneg _ (le_of_lt hu)
      have hk0 : (0 : ℚ) ≤ (k : ℚ) := by positivity
      linarith
    have hex : ∃ j : ℕ, (px - ((mx : ℚ) - (k : ℚ))) / (-r) < ((j : ℚ) + 1) * h := by
      obtain ⟨j0, hj0⟩ := exists_nat_gt ((px - ((mx : ℚ) - (k : ℚ))) / (-r) / h)
      refine ⟨j0, ?_⟩
      rw [div_lt_iff hh] at hj0
      nlinarith
    have hKlo := Nat.find_spec hex
    have hKhi : ((Nat.find hex : ℚ) + 1) * h ≤ (px - ((mx : ℚ) - (k : ℚ))) / (-r) + h := by
      rcases Nat.eq_zero_or_pos (Nat.find hex) with h0 | hposf
      · rw [h0]
        push_cast
        linarith
      · obtain ⟨m, hm⟩ : ∃ m, Nat.find hex = m + 1 := ⟨Nat.find hex - 1, by omega⟩
        have hmlt := Nat.find_min hex (show m < Nat.find hex by omega)
        push_neg at hmlt
        rw [hm]
        push_cast
        push_cast at hmlt
        linarith
    have hXKhi : px + ((Nat.find hex : ℚ) + 1) * h * r < (mx : ℚ) - (k : ℚ) := by
      have h1 := mul_lt_mul_of_pos_right hKlo hu
      rw [div_mul_cancel₀ _ (ne_of_gt hu)] at h1
      nlinarith
    have hXKlo : (mx : ℚ) - (k : ℚ) - 1 < px + ((Nat.find hex : ℚ) + 1) * h * r := by
      have hid : (px - ((mx : ℚ) - (k : ℚ))) / (-r) * (-r) = px - ((mx : ℚ) - (k : ℚ)) :=
        div_mul_cancel₀ _ (ne_of_gt hu)
      have h1 := mul_le_mul_of_nonneg_right hKhi (le_of_lt hu)
      have h2 : h * (-r) < 1 := by rw [← habsr]; exact hsmall
      nlinarith [h1, hid, h2]
    have hXK : pyInt (px + ((Nat.find hex : ℚ) + 1) * h * r) = mx - ((k : ℤ) + 1) := by
      apply pyInt_eq
      · omega
      · push_cast
        linarith
      · push_cast
        linarith
    have hblockK : marchBlocked (px + ((Nat.find hex + 1 : ℕ) : ℚ) * h * r)
        (py + ((Nat.find hex + 1 : ℕ) : ℚ) * h * 0) = true := by
      rw [show py + ((Nat.find hex + 1 : ℕ) : ℚ) * h * 0 = py from by ring]
      apply marchBlocked_of_tile
      rw [hmyv, show ((Nat.find hex + 1 : ℕ) : ℚ) = (Nat.find hex : ℚ) + 1 from by
        push_cast; ring, hXK]
      exact htileF
    have htiles : ∀ c : ℤ, mx - (k : ℤ) ≤ c → c ≤ mx → tileAt c my = '0' := by
      intro c hc1 hc2
      rcases eq_or_lt_of_le hc2 with heq | hlt2
      · rw [heq]
        exact hopen
      · obtain ⟨j'', hj''⟩ : ∃ j'' : ℕ, c = mx - ((j'' : ℤ) + 1) :=
          ⟨(mx - c - 1).toNat, by omega⟩
        have hcell := (hopenCell j'' (by omega)).1
        rw [hstep1, show mx + ((j'' : ℤ) + 1) * (-1 : ℤ) = mx - ((j'' : ℤ) + 1) from by ring]
          at hcell
        rw [hj'']
        exact hcell
    have hopenJ : ∀ j : ℕ, 1 ≤ j → j < Nat.find hex + 1 →
        marchBlocked (px + (j : ℚ) * h * r) (py + (j : ℚ) * h * 0) = false := by
      intro j hj1 hjK
      rw [show py + (j : ℚ) * h * 0 = py from by ring]
      obtain ⟨j', rfl⟩ : ∃ j', j = j' + 1 := ⟨j - 1, by omega⟩
      have hjle := Nat.find_min hex (show j' < Nat.find hex by omega)
      push_neg at hjle
      have hXlo : ((mx - (k : ℤ) : ℤ) : ℚ) ≤ px + ((j' + 1 : ℕ) : ℚ) * h * r := by
        have h1 := mul_le_mul_of_nonneg_right hjle (le_of_lt hu)
        rw [div_mul_cancel₀ _ (ne_of_gt hu)] at h1
        push_cast
        push_cast at h1
        nlinarith
      have hXup : px + ((j' + 1 : ℕ) : ℚ) * h * r < (mx : ℚ) + 1 := by
        have hq : (0 : ℚ) < ((j' + 1 : ℕ) : ℚ) * h * (-r) := by positivity
        push_cast at hq
        nlinarith
      exact march_open_of_cell_range _ hXlo hXup (by omega) (by omega) hmyv hmy0 hmyH htiles
    refine ⟨Nat.find hex + 2, Nat.find hex + 1,
      marchFrom_hits (Nat.find hex + 2) 1 (Nat.find hex + 1) (by omega) (by omega)
        hopenJ hblockK, hside, ?_, ?_, ?_⟩
    · rw [hTv2]
      exact hT0
    · rw [hTv2]
      push_cast
      linarith
    · rw [hTv2]
      push_cast
      linarith
  · -- rightward ray: 0 < r
    have habs : |1/r| = 1/r := abs_of_pos (by positivity)
    have habsr : |r| = r := abs_of_pos hpos
    have hstep1 : rs.step_x = 1 := by rw [hstx, if_neg (not_lt.2 (le_of_lt hpos))]
    rw [hstep1, mul_one] at hinb htileF
    have hTv2 : eSub sF.side_dist_x rs.delta_dist_x =
        (((mx : ℚ) + (k : ℚ) + 1) - px) / r := by
      rw [hTval, if_neg (not_lt.2 (le_of_lt hpos)), habs]
      ring
    have hTpos : 0 < (((mx : ℚ) + (k : ℚ) + 1) - px) / r := by
      apply div_pos _ hpos
      have hk0 : (0 : ℚ) ≤ (k : ℚ) := by positivity
      linarith
    have hex : ∃ j : ℕ, (((mx : ℚ) + (k : ℚ) + 1) - px) / r ≤ ((j : ℚ) + 1) * h := by
      obtain ⟨j0, hj0⟩ := exists_nat_ge ((((mx : ℚ) + (k : ℚ) + 1) - px) / r / h)
      refine ⟨j0, ?_⟩
      rw [div_le_iff hh] at hj0
      nlinarith
    have hKlo := Nat.find_spec hex
    have hKhi : ((Nat.find hex : ℚ) + 1) * h < (((mx : ℚ) + (k : ℚ) + 1) - px) / r + h := by
      rcases Nat.eq_zero_or_pos (Nat.find hex) with h0 | hposf
      · rw [h0]
        push_cast
        linarith
      · obtain ⟨m, hm⟩ : ∃ m, Nat.find hex = m + 1 := ⟨Nat.find hex - 1, by omega⟩
        have hmlt := Nat.find_min hex (show m < Nat.find hex by omega)
        push_neg at hmlt
        rw [hm]
        push_cast
        push_cast at hmlt
        linarith
    have hXKlo : ((mx : ℚ) + (k : ℚ) + 1) ≤ px + ((Nat.find hex : ℚ) + 1) * h * r := by
      have h1 := mul_le_mul_of_nonneg_right hKlo (le_of_lt hpos)
      rw [div_mul_cancel₀ _ (ne_of_gt hpos)] at h1
      linarith
    have hXKhi : px + ((Nat.find hex : ℚ) + 1) * h * r < ((mx : ℚ) + (k : ℚ) + 1) + 1 := by
      have hid : ((((mx : ℚ) + (k : ℚ) + 1) - px) / r) * r = ((mx : ℚ) + (k : ℚ) + 1) - px :=
        div_mul_cancel₀ _ (ne_of_gt hpos)
      have h1 := mul_lt_mul_of_pos_right hKhi hpos
      have h2 : h * r < 1 := by rw [← habsr]; exact hsmall
      nlinarith [h1, hid, h2]
    have hXK : pyInt (px + ((Nat.find hex : ℚ) + 1) * h * r) = mx + (k : ℤ) + 1 := by
      apply pyInt_eq
      · omega
      · push_cast
        linarith
      · push_cast
        linarith
    have hblockK : marchBlocked (px + ((Nat.find hex + 1 : ℕ) : ℚ) * h * r)
        (py + ((Nat.find hex + 1 : ℕ) : ℚ) * h * 0) = true := by
      rw [show py + ((Nat.find hex + 1 : ℕ) : ℚ) * h * 0 = py from by ring]
      apply marchBlocked_of_tile
      rw [hmyv, show ((Nat.find hex + 1 : ℕ) : ℚ) = (Nat.find hex : ℚ) + 1 from by
        push_cast; ring, hXK]
      rw [show mx + (k : ℤ) + 1 = mx + ((k : ℤ) + 1) from by ring]
      exact htileF
    have htiles : ∀ c : ℤ, mx ≤ c → c ≤ mx + (k : ℤ) → tileAt c my = '0' := by
      intro c hc1 hc2
      rcases eq_or_lt_of_le hc1 with heq | hlt2
      · rw [← heq]
        exact hopen
      · obtain ⟨j'', hj''⟩ : ∃ j'' : ℕ, c = mx + ((j'' : ℤ) + 1) :=
          ⟨(c - mx - 1).toNat, by omega⟩
        have hcell := (hopenCell j'' (by omega)).1
        rw [hstep1, mul_one] at hcell
        rw [hj'']
        exact hcell
    have hopenJ : ∀ j : ℕ, 1 ≤ j → j < Nat.find hex + 1 →
        marchBlocked (px + (j : ℚ) * h * r) (py + (j : ℚ) * h * 0) = false := by
      intro j hj1 hjK
      rw [show py + (j : ℚ) * h * 0 = py from by ring]
      obtain ⟨j', rfl⟩ : ∃ j', j = j' + 1 := ⟨j - 1, by omega⟩
      have hjlt := Nat.find_min hex (show j' < Nat.find hex by omega)
      push_neg at hjlt
      have hXup : px + ((j' + 1 : ℕ) : ℚ) * h * r < ((mx + (k : ℤ) : ℤ) : ℚ) + 1 := by
        have h1 := mul_lt_mul_of_pos_right hjlt hpos
        rw [div_mul_cancel₀ _ (ne_of_gt hpos)] at h1
        push_cast
        push_cast at h1
        nlinarith
      have hXlo : ((mx : ℤ) : ℚ) ≤ px + ((j' + 1 : ℕ) : ℚ) * h * r := by
        have hq : (0 : ℚ) < ((j' + 1 : ℕ) : ℚ) * h * r := by positivity
        push_cast
        push_cast at hq
        linarith
      exact march_open_of_cell_range _ hXlo hXup (by omega) (by omega) hmyv hmy0 hmyH htiles
    refine ⟨Nat.find hex + 2, Nat.find hex + 1,
      marchFrom_hits (Nat.find hex + 2) 1 (Nat.find hex + 1) (by omega) (by omega)
        hopenJ hblockK, hside, ?_, ?_, ?_⟩
    · rw [hTv2]
      exact le_of_lt hTpos
    · rw [hTv2]
      push_cast
      linarith
    · rw [hTv2]
      push_cast
      linarith

theorem crossT_zero (p : ℚ) (m : ℤ) (rd : ℚ) :
    crossT p m rd 0 = (if rd < 0 then p - (m : ℚ) else (m : ℚ) + 1 - p) * |1/rd| := by
  unfold crossT
  push_cast
  ring

theorem crossT_succ (p : ℚ) (m : ℤ) (rd : ℚ) (i : ℕ) :
    crossT p m rd (i + 1) = crossT p m rd i + |1/rd| := by
  unfold crossT
  push_cast
  ring

theorem crossT_nonneg {p : ℚ} {m : ℤ} {rd : ℚ}
    (hlo : (m : ℚ) ≤ p) (hhi : p < (m : ℚ) + 1) (i : ℕ) : 0 ≤ crossT p m rd i := by
  unfold crossT
  have he : (0 : ℚ) ≤ |1/rd| := abs_nonneg _
  have hi : (0 : ℚ) ≤ (i : ℚ) := by positivity
  split
  · nlinarith
  · nlinarith

theorem crossT_lt {p : ℚ} {m : ℤ} {rd : ℚ} (hrd : rd ≠ 0) {i j : ℕ} (hij : i < j) :
    crossT p m rd i < crossT p m rd j := by
  unfold crossT
  have he : (0 : ℚ) < |1/rd| := abs_pos.2 (one_div_ne_zero hrd)
  have hij' : (i : ℚ) < j := by exact_mod_cast hij
  nlinarith

theorem crossT_pos_eq {p : ℚ} {m : ℤ} {rd : ℚ} (hrd : 0 < rd) (i : ℕ) :
    crossT p m rd i = ((m : ℚ) + 1 + (i : ℚ) - p) / rd := by
  unfold crossT
  rw [if_neg (not_lt.2 (le_of_lt hrd)), abs_of_pos (one_div_pos.mpr hrd)]
  field_simp
  ring

theorem crossT_neg_eq {p : ℚ} {m : ℤ} {rd : ℚ} (hrd : rd < 0) (i : ℕ) :
    crossT p m rd i = (p - (m : ℚ) + (i : ℚ)) / (-rd) := by
  unfold crossT
  rw [if_pos hrd]
  have habs : |1/rd| = 1/(-rd) := by
    rw [abs_of_neg (one_div_neg.mpr hrd), div_neg]
  rw [habs]
  ring

theorem crossT_int {p : ℚ} {m : ℤ} {rd : ℚ} (hrd : rd ≠ 0) (i : ℕ) :
    p + crossT p m rd i * rd =
      ((if rd < 0 then m - (i : ℤ) else m + 1 + (i : ℤ) : ℤ) : ℚ) := by
  rcases lt_or_gt_of_ne hrd with hneg | hpos
  · rw [crossT_neg_eq hneg, if_pos hneg]
    have hu : -rd ≠ 0 := by linarith
    push_cast
    field_simp
    ring
  · rw [crossT_pos_eq hpos, if_neg (not_lt.2 (le_of_lt hpos))]
    have hu : rd ≠ 0 := ne_of_gt hpos
    push_cast
    field_simp

theorem crossT_floor_pos {p : ℚ} {m : ℤ} {rd : ℚ} (hrd : 0 < rd)
    (hlo : (m : ℚ) ≤ p) (a : ℕ) (t : ℚ) (ht : 0 ≤ t)
    (h1 : a = 0 ∨ crossT p m rd (a - 1) ≤ t) (h2 : t < crossT p m rd a) :
    ⌊p + t * rd⌋ = m + (a : ℤ) := by
  rw [crossT_pos_eq hrd] at h2
  rw [lt_div_iff hrd] at h2
  refine Int.floor_eq_iff.2 ⟨?_, ?_⟩
  · rcases Nat.eq_zero_or_pos a with rfl | ha
    · push_cast
      nlinarith
    · rcases h1 with h0 | h1
      · exact absurd h0 (by omega)
      · obtain ⟨a', rfl⟩ : ∃ a', a = a' + 1 := ⟨a - 1, by omega⟩
        have h1' : crossT p m rd a' ≤ t := by simpa using h1
        rw [crossT_pos_eq hrd, div_le_iff hrd] at h1'
        push_cast
        push_cast at h1'
        linarith
  · push_cast
    linarith

theorem crossT_floor_neg {p : ℚ} {m : ℤ} {rd : ℚ} (hrd : rd < 0)
    (hhi : p < (m : ℚ) + 1) (a : ℕ) (t : ℚ) (ht : 0 ≤ t)
    (h1 : a = 0 ∨ crossT p m rd (a - 1) < t) (h2 : t ≤ crossT p m rd a) :
    ⌊p + t * rd⌋ = m - (a : ℤ) := by
  have hu : (0 : ℚ) < -rd := by linarith
  have hrw : p + t * rd = p - t * (-rd) := by ring
  rw [crossT_neg_eq hrd, le_div_iff hu] at h2
  refine Int.floor_eq_iff.2 ⟨?_, ?_⟩
  · rw [hrw]
    push_cast
    linarith
  · rw [hrw]
    rcases Nat.eq_zero_or_pos a with rfl | ha
    · have htu : 0 ≤ t * (-rd) := mul_nonneg ht (le_of_lt hu)
      push_cast
      linarith
    · rcases h1 with h0 | h1
      · exact absurd h0 (by omega)
      · obtain ⟨a', rfl⟩ : ∃ a', a = a' + 1 := ⟨a - 1, by omega⟩
        have h1' : crossT p m rd a' < t := by simpa using h1
        rw [crossT_neg_eq hrd, div_lt_iff hu] at h1'
        push_cast
        push_cast at h1'
        linarith

theorem crossT_floor_uni {p : ℚ} {m : ℤ} {rd : ℚ} (hrd : rd ≠ 0)
    (hlo : (m : ℚ) ≤ p) (hhi : p < (m : ℚ) + 1) (a : ℕ) (t : ℚ) (ht : 0 ≤ t)
    (h1 : a = 0 ∨ crossT p m rd (a - 1) < t) (h2 : t < crossT p m rd a) :
    ⌊p + t * rd⌋ = m + (a : ℤ) * (if rd < 0 then -1 else 1) := by
  rcases lt_or_gt_of_ne hrd with hneg | hpos
  · rw [if_pos hneg, crossT_floor_neg hneg hhi a t ht h1 (le_of_lt h2)]
    ring
  · have h1' : a = 0 ∨ crossT p m rd (a - 1) ≤ t := by
      rcases h1 with h | h
      · exact Or.inl h
      · exact Or.inr (le_of_lt h)
    rw [if_neg (not_lt.2 (le_of_lt hpos)), crossT_floor_pos hpos hlo a t ht h1' h2]
    ring

theorem crossT_floor_inv_pos {p : ℚ} {m : ℤ} {rd : ℚ} (hrd : 0 < rd)
    (a : ℕ) (ha : 1 ≤ a) (t : ℚ)
    (hfl : ((m + (a : ℤ) : ℤ) : ℚ) ≤ p + t * rd) : crossT p m rd (a - 1) ≤ t := by
  obtain ⟨a', rfl⟩ : ∃ a', a = a' + 1 := ⟨a - 1, by omega⟩
  have h1 : crossT p m rd a' ≤ t := by
    rw [crossT_pos_eq hrd, div_le_iff hrd]
    push_cast at hfl
    linarith
  simpa using h1

theorem crossT_floor_inv_neg {p : ℚ} {m : ℤ} {rd : ℚ} (hrd : rd < 0)
    (a : ℕ) (ha : 1 ≤ a) (t : ℚ)
    (hfl : p + t * rd < ((m - (a : ℤ) + 1 : ℤ) : ℚ)) : crossT p m rd (a - 1) < t := by
  have hu : (0 : ℚ) < -rd := by linarith
  obtain ⟨a', rfl⟩ : ∃ a', a = a' + 1 := ⟨a - 1, by omega⟩
  have h1 : crossT p m rd a' < t := by
    rw [crossT_neg_eq hrd, div_lt_iff hu]
    push_cast at hfl
    linarith
  simpa using h1

theorem eLt_some_some (a b : ℚ) : eLt (some a) (some b) = decide (a < b) := rfl

theorem eLt_some_none (a : ℚ) : eLt (some a) none = true := rfl

theorem eLt_none_left (b : Option ℚ) : eLt none b = false := rfl

theorem ddaStep_lt (rs : RaySetup) (s : DState)
    (h : eLt s.side_dist_x s.side_dist_y = true) :
    ddaStep rs s = DState.mk (s.map_x + rs.step_x) s.map_y
      (eAdd s.side_dist_x rs.delta_dist_x) s.side_dist_y 0 (s.steps + 1) := by
  unfold ddaStep
  rw [if_pos h]

theorem ddaStep_ge (rs : RaySetup) (s : DState)
    (h : eLt s.side_dist_x s.side_dist_y = false) :
    ddaStep rs s = DState.mk s.map_x (s.map_y + rs.step_y)
      s.side_dist_x (eAdd s.side_dist_y rs.delta_dist_y) 1 (s.steps + 1) := by
  unfold ddaStep
  rw [if_neg (by rw [h]; simp)]

theorem ddaStep_cell (rs : RaySetup) (s : DState) :
    ((ddaStep rs s).map_x = s.map_x + rs.step_x ∧ (ddaStep rs s).map_y = s.map_y) ∨
    ((ddaStep rs s).map_x = s.map_x ∧ (ddaStep rs s).map_y = s.map_y + rs.step_y) := by
  unfold ddaStep
  split
  · exact Or.inl ⟨rfl, rfl⟩
  · exact Or.inr ⟨rfl, rfl⟩

theorem columnSetup_step_y_eq (pl : Player) (column : ℕ) :
    (columnSetup pl column).step_y =
      (if (columnSetup pl column).ray_dir_y < 0 then -1 else 1) := rfl

theorem border_wall :
    (∀ i : ℕ, i < 21 → tileAt (i : ℤ) 0 ≠ '0' ∧ tileAt (i : ℤ) 18 ≠ '0') ∧
    (∀ j : ℕ, j < 19 → tileAt 0 (j : ℤ) ≠ '0' ∧ tileAt 20 (j : ℤ) ≠ '0') := by
  decide

theorem dda_no_exit (rs : RaySetup) (tile : Char) (sF : DState)
    (hsx : rs.step_x = 1 ∨ rs.step_x = -1)
    (hsy : rs.step_y = 1 ∨ rs.step_y = -1)
    (hin0 : 0 ≤ rs.start.map_x ∧ rs.start.map_x < 21 ∧
      0 ≤ rs.start.map_y ∧ rs.start.map_y < 19)
    (hopen0 : tileAt rs.start.map_x rs.start.map_y = '0')
    (hrun : ddaLoop rs 399 rs.start = some (tile, sF)) :
    ¬ ddaOut sF := by
  have hspec := ddaLoop_spec rs 399 rs.start
  rw [hrun] at hspec
  obtain ⟨n, hn1, hn399, hsF, hbad, hmin, hc1, hc2⟩ := hspec
  obtain ⟨k, rfl⟩ : ∃ k, n = k + 1 := ⟨n - 1, by omega⟩
  set P := (ddaStep rs)^[k] rs.start with hP
  have hPgood : ¬ ddaBad P := by
    rw [hP]
    rcases Nat.eq_zero_or_pos k with rfl | hk
    · rw [Function.iterate_zero_apply]
      unfold ddaBad
      push_neg
      exact ⟨(not_ddaOut_iff _).2 hin0, hopen0⟩
    · exact hmin k (by omega) (by omega)
  have hPin : ¬ ddaOut P := fun ho => hPgood (Or.inl ho)
  have hPopen : tileAt P.map_x P.map_y = '0' := by
    by_contra hcon
    exact hPgood (Or.inr hcon)
  have hPb := (not_ddaOut_iff P).1 hPin
  have hstep : sF = ddaStep rs P := by
    rw [hsF, Function.iterate_succ_apply', ← hP]
  intro hout
  unfold ddaOut at hout
  rw [MAP_WIDTH_eq, MAP_HEIGHT_eq, hstep] at hout
  push_cast at hout
  rcases ddaStep_cell rs P with ⟨hx, hy⟩ | ⟨hx, hy⟩
  · rw [hx, hy] at hout
    have hPx : P.map_x = 0 ∨ P.map_x = 20 := by
      rcases hsx with h1 | h1 <;> rw [h1] at hout <;> omega
    rcases hPx with h0 | h20
    · have hbw := (border_wall.2 P.map_y.toNat (by omega)).1
      rw [show ((P.map_y.toNat : ℕ) : ℤ) = P.map_y from by omega] at hbw
      rw [h0] at hPopen
      exact hbw hPopen
    · have hbw := (border_wall.2 P.map_y.toNat (by omega)).2
      rw [show ((P.map_y.toNat : ℕ) : ℤ) = P.map_y from by omega] at hbw
      rw [h20] at hPopen
      exact hbw hPopen
  · rw [hx, hy] at hout
    have hPy : P.map_y = 0 ∨ P.map_y = 18 := by
      rcases hsy with h1 | h1 <;> rw [h1] at hout <;> omega
    rcases hPy with h0 | h18
    · have hbw := (border_wall.1 P.map_x.toNat (by omega)).1
      rw [show ((P.map_x.toNat : ℕ) : ℤ) = P.map_x from by omega] at hbw
      rw [h0] at hPopen
      exact hbw hPopen
    · have hbw := (border_wall.1 P.map_x.toNat (by omega)).2
      rw [show ((P.map_x.toNat : ℕ) : ℤ) = P.map_x from by omega] at hbw
      rw [h18] at hPopen
      exact hbw hPopen

theorem ddaStep_axis_y (rs : RaySetup) {dyv : ℚ} (hdy : rs.delta_dist_y = some dyv)
    (s : DState) {a : ℚ} (hsx : s.side_dist_x = none) (hsy : s.side_dist_y = some a) :
    ddaStep rs s =
      DState.mk s.map_x (s.map_y + rs.step_y) none (some (a + dyv)) 1 (s.steps + 1) := by
  have hlt : eLt s.side_dist_x s.side_dist_y = false := by
    rw [hsx]
    rfl
  unfold ddaStep
  rw [if_neg (by rw [hlt]; simp), hsy, hdy, hsx]
  rfl

theorem axis_iterate_y (rs : RaySetup) {dyv sd0 : ℚ} {mx my : ℤ}
    (hdy : rs.delta_dist_y = some dyv) (s0 : DState)
    (h0 : s0 = DState.mk mx my none (some sd0) 0 0) :
    ∀ k : ℕ, (ddaStep rs)^[k + 1] s0 =
      DState.mk mx (my + ((k : ℤ) + 1) * rs.step_y)
        none (some (sd0 + ((k : ℚ) + 1) * dyv)) 1 (k + 1) := by
  intro k
  induction k with
  | zero =>
    rw [Function.iterate_one, h0, ddaStep_axis_y rs hdy _ rfl rfl]
    dsimp only
    norm_num
  | succ j ih =>
    rw [Function.iterate_succ_apply', ih, ddaStep_axis_y rs hdy _ rfl rfl]
    dsimp only
    have hy : my + ((j : ℤ) + 1) * rs.step_y + rs.step_y =
        my + (((j + 1 : ℕ) : ℤ) + 1) * rs.step_y := by
      push_cast
      ring
    have hs : sd0 + ((j : ℚ) + 1) * dyv + dyv = sd0 + (((j + 1 : ℕ) : ℚ) + 1) * dyv := by
      push_cast
      ring
    rw [hy, hs]

theorem march_open_of_cell_range_y {px : ℚ} {mx lo hi : ℤ} (Y : ℚ)
    (hlo : (lo : ℚ) ≤ Y) (hhi : Y < (hi : ℚ) + 1) (hlo0 : 0 ≤ lo) (hhi19 : hi < 19)
    (hmxv : pyInt px = mx) (hmx0 : 0 ≤ mx) (hmxW : mx < 21)
    (htiles : ∀ c : ℤ, lo ≤ c → c ≤ hi → tileAt mx c = '0') :
    marchBlocked px Y = false := by
  have hY0 : (0 : ℚ) ≤ Y := le_trans (by exact_mod_cast hlo0) hlo
  have hfl : pyInt Y = ⌊Y⌋ := pyInt_floor hY0
  have h1 : lo ≤ ⌊Y⌋ := Int.le_floor.2 hlo
  have h2 : ⌊Y⌋ ≤ hi := by
    have h3 : ⌊Y⌋ < hi + 1 := Int.floor_lt.2 (by push_cast; linarith)
    omega
  apply marchBlocked_false_of
  · rw [hmxv]; omega
  · rw [hmxv]; omega
  · rw [hfl]; omega
  · rw [hfl]; omega
  · rw [hfl, hmxv]
    exact htiles ⌊Y⌋ h1 h2

theorem axis_march_core_y (rs : RaySetup) (r px py : ℚ) (mx my : ℤ)
    (tile : Char) (sF : DState) (h : ℚ)
    (hr : r ≠ 0)
    (hdy : rs.delta_dist_y = some |1/r|)
    (hsty : rs.step_y = if r < 0 then -1 else 1)
    (hstart : rs.start = DState.mk mx my
      none (some ((if r < 0 then py - (my : ℚ) else (my : ℚ) + 1 - py) * |1/r|)) 0 0)
    (hmylo : (my : ℚ) ≤ py) (hmyhi : py < (my : ℚ) + 1)
    (hmy0 : 0 ≤ my) (hmyH : my < 19)
    (hmx0 : 0 ≤ mx) (hmxW : mx < 21)
    (hmxv : pyInt px = mx)
    (hopen : tileAt mx my = '0')
    (hrun : ddaLoop rs 399 rs.start = some (tile, sF))
    (hin : ¬ ddaOut sF)
    (hh : 0 < h) (hsmall : h * |r| < 1) :
    ∃ (F K : ℕ), marchFrom px py 0 r h F 1 = some K ∧
      sF.side = 1 ∧
      0 ≤ eSub sF.side_dist_y rs.delta_dist_y ∧
      eSub sF.side_dist_y rs.delta_dist_y ≤ (K : ℚ) * h ∧
      (K : ℚ) * h ≤ eSub sF.side_dist_y rs.delta_dist_y + h := by
  have hspec := ddaLoop_spec rs 399 rs.start
  rw [hrun] at hspec
  obtain ⟨n, hn1, hn399, hsF, hbad, hmin, hc1, hc2⟩ := hspec
  obtain ⟨k, rfl⟩ : ∃ k, n = k + 1 := ⟨n - 1, by omega⟩
  rw [axis_iterate_y rs hdy rs.start hstart k] at hsF
  have hside : sF.side = 1 := by rw [hsF]
  have hsdy : sF.side_dist_y =
      some ((if r < 0 then py - (my : ℚ) else (my : ℚ) + 1 - py) * |1/r| +
        ((k : ℚ) + 1) * |1/r|) := by rw [hsF]
  have hmap : sF.map_y = my + ((k : ℤ) + 1) * rs.step_y := by rw [hsF]
  have hmapx : sF.map_x = mx := by rw [hsF]
  have hTval : eSub sF.side_dist_y rs.delta_dist_y =
      (if r < 0 then py - (my : ℚ) else (my : ℚ) + 1 - py) * |1/r| + (k : ℚ) * |1/r| := by
    rw [hsdy, hdy]
    show ((if r < 0 then py - (my : ℚ) else (my : ℚ) + 1 - py) * |1/r| +
        ((k : ℚ) + 1) * |1/r|) - |1/r| = _
    ring
  have hinb := (not_ddaOut_iff sF).1 hin
  rw [hmap, hmapx] at hinb
  have htileF : tileAt mx (my + ((k : ℤ) + 1) * rs.step_y) ≠ '0' := by
    rcases hbad with hout | hnt
    · exact absurd hout hin
    · rw [hmap, hmapx] at hnt
      exact hnt
  have hopenCell : ∀ j' : ℕ, j' + 1 ≤ k →
      tileAt mx (my + ((j' : ℤ) + 1) * rs.step_y) = '0' ∧
      0 ≤ my + ((j' : ℤ) + 1) * rs.step_y ∧ my + ((j' : ℤ) + 1) * rs.step_y < 19 := by
    intro j' hj
    have hnb := hmin (j' + 1) (by omega) (by omega)
    rw [axis_iterate_y rs hdy rs.start hstart j'] at hnb
    unfold ddaBad at hnb
    push_neg at hnb
    obtain ⟨hno, hti⟩ := hnb
    rw [not_ddaOut_iff] at hno
    dsimp only at hno hti
    exact ⟨hti, hno.2.2.1, hno.2.2.2⟩
  rcases lt_or_gt_of_ne hr with hneg | hpos
  · -- upward ray: r < 0
    have hu : (0 : ℚ) < -r := by linarith
    have habs : |1/r| = 1/(-r) := by
      have h2 : -(1/r) = 1/(-r) := by field_simp
      rw [abs_of_neg (one_div_neg.mpr hneg), h2]
    have habsr : |r| = -r := abs_of_neg hneg
    have hstep1 : rs.step_y = -1 := by rw [hsty, if_pos hneg]
    rw [hstep1, show my + ((k : ℤ) + 1) * (-1 : ℤ) = my - ((k : ℤ) + 1) from by ring]
      at hinb htileF
    have hTv2 : eSub sF.side_dist_y rs.delta_dist_y =
        (py - ((my : ℚ) - (k : ℚ))) / (-r) := by
      rw [hTval, if_pos hneg, habs]
      ring
    have hT0 : 0 ≤ (py - ((my : ℚ) - (k : ℚ))) / (-r) := by
      apply div_nonneg _ (le_of_lt hu)
      have hk0 : (0 : ℚ) ≤ (k : ℚ) := by positivity
      linarith
    have hex : ∃ j : ℕ, (py - ((my : ℚ) - (k : ℚ))) / (-r) < ((j : ℚ) + 1) * h := by
      obtain ⟨j0, hj0⟩ := exists_nat_gt ((py - ((my : ℚ) - (k : ℚ))) / (-r) / h)
      refine ⟨j0, ?_⟩
      rw [div_lt_iff hh] at hj0
      nlinarith
    have hKlo := Nat.find_spec hex
    have hKhi : ((Nat.find hex : ℚ) + 1) * h ≤ (py - ((my : ℚ) - (k : ℚ))) / (-r) + h := by
      rcases Nat.eq_zero_or_pos (Nat.find hex) with h0 | hposf
      · rw [h0]
        push_cast
        linarith
      · obtain ⟨m, hm⟩ : ∃ m, Nat.find hex = m + 1 := ⟨Nat.find hex - 1, by omega⟩
        have hmlt := Nat.find_min hex (show m < Nat.find hex by omega)
        push_neg at hmlt
        rw [hm]
        push_cast
        push_cast at hmlt
        linarith
    have hXKhi : py + ((Nat.find hex : ℚ) + 1) * h * r < (my : ℚ) - (k : ℚ) := by
      have h1 := mul_lt_mul_of_pos_right hKlo hu
      rw [div_mul_cancel₀ _ (ne_of_gt hu)] at h1
      nlinarith
    have hXKlo : (my : ℚ) - (k : ℚ) - 1 < py + ((Nat.find hex : ℚ) + 1) * h * r := by
      have hid : (py - ((my : ℚ) - (k : ℚ))) / (-r) * (-r) = py - ((my : ℚ) - (k : ℚ)) :=
        div_mul_cancel₀ _ (ne_of_gt hu)
      have h1 := mul_le_mul_of_nonneg_right hKhi (le_of_lt hu)
      have h2 : h * (-r) < 1 := by rw [← habsr]; exact hsmall
      nlinarith [h1, hid, h2]
    have hXK : pyInt (py + ((Nat.find hex : ℚ) + 1) * h * r) = my - ((k : ℤ) + 1) := by
      apply pyInt_eq
      · omega
      · push_cast
        linarith
      · push_cast
        linarith
    have hblockK : marchBlocked (px + ((Nat.find hex + 1 : ℕ) : ℚ) * h * 0)
        (py + ((Nat.find hex + 1 : ℕ) : ℚ) * h * r) = true := by
      rw [show px + ((Nat.find hex + 1 : ℕ) : ℚ) * h * 0 = px from by ring]
      apply marchBlocked_of_tile
      rw [hmxv, show ((Nat.find hex + 1 : ℕ) : ℚ) = (Nat.find hex : ℚ) + 1 from by
        push_cast; ring, hXK]
      exact htileF
    have htiles : ∀ c : ℤ, my - (k : ℤ) ≤ c → c ≤ my → tileAt mx c = '0' := by
      intro c hc1 hc2
      rcases eq_or_lt_of_le hc2 with heq | hlt2
      · rw [heq]
        exact hopen
      · obtain ⟨j'', hj''⟩ : ∃ j'' : ℕ, c = my - ((j'' : ℤ) + 1) :=
          ⟨(my - c - 1).toNat, by omega⟩
        have hcell := (hopenCell j'' (by omega)).1
        rw [hstep1, show my + ((j'' : ℤ) + 1) * (-1 : ℤ) = my - ((j'' : ℤ) + 1) from by ring]
          at hcell
        rw [hj'']
        exact hcell
    have hopenJ : ∀ j : ℕ, 1 ≤ j → j < Nat.find hex + 1 →
        marchBlocked (px + (j : ℚ) * h * 0) (py + (j : ℚ) * h * r) = false := by
      intro j hj1 hjK
      rw [show px + (j : ℚ) * h * 0 = px from by ring]
      obtain ⟨j', rfl⟩ : ∃ j', j = j' + 1 := ⟨j - 1, by omega⟩
      have hjle := Nat.find_min hex (show j' < Nat.find hex by omega)
      push_neg at hjle
      have hXlo : ((my - (k : ℤ) : ℤ) : ℚ) ≤ py + ((j' + 1 : ℕ) : ℚ) * h * r := by
        have h1 := mul_le_mul_of_nonneg_right hjle (le_of_lt hu)
        rw [div_mul_cancel₀ _ (ne_of_gt hu)] at h1
        push_cast
        push_cast at h1
        nlinarith
      have hXup : py + ((j' + 1 : ℕ) : ℚ) * h * r < (my : ℚ) + 1 := by
        have hq : (0 : ℚ) < ((j' + 1 : ℕ) : ℚ) * h * (-r) := by positivity
        push_cast at hq
        nlinarith
      exact march_open_of_cell_range_y _ hXlo hXup (by omega) (by omega)
        hmxv hmx0 hmxW htiles
    refine ⟨Nat.find hex + 2, Nat.find hex + 1,
      marchFrom_hits (Nat.find hex + 2) 1 (Nat.find hex + 1) (by omega) (by omega)
        hopenJ hblockK, hside, ?_, ?_, ?_⟩
    · rw [hTv2]
      exact hT0
    · rw [hTv2]
      push_cast
      linarith
    · rw [hTv2]
      push_cast
      linarith
  · -- downward ray: 0 < r
    have habs : |1/r| = 1/r := abs_of_pos (by positivity)
    have habsr : |r| = r := abs_of_pos hpos
    have hstep1 : rs.step_y = 1 := by rw [hsty, if_neg (not_lt.2 (le_of_lt hpos))]
    rw [hstep1, mul_one] at hinb htileF
    have hTv2 : eSub sF.side_dist_y rs.delta_dist_y =
        (((my : ℚ) + (k : ℚ) + 1) - py) / r := by
      rw [hTval, if_neg (not_lt.2 (le_of_lt hpos)), habs]
      ring
    have hTpos : 0 < (((my : ℚ) + (k : ℚ) + 1) - py) / r := by
      apply div_pos _ hpos
      have hk0 : (0 : ℚ) ≤ (k : ℚ) := by positivity
      linarith
    have hex : ∃ j : ℕ, (((my : ℚ) + (k : ℚ) + 1) - py) / r ≤ ((j : ℚ) + 1) * h := by
      obtain ⟨j0, hj0⟩ := exists_nat_ge ((((my : ℚ) + (k : ℚ) + 1) - py) / r / h)
      refine ⟨j0, ?_⟩
      rw [div_le_iff hh] at hj0
      nlinarith
    have hKlo := Nat.find_spec hex
    have hKhi : ((Nat.find hex : ℚ) + 1) * h < (((my : ℚ) + (k : ℚ) + 1) - py) / r + h := by
      rcases Nat.eq_zero_or_pos (Nat.find hex) with h0 | hposf
      · rw [h0]
        push_cast
        linarith
      · obtain ⟨m, hm⟩ : ∃ m, Nat.find hex = m + 1 := ⟨Nat.find hex - 1, by omega⟩
        have hmlt := Nat.find_min hex (show m < Nat.find hex by omega)
        push_neg at hmlt
        rw [hm]
        push_cast
        push_cast at hmlt
        linarith
    have hXKlo : ((my : ℚ) + (k : ℚ) + 1) ≤ py + ((Nat.find hex : ℚ) + 1) * h * r := by
      have h1 := mul_le_mul_of_nonneg_right hKlo (le_of_lt hpos)
      rw [div_mul_cancel₀ _ (ne_of_gt hpos)] at h1
      linarith
    have hXKhi : py + ((Nat.find hex : ℚ) + 1) * h * r < ((my : ℚ) + (k : ℚ) + 1) + 1 := by
      have hid : ((((my : ℚ) + (k : ℚ) + 1) - py) / r) * r = ((my : ℚ) + (k : ℚ) + 1) - py :=
        div_mul_cancel₀ _ (ne_of_gt hpos)
      have h1 := mul_lt_mul_of_pos_right hKhi hpos
      have h2 : h * r < 1 := by rw [← habsr]; exact hsmall
      nlinarith [h1, hid, h2]
    have hXK : pyInt (py + ((Nat.find hex : ℚ) + 1) * h * r) = my + (k : ℤ) + 1 := by
      apply pyInt_eq
      · omega
      · push_cast
        linarith
      · push_cast
        linarith
    have hblockK : marchBlocked (px + ((Nat.find hex + 1 : ℕ) : ℚ) * h * 0)
        (py + ((Nat.find hex + 1 : ℕ) : ℚ) * h * r) = true := by
      rw [show px + ((Nat.find hex + 1 : ℕ) : ℚ) * h * 0 = px from by ring]
      apply marchBlocked_of_tile
      rw [hmxv, show ((Nat.find hex + 1 : ℕ) : ℚ) = (Nat.find hex : ℚ) + 1 from by
        push_cast; ring, hXK]
      rw [show my + (k : ℤ) + 1 = my + ((k : ℤ) + 1) from by ring]
      exact htileF
    have htiles : ∀ c : ℤ, my ≤ c → c ≤ my + (k : ℤ) → tileAt mx c = '0' := by
      intro c hc1 hc2
      rcases eq_or_lt_of_le hc1 with heq | hlt2
      · rw [← heq]
        exact hopen
      · obtain ⟨j'', hj''⟩ : ∃ j'' : ℕ, c = my + ((j'' : ℤ) + 1) :=
          ⟨(c - my - 1).toNat, by omega⟩
        have hcell := (hopenCell j'' (by omega)).1
        rw [hstep1, mul_one] at hcell
        rw [hj'']
        exact hcell
    have hopenJ : ∀ j : ℕ, 1 ≤ j → j < Nat.find hex + 1 →
        marchBlocked (px + (j : ℚ) * h * 0) (py + (j : ℚ) * h * r) = false := by
      intro j hj1 hjK
      rw [show px + (j : ℚ) * h * 0 = px from by ring]
      obtain ⟨j', rfl⟩ : ∃ j', j = j' + 1 := ⟨j - 1, by omega⟩
      have hjlt := Nat.find_min hex (show j' < Nat.find hex by omega)
      push_neg at hjlt
      have hXup : py + ((j' + 1 : ℕ) : ℚ) * h * r < ((my + (k : ℤ) : ℤ) : ℚ) + 1 := by
        have h1 := mul_lt_mul_of_pos_right hjlt hpos
        rw [div_mul_cancel₀ _ (ne_of_gt hpos)] at h1
        push_cast
        push_cast at h1
        nlinarith
      have hXlo : ((my : ℤ) : ℚ) ≤ py + ((j' + 1 : ℕ) : ℚ) * h * r := by
        have hq : (0 : ℚ) < ((j' + 1 : ℕ) : ℚ) * h * r := by positivity
        push_cast
        push_cast at hq
        linarith
      exact march_open_of_cell_range_y _ hXlo hXup (by omega) (by omega)
        hmxv hmx0 hmxW htiles
    refine ⟨Nat.find hex + 2, Nat.find hex + 1,
      marchFrom_hits (Nat.find hex + 2) 1 (Nat.find hex + 1) (by omega) (by omega)
        hopenJ hblockK, hside, ?_, ?_, ?_⟩
    · rw [hTv2]
      exact le_of_lt hTpos
    · rw [hTv2]
      push_cast
      linarith
    · rw [hTv2]
      push_cast
      linarith

theorem marchBlocked_true_of_floor {x y : ℚ} {cx cy : ℤ}
    (hx0 : 0 ≤ x) (hy0 : 0 ≤ y) (hfx : ⌊x⌋ = cx) (hfy : ⌊y⌋ = cy)
    (ht : tileAt cx cy ≠ '0') : marchBlocked x y = true := by
  apply marchBlocked_of_tile
  rw [pyInt_floor hx0, pyInt_floor hy0, hfx, hfy]
  exact ht

theorem marchBlocked_false_of_floor {x y : ℚ} {cx cy : ℤ}
    (hfx : ⌊x⌋ = cx) (hfy : ⌊y⌋ = cy)
    (hx0 : 0 ≤ cx) (hxW : cx < 21) (hy0 : 0 ≤ cy) (hyH : cy < 19)
    (ht : tileAt cx cy = '0') : marchBlocked x y = false := by
  have hx0' : (0 : ℚ) ≤ x := by
    have h1 : ((cx : ℤ) : ℚ) ≤ x := by
      rw [← hfx]
      exact Int.floor_le x
    have h2 : ((0 : ℤ) : ℚ) ≤ ((cx : ℤ) : ℚ) := by exact_mod_cast hx0
    push_cast at h2
    linarith
  have hy0' : (0 : ℚ) ≤ y := by
    have h1 : ((cy : ℤ) : ℚ) ≤ y := by
      rw [← hfy]
      exact Int.floor_le y
    have h2 : ((0 : ℤ) : ℚ) ≤ ((cy : ℤ) : ℚ) := by exact_mod_cast hy0
    push_cast at h2
    linarith
  apply marchBlocked_false_of
  · rw [pyInt_floor hx0', hfx]
    omega
  · rw [pyInt_floor hx0', hfx]
    omega
  · rw [pyInt_floor hy0', hfy]
    omega
  · rw [pyInt_floor hy0', hfy]
    omega
  · rw [pyInt_floor hx0', pyInt_floor hy0', hfx, hfy]
    exact ht

theorem march_window (px py rdx rdy : ℚ) (T Tp h : ℚ)
    (hT0 : 0 ≤ T) (hTp : T < Tp) (hh : 0 < h) (hhlt : h < Tp - T)
    (hblocked : ∀ t : ℚ, T < t → t < Tp →
      marchBlocked (px + t * rdx) (py + t * rdy) = true)
    (hopen : ∀ t : ℚ, 0 ≤ t → t < T →
      marchBlocked (px + t * rdx) (py + t * rdy) = false) :
    ∃ F K : ℕ, marchFrom px py rdx rdy h F 1 = some K ∧
      T ≤ (K : ℚ) * h ∧ (K : ℚ) * h ≤ T + h := by
  have hsample : ∀ j : ℕ, px + ((j : ℚ)) * h * rdx = px + ((j : ℚ) * h) * rdx ∧
      py + ((j : ℚ)) * h * rdy = py + ((j : ℚ) * h) * rdy := by
    intro j
    constructor <;> ring
  have hex0 : ∃ j : ℕ, T < ((j : ℚ) + 1) * h := by
    obtain ⟨j0, hj0⟩ := exists_nat_gt (T / h)
    refine ⟨j0, ?_⟩
    rw [div_lt_iff hh] at hj0
    nlinarith
  have hj0bound : ((Nat.find hex0 : ℚ) + 1) * h ≤ T + h := by
    rcases Nat.eq_zero_or_pos (Nat.find hex0) with h0 | hpos0
    · rw [h0]
      push_cast
      linarith
    · obtain ⟨m, hm⟩ : ∃ m, Nat.find hex0 = m + 1 := ⟨Nat.find hex0 - 1, by omega⟩
      have hmlt := Nat.find_min hex0 (show m < Nat.find hex0 by omega)
      push_neg at hmlt
      rw [hm]
      push_cast
      linarith
  have hj0blk : marchBlocked (px + ((Nat.find hex0 : ℚ) + 1) * h * rdx)
      (py + ((Nat.find hex0 : ℚ) + 1) * h * rdy) = true := by
    have hlo := Nat.find_spec hex0
    have hhi : ((Nat.find hex0 : ℚ) + 1) * h < Tp := by linarith
    have hb := hblocked (((Nat.find hex0 : ℚ) + 1) * h) hlo hhi
    rw [show px + ((Nat.find hex0 : ℚ) + 1) * h * rdx =
      px + (((Nat.find hex0 : ℚ) + 1) * h) * rdx from by ring,
      show py + ((Nat.find hex0 : ℚ) + 1) * h * rdy =
      py + (((Nat.find hex0 : ℚ) + 1) * h) * rdy from by ring]
    exact hb
  have hexB : ∃ j : ℕ, marchBlocked (px + ((j + 1 : ℕ) : ℚ) * h * rdx)
      (py + ((j + 1 : ℕ) : ℚ) * h * rdy) = true := by
    refine ⟨Nat.find hex0, ?_⟩
    rw [show ((Nat.find hex0 + 1 : ℕ) : ℚ) = (Nat.find hex0 : ℚ) + 1 from by push_cast; ring]
    exact hj0blk
  have hfindle : Nat.find hexB ≤ Nat.find hex0 := by
    apply Nat.find_min'
    rw [show ((Nat.find hex0 + 1 : ℕ) : ℚ) = (Nat.find hex0 : ℚ) + 1 from by push_cast; ring]
    exact hj0blk
  have hKblk := Nat.find_spec hexB
  have hKlo : T ≤ ((Nat.find hexB + 1 : ℕ) : ℚ) * h := by
    by_contra hcon
    push_neg at hcon
    have hK0 : (0 : ℚ) ≤ ((Nat.find hexB + 1 : ℕ) : ℚ) * h := by positivity
    have hop := hopen (((Nat.find hexB + 1 : ℕ) : ℚ) * h) hK0 hcon
    rw [show px + (((Nat.find hexB + 1 : ℕ) : ℚ) * h) * rdx =
      px + ((Nat.find hexB + 1 : ℕ) : ℚ) * h * rdx from by ring,
      show py + (((Nat.find hexB + 1 : ℕ) : ℚ) * h) * rdy =
      py + ((Nat.find hexB + 1 : ℕ) : ℚ) * h * rdy from by ring] at hop
    rw [hKblk] at hop
    exact Bool.noConfusion hop
  have hKhi : ((Nat.find hexB + 1 : ℕ) : ℚ) * h ≤ T + h := by
    have hle : ((Nat.find hexB + 1 : ℕ) : ℚ) ≤ ((Nat.find hex0 + 1 : ℕ) : ℚ) := by
      exact_mod_cast Nat.succ_le_succ hfindle
    have hmul : ((Nat.find hexB + 1 : ℕ) : ℚ) * h ≤ ((Nat.find hex0 + 1 : ℕ) : ℚ) * h :=
      mul_le_mul_of_nonneg_right hle (le_of_lt hh)
    have hcast : ((Nat.find hex0 + 1 : ℕ) : ℚ) = (Nat.find hex0 : ℚ) + 1 := by
      push_cast
      ring
    rw [hcast] at hmul
    linarith
  refine ⟨Nat.find hexB + 3, Nat.find hexB + 1, ?_, hKlo, hKhi⟩
  apply marchFrom_hits (Nat.find hexB + 3) 1 (Nat.find hexB + 1) (by omega) (by omega)
  · intro j hj1 hjK
    obtain ⟨j', rfl⟩ : ∃ j', j = j' + 1 := ⟨j - 1, by omega⟩
    have hnb := Nat.find_min hexB (show j' < Nat.find hexB by omega)
    exact Bool.not_eq_true _ ▸ (Bool.eq_false_iff.2 hnb)
  · exact hKblk

theorem nonneg_of_floor {X : ℚ} {c : ℤ} (hf : ⌊X⌋ = c) (hc : 0 ≤ c) : 0 ≤ X := by
  have h1 : ((c : ℤ) : ℚ) ≤ X := by
    rw [← hf]
    exact Int.floor_le X
  have h2 : (0 : ℚ) ≤ ((c : ℤ) : ℚ) := by exact_mod_cast hc
  linarith

theorem diag_iterate (rs : RaySetup) (rx ry px py : ℚ) (mx my : ℤ)
    (hrx : rx ≠ 0) (hry : ry ≠ 0)
    (hdx : rs.delta_dist_x = some |1/rx|) (hdy : rs.delta_dist_y = some |1/ry|)
    (hstx : rs.step_x = if rx < 0 then -1 else 1)
    (hsty : rs.step_y = if ry < 0 then -1 else 1)
    (hstart : rs.start = DState.mk mx my (some (crossT px mx rx 0))
      (some (crossT py my ry 0)) 0 0)
    (hmxlo : (mx : ℚ) ≤ px) (hmxhi : px < (mx : ℚ) + 1)
    (hmylo : (my : ℚ) ≤ py) (hmyhi : py < (my : ℚ) + 1)
    (hdist : ∀ a b : ℕ, crossT px mx rx a ≠ crossT py my ry b) :
    ∀ k : ℕ, ∃ a b sd : ℕ, a + b = k ∧
      (ddaStep rs)^[k] rs.start = DState.mk
        (mx + (a : ℤ) * (if rx < 0 then -1 else 1))
        (my + (b : ℤ) * (if ry < 0 then -1 else 1))
        (some (crossT px mx rx a)) (some (crossT py my ry b)) sd k ∧
      (0 < a → crossT px mx rx (a - 1) < crossT py my ry b) ∧
      (0 < b → crossT py my ry (b - 1) < crossT px mx rx a) ∧
      (0 < k →
        (sd = 0 ∧ 0 < a ∧ (b = 0 ∨ crossT py my ry (b - 1) < crossT px mx rx (a - 1))) ∨
        (sd = 1 ∧ 0 < b ∧ (a = 0 ∨ crossT px mx rx (a - 1) < crossT py my ry (b - 1)))) ∧
      (∀ t : ℚ, 0 ≤ t → t < crossT px mx rx a → t < crossT py my ry b →
        ∃ j : ℕ, j ≤ k ∧ ⌊px + t * rx⌋ = ((ddaStep rs)^[j] rs.start).map_x ∧
          ⌊py + t * ry⌋ = ((ddaStep rs)^[j] rs.start).map_y) := by
  intro k
  induction k with
  | zero =>
    refine ⟨0, 0, 0, rfl, ?_, ?_, ?_, ?_, ?_⟩
    · rw [Function.iterate_zero_apply, hstart,
        show mx + ((0 : ℕ) : ℤ) * (if rx < 0 then -1 else 1) = mx from by push_cast; ring,
        show my + ((0 : ℕ) : ℤ) * (if ry < 0 then -1 else 1) = my from by push_cast; ring]
    · intro h0
      exact absurd h0 (lt_irrefl 0)
    · intro h0
      exact absurd h0 (lt_irrefl 0)
    · intro h0
      exact absurd h0 (lt_irrefl 0)
    · intro t ht h1 h2
      refine ⟨0, le_refl 0, ?_, ?_⟩
      · rw [Function.iterate_zero_apply, hstart]
        dsimp only
        rw [crossT_floor_uni hrx hmxlo hmxhi 0 t ht (Or.inl rfl) h1]
        push_cast
        ring
      · rw [Function.iterate_zero_apply, hstart]
        dsimp only
        rw [crossT_floor_uni hry hmylo hmyhi 0 t ht (Or.inl rfl) h2]
        push_cast
        ring
  | succ k ih =>
    obtain ⟨a, b, sd, hab, hE, invA, invB, hsidek, hSeg⟩ := ih
    rcases lt_or_gt_of_ne (hdist a b) with hxy | hyx
    · -- x steps: crossT x a < crossT y b
      have hcond : eLt (DState.mk
          (mx + (a : ℤ) * (if rx < 0 then -1 else 1))
          (my + (b : ℤ) * (if ry < 0 then -1 else 1))
          (some (crossT px mx rx a)) (some (crossT py my ry b)) sd k).side_dist_x
          (DState.mk (mx + (a : ℤ) * (if rx < 0 then -1 else 1))
          (my + (b : ℤ) * (if ry < 0 then -1 else 1))
          (some (crossT px mx rx a)) (some (crossT py my ry b)) sd k).side_dist_y = true :=
        decide_eq_true hxy
      have hstep2 : (ddaStep rs)^[k + 1] rs.start = DState.mk
          (mx + ((a + 1 : ℕ) : ℤ) * (if rx < 0 then -1 else 1))
          (my + (b : ℤ) * (if ry < 0 then -1 else 1))
          (some (crossT px mx rx (a + 1))) (some (crossT py my ry b)) 0 (k + 1) := by
        rw [Function.iterate_succ_apply', hE, ddaStep_lt rs _ hcond]
        dsimp only
        rw [hdx, hstx]
        have e1 : mx + (a : ℤ) * (if rx < 0 then -1 else 1) + (if rx < 0 then -1 else 1) =
            mx + ((a + 1 : ℕ) : ℤ) * (if rx < 0 then -1 else 1) := by
          push_cast
          ring
        have e2 : eAdd (some (crossT px mx rx a)) (some |1/rx|) =
            some (crossT px mx rx (a + 1)) := by
          show some (crossT px mx rx a + |1/rx|) = some (crossT px mx rx (a + 1))
          rw [← crossT_succ]
        rw [e1, e2]
      refine ⟨a + 1, b, 0, by omega, hstep2, ?_, ?_, ?_, ?_⟩
      · intro _
        simpa using hxy
      · intro hb
        exact lt_trans (invB hb) (crossT_lt hrx (Nat.lt_succ_self a))
      · intro _
        left
        refine ⟨rfl, by omega, ?_⟩
        rcases Nat.eq_zero_or_pos b with rfl | hb
        · exact Or.inl rfl
        · right
          simpa using invB hb
      · intro t ht h1 h2
        by_cases htx : t < crossT px mx rx a
        · obtain ⟨j, hj, hjx, hjy⟩ := hSeg t ht htx h2
          exact ⟨j, by omega, hjx, hjy⟩
        · push_neg at htx
          have hyfl : ⌊py + t * ry⌋ =
              my + (b : ℤ) * (if ry < 0 then -1 else 1) := by
            have hby : b = 0 ∨ crossT py my ry (b - 1) < t := by
              rcases Nat.eq_zero_or_pos b with rfl | hb
              · exact Or.inl rfl
              · exact Or.inr (lt_of_lt_of_le (invB hb) htx)
            exact crossT_floor_uni hry hmylo hmyhi b t ht hby h2
          rcases lt_or_gt_of_ne hrx with hrneg | hrpos
          · rcases eq_or_lt_of_le htx with heq | hlt
            · -- t is exactly the crossing: still in the old cell for rx < 0
              have hxfl : ⌊px + t * rx⌋ = mx - (a : ℤ) := by
                apply crossT_floor_neg hrneg hmxhi a t ht ?_ (le_of_eq heq.symm)
                rcases Nat.eq_zero_or_pos a with rfl | ha
                · exact Or.inl rfl
                · refine Or.inr ?_
                  rw [← heq]
                  exact crossT_lt hrx (by omega)
              refine ⟨k, by omega, ?_, ?_⟩
              · rw [hE]
                dsimp only
                rw [hxfl, if_pos hrneg]
                ring
              · rw [hE]
                dsimp only
                exact hyfl
            · have hxfl : ⌊px + t * rx⌋ =
                  mx + ((a + 1 : ℕ) : ℤ) * (if rx < 0 then -1 else 1) := by
                apply crossT_floor_uni hrx hmxlo hmxhi (a + 1) t ht ?_ h1
                refine Or.inr ?_
                simpa using hlt
              refine ⟨k + 1, le_refl _, ?_, ?_⟩
              · rw [hstep2]
                dsimp only
                exact hxfl
              · rw [hstep2]
                dsimp only
                exact hyfl
          · have hxfl : ⌊px + t * rx⌋ =
                mx + ((a + 1 : ℕ) : ℤ) * (if rx < 0 then -1 else 1) := by
              rw [if_neg (not_lt.2 (le_of_lt hrpos))]
              have hfp : ⌊px + t * rx⌋ = mx + ((a + 1 : ℕ) : ℤ) := by
                apply crossT_floor_pos hrpos hmxlo (a + 1) t ht ?_ h1
                refine Or.inr ?_
                simpa using htx
              rw [hfp]
              ring
            refine ⟨k + 1, le_refl _, ?_, ?_⟩
            · rw [hstep2]
              dsimp only
              exact hxfl
            · rw [hstep2]
              dsimp only
              exact hyfl
    · -- y steps: crossT y b < crossT x a
      have hcond : eLt (DState.mk
          (mx + (a : ℤ) * (if rx < 0 then -1 else 1))
          (my + (b : ℤ) * (if ry < 0 then -1 else 1))
          (some (crossT px mx rx a)) (some (crossT py my ry b)) sd k).side_dist_x
          (DState.mk (mx + (a : ℤ) * (if rx < 0 then -1 else 1))
          (my + (b : ℤ) * (if ry < 0 then -1 else 1))
          (some (crossT px mx rx a)) (some (crossT py my ry b)) sd k).side_dist_y = false :=
        decide_eq_false (not_lt.2 (le_of_lt hyx))
      have hstep2 : (ddaStep rs)^[k + 1] rs.start = DState.mk
          (mx + (a : ℤ) * (if rx < 0 then -1 else 1))
          (my + ((b + 1 : ℕ) : ℤ) * (if ry < 0 then -1 else 1))
          (some (crossT px mx rx a)) (some (crossT py my ry (b + 1))) 1 (k + 1) := by
        rw [Function.iterate_succ_apply', hE, ddaStep_ge rs _ hcond]
        dsimp only
        rw [hdy, hsty]
        have e1 : my + (b : ℤ) * (if ry < 0 then -1 else 1) + (if ry < 0 then -1 else 1) =
            my + ((b + 1 : ℕ) : ℤ) * (if ry < 0 then -1 else 1) := by
          push_cast
          ring
        have e2 : eAdd (some (crossT py my ry b)) (some |1/ry|) =
            some (crossT py my ry (b + 1)) := by
          show some (crossT py my ry b + |1/ry|) = some (crossT py my ry (b + 1))
          rw [← crossT_succ]
        rw [e1, e2]
      refine ⟨a, b + 1, 1, by omega, hstep2, ?_, ?_, ?_, ?_⟩
      · intro ha
        exact lt_trans (invA ha) (crossT_lt hry (Nat.lt_succ_self b))
      · intro _
        simpa using hyx
      · intro _
        right
        refine ⟨rfl, by omega, ?_⟩
        rcases Nat.eq_zero_or_pos a with rfl | ha
        · exact Or.inl rfl
        · right
          simpa using invA ha
      · intro t ht h1 h2
        by_cases hty : t < crossT py my ry b
        · obtain ⟨j, hj, hjx, hjy⟩ := hSeg t ht h1 hty
          exact ⟨j, by omega, hjx, hjy⟩
        · push_neg at hty
          have hxfl : ⌊px + t * rx⌋ =
              mx + (a : ℤ) * (if rx < 0 then -1 else 1) := by
            have hax : a = 0 ∨ crossT px mx rx (a - 1) < t := by
              rcases Nat.eq_zero_or_pos a with rfl | ha
              · exact Or.inl rfl
              · exact Or.inr (lt_of_lt_of_le (invA ha) hty)
            exact crossT_floor_uni hrx hmxlo hmxhi a t ht hax h1
          rcases lt_or_gt_of_ne hry with hrneg | hrpos
          · rcases eq_or_lt_of_le hty with heq | hlt
            · have hyfl : ⌊py + t * ry⌋ = my - (b : ℤ) := by
                apply crossT_floor_neg hrneg hmyhi b t ht ?_ (le_of_eq heq.symm)
                rcases Nat.eq_zero_or_pos b with rfl | hb
                · exact Or.inl rfl
                · refine Or.inr ?_
                  rw [← heq]
                  exact crossT_lt hry (by omega)
              refine ⟨k, by omega, ?_, ?_⟩
              · rw [hE]
                dsimp only
                exact hxfl
              · rw [hE]
                dsimp only
                rw [hyfl, if_pos hrneg]
                ring
            · have hyfl : ⌊py + t * ry⌋ =
                  my + ((b + 1 : ℕ) : ℤ) * (if ry < 0 then -1 else 1) := by
                apply crossT_floor_uni hry hmylo hmyhi (b + 1) t ht ?_ h2
                refine Or.inr ?_
                simpa using hlt
              refine ⟨k + 1, le_refl _, ?_, ?_⟩
              · rw [hstep2]
                dsimp only
                exact hxfl
              · rw [hstep2]
                dsimp only
                exact hyfl
          · have hyfl : ⌊py + t * ry⌋ =
                my + ((b + 1 : ℕ) : ℤ) * (if ry < 0 then -1 else 1) := by
              rw [if_neg (not_lt.2 (le_of_lt hrpos))]
              have hfp : ⌊py + t * ry⌋ = my + ((b + 1 : ℕ) : ℤ) := by
                apply crossT_floor_pos hrpos hmylo (b + 1) t ht ?_ h2
                refine Or.inr ?_
                simpa using hty
              rw [hfp]
              ring
            refine ⟨k + 1, le_refl _, ?_, ?_⟩
            · rw [hstep2]
              dsimp only
              exact hxfl
            · rw [hstep2]
              dsimp only
              exact hyfl

theorem diag_march_core (rs : RaySetup) (rx ry px py : ℚ) (mx my : ℤ)
    (tile : Char) (sF : DState)
    (hrx : rx ≠ 0) (hry : ry ≠ 0)
    (hdx : rs.delta_dist_x = some |1/rx|) (hdy : rs.delta_dist_y = some |1/ry|)
    (hstx : rs.step_x = if rx < 0 then -1 else 1)
    (hsty : rs.step_y = if ry < 0 then -1 else 1)
    (hstart : rs.start = DState.mk mx my (some (crossT px mx rx 0))
      (some (crossT py my ry 0)) 0 0)
    (hmxlo : (mx : ℚ) ≤ px) (hmxhi : px < (mx : ℚ) + 1)
    (hmylo : (my : ℚ) ≤ py) (hmyhi : py < (my : ℚ) + 1)
    (hmx0 : 0 ≤ mx) (hmxW : mx < 21) (hmy0 : 0 ≤ my) (hmyH : my < 19)
    (hopen : tileAt mx my = '0')
    (hdist : ∀ a b : ℕ, crossT px mx rx a ≠ crossT py my ry b)
    (hrun : ddaLoop rs 399 rs.start = some (tile, sF))
    (hin : ¬ ddaOut sF) :
    ∃ T Tp : ℚ,
      (if sF.side = 0 then eSub sF.side_dist_x rs.delta_dist_x
        else eSub sF.side_dist_y rs.delta_dist_y) = T ∧
      0 ≤ T ∧ T < Tp ∧
      ∀ h : ℚ, 0 < h → h < Tp - T →
        ∃ F K : ℕ, marchFrom px py rx ry h F 1 = some K ∧
          T ≤ (K : ℚ) * h ∧ (K : ℚ) * h ≤ T + h := by
  have hspec := ddaLoop_spec rs 399 rs.start
  rw [hrun] at hspec
  obtain ⟨n, hn1, hn399, hsF, hbad, hmin, hc1, hc2⟩ := hspec
  obtain ⟨a, b, sd, hab, hE, invA, invB, hsiden, hSeg⟩ :=
    diag_iterate rs rx ry px py mx my hrx hry hdx hdy hstx hsty hstart
      hmxlo hmxhi hmylo hmyhi hdist n
  rw [hE] at hsF
  have hFx : sF.map_x = mx + (a : ℤ) * (if rx < 0 then -1 else 1) := by rw [hsF]
  have hFy : sF.map_y = my + (b : ℤ) * (if ry < 0 then -1 else 1) := by rw [hsF]
  have hFsx : sF.side_dist_x = some (crossT px mx rx a) := by rw [hsF]
  have hFsy : sF.side_dist_y = some (crossT py my ry b) := by rw [hsF]
  have hFsd : sF.side = sd := by rw [hsF]
  have hinb := (not_ddaOut_iff sF).1 hin
  rw [hFx, hFy] at hinb
  have htileF : tileAt (mx + (a : ℤ) * (if rx < 0 then -1 else 1))
      (my + (b : ℤ) * (if ry < 0 then -1 else 1)) ≠ '0' := by
    rcases hbad with hout | hnt
    · exact absurd hout hin
    · rw [hFx, hFy] at hnt
      exact hnt
  have hjgood : ∀ j : ℕ, j < n → ¬ ddaBad ((ddaStep rs)^[j] rs.start) := by
    intro j hj
    rcases Nat.eq_zero_or_pos j with rfl | hj1
    · rw [Function.iterate_zero_apply]
      unfold ddaBad
      push_neg
      constructor
      · rw [not_ddaOut_iff, hstart]
        exact ⟨hmx0, hmxW, hmy0, hmyH⟩
      · rw [hstart]
        exact hopen
    · exact hmin j hj1 hj
  rcases hsiden (by omega) with ⟨hsd0, ha1, hbcond⟩ | ⟨hsd1, hb1, hacond⟩
  · -- the last DDA step was on the x axis
    have hT0 : 0 ≤ crossT px mx rx (a - 1) := crossT_nonneg hmxlo hmxhi _
    have hTp : crossT px mx rx (a - 1) <
        min (crossT px mx rx a) (crossT py my ry b) :=
      lt_min (crossT_lt hrx (by omega)) (invA ha1)
    refine ⟨crossT px mx rx (a - 1),
      min (crossT px mx rx a) (crossT py my ry b), ?_, hT0, hTp, ?_⟩
    · rw [hFsd, hsd0, if_pos rfl, hFsx, hdx]
      show crossT px mx rx a - |1/rx| = crossT px mx rx (a - 1)
      have hs := crossT_succ px mx rx (a - 1)
      rw [show a - 1 + 1 = a from by omega] at hs
      linarith
    · intro h hh hhlt
      have hblocked : ∀ t : ℚ, crossT px mx rx (a - 1) < t →
          t < min (crossT px mx rx a) (crossT py my ry b) →
          marchBlocked (px + t * rx) (py + t * ry) = true := by
        intro t hTt htp
        have ht0 : 0 ≤ t := le_trans hT0 (le_of_lt hTt)
        have htx : t < crossT px mx rx a := lt_of_lt_of_le htp (min_le_left _ _)
        have hty : t < crossT py my ry b := lt_of_lt_of_le htp (min_le_right _ _)
        have hxfl : ⌊px + t * rx⌋ = mx + (a : ℤ) * (if rx < 0 then -1 else 1) :=
          crossT_floor_uni hrx hmxlo hmxhi a t ht0 (Or.inr hTt) htx
        have hyb : b = 0 ∨ crossT py my ry (b - 1) < t := by
          rcases hbcond with hb0 | hblt
          · exact Or.inl hb0
          · exact Or.inr (lt_trans hblt hTt)
        have hyfl : ⌊py + t * ry⌋ = my + (b : ℤ) * (if ry < 0 then -1 else 1) :=
          crossT_floor_uni hry hmylo hmyhi b t ht0 hyb hty
        exact marchBlocked_true_of_floor (nonneg_of_floor hxfl hinb.1)
          (nonneg_of_floor hyfl hinb.2.2.1) hxfl hyfl htileF
      have hopenT : ∀ t : ℚ, 0 ≤ t → t < crossT px mx rx (a - 1) →
          marchBlocked (px + t * rx) (py + t * ry) = false := by
        intro t ht0 htT
        have htx : t < crossT px mx rx a := lt_trans htT (crossT_lt hrx (by omega))
        have hty : t < crossT py my ry b := lt_trans htT (invA ha1)
        obtain ⟨j, hj, hjx, hjy⟩ := hSeg t ht0 htx hty
        rcases eq_or_lt_of_le hj with heq | hlt
        · exfalso
          rw [heq, hE] at hjx
          dsimp only at hjx
          rcases lt_or_gt_of_ne hrx with hrneg | hrpos
          · rw [if_pos hrneg] at hjx
            have hflt : px + t * rx < ((mx - (a : ℤ) + 1 : ℤ) : ℚ) := by
              have h1 := Int.lt_floor_add_one (px + t * rx)
              rw [hjx] at h1
              push_cast
              push_cast at h1
              linarith
            have := crossT_floor_inv_neg hrneg a (by omega) t hflt
            linarith
          · rw [if_neg (not_lt.2 (le_of_lt hrpos))] at hjx
            have hfle : ((mx + (a : ℤ) : ℤ) : ℚ) ≤ px + t * rx := by
              have h1 := Int.floor_le (px + t * rx)
              rw [hjx] at h1
              push_cast
              push_cast at h1
              linarith
            have := crossT_floor_inv_pos hrpos a (by omega) t hfle
            linarith
        · have hgood := hjgood j hlt
          unfold ddaBad at hgood
          push_neg at hgood
          obtain ⟨hno, hti⟩ := hgood
          rw [not_ddaOut_iff] at hno
          exact marchBlocked_false_of_floor hjx hjy hno.1 hno.2.1 hno.2.2.1 hno.2.2.2 hti
      exact march_window px py rx ry (crossT px mx rx (a - 1))
        (min (crossT px mx rx a) (crossT py my ry b)) h hT0 hTp hh hhlt hblocked hopenT
  · -- the last DDA step was on the y axis
    have hT0 : 0 ≤ crossT py my ry (b - 1) := crossT_nonneg hmylo hmyhi _
    have hTp : crossT py my ry (b - 1) <
        min (crossT px mx rx a) (crossT py my ry b) :=
      lt_min (invB hb1) (crossT_lt hry (by omega))
    refine ⟨crossT py my ry (b - 1),
      min (crossT px mx rx a) (crossT py my ry b), ?_, hT0, hTp, ?_⟩
    · rw [hFsd, hsd1, if_neg one_ne_zero, hFsy, hdy]
      show crossT py my ry b - |1/ry| = crossT py my ry (b - 1)
      have hs := crossT_succ py my ry (b - 1)
      rw [show b - 1 + 1 = b from by omega] at hs
      linarith
    · intro h hh hhlt
      have hblocked : ∀ t : ℚ, crossT py my ry (b - 1) < t →
          t < min (crossT px mx rx a) (crossT py my ry b) →
          marchBlocked (px + t * rx) (py + t * ry) = true := by
        intro t hTt htp
        have ht0 : 0 ≤ t := le_trans hT0 (le_of_lt hTt)
        have htx : t < crossT px mx rx a := lt_of_lt_of_le htp (min_le_left _ _)
        have hty : t < crossT py my ry b := lt_of_lt_of_le htp (min_le_right _ _)
        have hxb : a = 0 ∨ crossT px mx rx (a - 1) < t := by
          rcases hacond with ha0 | halt
          · exact Or.inl ha0
          · exact Or.inr (lt_trans halt hTt)
        have hxfl : ⌊px + t * rx⌋ = mx + (a : ℤ) * (if rx < 0 then -1 else 1) :=
          crossT_floor_uni hrx hmxlo hmxhi a t ht0 hxb htx
        have hyfl : ⌊py + t * ry⌋ = my + (b : ℤ) * (if ry < 0 then -1 else 1) :=
          crossT_floor_uni hry hmylo hmyhi b t ht0 (Or.inr hTt) hty
        exact marchBlocked_true_of_floor (nonneg_of_floor hxfl hinb.1)
          (nonneg_of_floor hyfl hinb.2.2.1) hxfl hyfl htileF
      have hopenT : ∀ t : ℚ, 0 ≤ t → t < crossT py my ry (b - 1) →
          marchBlocked (px + t * rx) (py + t * ry) = false := by
        intro t ht0 htT
        have htx : t < crossT px mx rx a := lt_trans htT (invB hb1)
        have hty : t < crossT py my ry b := lt_trans htT (crossT_lt hry (by omega))
        obtain ⟨j, hj, hjx, hjy⟩ := hSeg t ht0 htx hty
        rcases eq_or_lt_of_le hj with heq | hlt
        · exfalso
          rw [heq, hE] at hjy
          dsimp only at hjy
          rcases lt_or_gt_of_ne hry with hrneg | hrpos
          · rw [if_pos hrneg] at hjy
            have hflt : py + t * ry < ((my - (b : ℤ) + 1 : ℤ) : ℚ) := by
              have h1 := Int.lt_floor_add_one (py + t * ry)
              rw [hjy] at h1
              push_cast
              push_cast at h1
              linarith
            have := crossT_floor_inv_neg hrneg b (by omega) t hflt
            linarith
          · rw [if_neg (not_lt.2 (le_of_lt hrpos))] at hjy
            have hfle : ((my + (b : ℤ) : ℤ) : ℚ) ≤ py + t * ry := by
              have h1 := Int.floor_le (py + t * ry)
              rw [hjy] at h1
              push_cast
              push_cast at h1
              linarith
            have := crossT_floor_inv_pos hrpos b (by omega) t hfle
            linarith
        · have hgood := hjgood j hlt
          unfold ddaBad at hgood
          push_neg at hgood
          obtain ⟨hno, hti⟩ := hgood
          rw [not_ddaOut_iff] at hno
          exact marchBlocked_false_of_floor hjx hjy hno.1 hno.2.1 hno.2.2.1 hno.2.2.2 hti
      exact march_window px py rx ry (crossT py my ry (b - 1))
        (min (crossT px mx rx a) (crossT py my ry b)) h hT0 hTp hh hhlt hblocked hopenT

/-- C5 (amended): for every screen column whose ray is nonzero and never
passes exactly through a lattice corner, and every player position
strictly inside the grid standing on an open tile, when the DDA run of
cast_rays reports a hit the perpendicular wall distance it computes (the
side distance before the last increment on the hit axis, clamped below by
0.0001) agrees with the distance obtained by brute-force small-step
marching of the same ray to its first blocking cell, for every marching
step below a positive threshold, up to the marching step size plus the
0.0001 clamp.  The unrestricted claim is false: a ray through a lattice
corner makes the two differ by more than a whole cell (see the
counterexample). -/
theorem dda_march_amended (pl : Player) (column : ℕ) (tile : Char) (sF : DState)
    (hnz : ¬ ((columnSetup pl column).ray_dir_x = 0 ∧
      (columnSetup pl column).ray_dir_y = 0))
    (hnc : ∀ t : ℚ, 0 ≤ t →
      ¬ ∃ (cx cy : ℤ), pl.x + t * (columnSetup pl column).ray_dir_x = (cx : ℚ) ∧
        pl.y + t * (columnSetup pl column).ray_dir_y = (cy : ℚ))
    (hrun : ddaLoop (columnSetup pl column) (MAP_WIDTH * MAP_HEIGHT)
      (columnSetup pl column).start = some (tile, sF))
    (hopen : tileAt (pyInt pl.x) (pyInt pl.y) = '0')
    (hx0 : 0 < pl.x) (hx1 : pl.x < (MAP_WIDTH : ℚ))
    (hy0 : 0 < pl.y) (hy1 : pl.y < (MAP_HEIGHT : ℚ)) :
    ∃ hit : ColHit, castColumn pl column = some hit ∧
      ∃ h0 : ℚ, 0 < h0 ∧ ∀ h : ℚ, 0 < h → h < h0 →
        ∃ (F : ℕ) (m : ℚ),
          marchDistance pl.x pl.y (columnSetup pl column).ray_dir_x
            (columnSetup pl column).ray_dir_y h F = some m ∧
          |m - hit.perp| ≤ h + 1/10000 := by
  have hpx0 : (0 : ℚ) ≤ pl.x := le_of_lt hx0
  have hpy0 : (0 : ℚ) ≤ pl.y := le_of_lt hy0
  have hmxfl : pyInt pl.x = ⌊pl.x⌋ := pyInt_floor hpx0
  have hmyfl : pyInt pl.y = ⌊pl.y⌋ := pyInt_floor hpy0
  have hmx0 : 0 ≤ pyInt pl.x := by
    rw [hmxfl]
    exact Int.floor_nonneg.2 hpx0
  have hmy0 : 0 ≤ pyInt pl.y := by
    rw [hmyfl]
    exact Int.floor_nonneg.2 hpy0
  have hmxW : pyInt pl.x < 21 := by
    rw [hmxfl]
    have hf : (⌊pl.x⌋ : ℚ) ≤ pl.x := Int.floor_le pl.x
    by_contra hcon
    push_neg at hcon
    rw [MAP_WIDTH_eq] at hx1
    push_cast at hx1
    have hc2 : (21 : ℚ) ≤ (⌊pl.x⌋ : ℚ) := by exact_mod_cast hcon
    linarith
  have hmyH : pyInt pl.y < 19 := by
    rw [hmyfl]
    have hf : (⌊pl.y⌋ : ℚ) ≤ pl.y := Int.floor_le pl.y
    by_contra hcon
    push_neg at hcon
    rw [MAP_HEIGHT_eq] at hy1
    push_cast at hy1
    have hc2 : (19 : ℚ) ≤ (⌊pl.y⌋ : ℚ) := by exact_mod_cast hcon
    linarith
  have hmxlo : ((pyInt pl.x : ℤ) : ℚ) ≤ pl.x := by
    rw [hmxfl]
    exact Int.floor_le pl.x
  have hmxhi : pl.x < ((pyInt pl.x : ℤ) : ℚ) + 1 := by
    rw [hmxfl]
    exact Int.lt_floor_add_one pl.x
  have hmylo : ((pyInt pl.y : ℤ) : ℚ) ≤ pl.y := by
    rw [hmyfl]
    exact Int.floor_le pl.y
  have hmyhi : pl.y < ((pyInt pl.y : ℤ) : ℚ) + 1 := by
    rw [hmyfl]
    exact Int.lt_floor_add_one pl.y
  have hsmx : (columnSetup pl column).start.map_x = pyInt pl.x := by
    rw [columnSetup_start_eq]
  have hsmy : (columnSetup pl column).start.map_y = pyInt pl.y := by
    rw [columnSetup_start_eq]
  have hsxpm : (columnSetup pl column).step_x = 1 ∨ (columnSetup pl column).step_x = -1 := by
    rw [columnSetup_step_x_eq]
    by_cases hc : (columnSetup pl column).ray_dir_x < 0
    · right
      rw [if_pos hc]
    · left
      rw [if_neg hc]
  have hsypm : (columnSetup pl column).step_y = 1 ∨ (columnSetup pl column).step_y = -1 := by
    rw [columnSetup_step_y_eq]
    by_cases hc : (columnSetup pl column).ray_dir_y < 0
    · right
      rw [if_pos hc]
    · left
      rw [if_neg hc]
  rw [show MAP_WIDTH * MAP_HEIGHT = 399 from rfl] at hrun
  have hin : ¬ ddaOut sF := by
    apply dda_no_exit (columnSetup pl column) tile sF hsxpm hsypm ?_ ?_ hrun
    · rw [hsmx, hsmy]
      exact ⟨hmx0, hmxW, hmy0, hmyH⟩
    · rw [hsmx, hsmy]
      exact hopen
  by_cases hry0 : (columnSetup pl column).ray_dir_y = 0
  · -- ray aligned with the x axis
    have hrx : (columnSetup pl column).ray_dir_x ≠ 0 := fun hc => hnz ⟨hc, hry0⟩
    have hdx : (columnSetup pl column).delta_dist_x =
        some |1 / (columnSetup pl column).ray_dir_x| := by
      rw [columnSetup_delta_x, if_neg hrx]
    have hdy : (columnSetup pl column).delta_dist_y = none := by
      rw [columnSetup_delta_y, if_pos hry0]
    have hstart : (columnSetup pl column).start = DState.mk (pyInt pl.x) (pyInt pl.y)
        (some ((if (columnSetup pl column).ray_dir_x < 0 then pl.x - (pyInt pl.x : ℚ)
          else (pyInt pl.x : ℚ) + 1 - pl.x) * |1 / (columnSetup pl column).ray_dir_x|))
        none 0 0 := by
      rw [columnSetup_start_eq, hdx, hdy]
      by_cases hc1 : (columnSetup pl column).ray_dir_x < 0 <;>
        by_cases hc2 : (columnSetup pl column).ray_dir_y < 0 <;>
        simp [hc1, hc2, eScale]
    rw [castColumn_def, show MAP_WIDTH * MAP_HEIGHT = 399 from rfl, hrun]
    dsimp only
    have habs : (0 : ℚ) < |(columnSetup pl column).ray_dir_x| := abs_pos.2 hrx
    refine ⟨_, rfl, 1 / |(columnSetup pl column).ray_dir_x|, one_div_pos.mpr habs, ?_⟩
    intro h hh hlt
    have hsmall : h * |(columnSetup pl column).ray_dir_x| < 1 := by
      have h1 := mul_lt_mul_of_pos_right hlt habs
      rw [one_div_mul_cancel (ne_of_gt habs)] at h1
      exact h1
    obtain ⟨F, K, hmarch, hside, hT0, hT1, hT2⟩ :=
      axis_march_core (columnSetup pl column) (columnSetup pl column).ray_dir_x pl.x pl.y
        (pyInt pl.x) (pyInt pl.y) tile sF h hrx hdx (columnSetup_step_x_eq pl column) hstart
        hmxlo hmxhi hmx0 hmxW hmy0 hmyH rfl hopen hrun hin hh hsmall
    refine ⟨F, (K : ℚ) * h, ?_, ?_⟩
    · rw [hry0]
      unfold marchDistance
      rw [hmarch]
      rfl
    · dsimp only
      rw [hside, if_pos rfl]
      have heps : (0.0001 : ℚ) = 1/10000 := by norm_num
      rw [heps]
      rcases le_total (1/10000 : ℚ)
          (eSub sF.side_dist_x (columnSetup pl column).delta_dist_x) with hc | hc
      · rw [max_eq_left hc, abs_sub_le_iff]
        constructor <;> linarith
      · rw [max_eq_right hc, abs_sub_le_iff]
        constructor <;> linarith
  · by_cases hrx0 : (columnSetup pl column).ray_dir_x = 0
    · -- ray aligned with the y axis
      have hdxn : (columnSetup pl column).delta_dist_x = none := by
        rw [columnSetup_delta_x, if_pos hrx0]
      have hdy : (columnSetup pl column).delta_dist_y =
          some |1 / (columnSetup pl column).ray_dir_y| := by
        rw [columnSetup_delta_y, if_neg hry0]
      have hstart : (columnSetup pl column).start = DState.mk (pyInt pl.x) (pyInt pl.y)
          none
          (some ((if (columnSetup pl column).ray_dir_y < 0 then pl.y - (pyInt pl.y : ℚ)
            else (pyInt pl.y : ℚ) + 1 - pl.y) * |1 / (columnSetup pl column).ray_dir_y|))
          0 0 := by
        rw [columnSetup_start_eq, hdxn, hdy]
        by_cases hc1 : (columnSetup pl column).ray_dir_x < 0 <;>
          by_cases hc2 : (columnSetup pl column).ray_dir_y < 0 <;>
          simp [hc1, hc2, eScale]
      rw [castColumn_def, show MAP_WIDTH * MAP_HEIGHT = 399 from rfl, hrun]
      dsimp only
      have habs : (0 : ℚ) < |(columnSetup pl column).ray_dir_y| := abs_pos.2 hry0
      refine ⟨_, rfl, 1 / |(columnSetup pl column).ray_dir_y|, one_div_pos.mpr habs, ?_⟩
      intro h hh hlt
      have hsmall : h * |(columnSetup pl column).ray_dir_y| < 1 := by
        have h1 := mul_lt_mul_of_pos_right hlt habs
        rw [one_div_mul_cancel (ne_of_gt habs)] at h1
        exact h1
      obtain ⟨F, K, hmarch, hside, hT0, hT1, hT2⟩ :=
        axis_march_core_y (columnSetup pl column) (columnSetup pl column).ray_dir_y pl.x pl.y
          (pyInt pl.x) (pyInt pl.y) tile sF h hry0 hdy (columnSetup_step_y_eq pl column) hstart
          hmylo hmyhi hmy0 hmyH hmx0 hmxW rfl hopen hrun hin hh hsmall
      refine ⟨F, (K : ℚ) * h, ?_, ?_⟩
      · rw [hrx0]
        unfold marchDistance
        rw [hmarch]
        rfl
      · dsimp only
        rw [hside, if_neg one_ne_zero]
        have heps : (0.0001 : ℚ) = 1/10000 := by norm_num
        rw [heps]
        rcases le_total (1/10000 : ℚ)
            (eSub sF.side_dist_y (columnSetup pl column).delta_dist_y) with hc | hc
        · rw [max_eq_left hc, abs_sub_le_iff]
          constructor <;> linarith
        · rw [max_eq_right hc, abs_sub_le_iff]
          constructor <;> linarith
    · -- general diagonal ray
      have hdx : (columnSetup pl column).delta_dist_x =
          some |1 / (columnSetup pl column).ray_dir_x| := by
        rw [columnSetup_delta_x, if_neg hrx0]
      have hdy : (columnSetup pl column).delta_dist_y =
          some |1 / (columnSetup pl column).ray_dir_y| := by
        rw [columnSetup_delta_y, if_neg hry0]
      have hstartC : (columnSetup pl column).start = DState.mk (pyInt pl.x) (pyInt pl.y)
          (some (crossT pl.x (pyInt pl.x) (columnSetup pl column).ray_dir_x 0))
          (some (crossT pl.y (pyInt pl.y) (columnSetup pl column).ray_dir_y 0)) 0 0 := by
        rw [columnSetup_start_eq, hdx, hdy, crossT_zero, crossT_zero]
        by_cases hc1 : (columnSetup pl column).ray_dir_x < 0 <;>
          by_cases hc2 : (columnSetup pl column).ray_dir_y < 0 <;>
          simp [hc1, hc2, eScale]
      have hdist : ∀ a b : ℕ,
          crossT pl.x (pyInt pl.x) (columnSetup pl column).ray_dir_x a ≠
          crossT pl.y (pyInt pl.y) (columnSetup pl column).ray_dir_y b := by
        intro a b heq
        exact hnc (crossT pl.x (pyInt pl.x) (columnSetup pl column).ray_dir_x a)
          (crossT_nonneg hmxlo hmxhi a)
          ⟨_, _, crossT_int hrx0 a, by rw [heq]; exact crossT_int hry0 b⟩
      obtain ⟨T, Tp, hTeq, hT0, hTTp, hwin⟩ :=
        diag_march_core (columnSetup pl column) (columnSetup pl column).ray_dir_x
          (columnSetup pl column).ray_dir_y pl.x pl.y (pyInt pl.x) (pyInt pl.y)
          tile sF hrx0 hry0 hdx hdy (columnSetup_step_x_eq pl column)
          (columnSetup_step_y_eq pl column) hstartC hmxlo hmxhi hmylo hmyhi
          hmx0 hmxW hmy0 hmyH hopen hdist hrun hin
      rw [castColumn_def, show MAP_WIDTH * MAP_HEIGHT = 399 from rfl, hrun]
      dsimp only
      refine ⟨_, rfl, Tp - T, by linarith, ?_⟩
      intro h hh hlt
      obtain ⟨F, K, hmarch, hKlo, hKhi⟩ := hwin h hh hlt
      refine ⟨F, (K : ℚ) * h, ?_, ?_⟩
      · unfold marchDistance
        rw [hmarch]
        rfl
      · dsimp only
        rw [hTeq]
        have heps : (0.0001 : ℚ) = 1/10000 := by norm_num
        rw [heps]
        rcases le_total (1/10000 : ℚ) T with hc | hc
        · rw [max_eq_left hc, abs_sub_le_iff]
          constructor <;> linarith
        · rw [max_eq_right hc, abs_sub_le_iff]
          constructor <;> linarith

theorem dda_march_amended_witness :
    ∃ hit : ColHit, castColumn spawn_player 480 = some hit ∧
      ∃ h0 : ℚ, 0 < h0 ∧ ∀ h : ℚ, 0 < h → h < h0 →
        ∃ (F : ℕ) (m : ℚ),
          marchDistance spawn_player.x spawn_player.y
            (columnSetup spawn_player 480).ray_dir_x
            (columnSetup spawn_player 480).ray_dir_y h F = some m ∧
          |m - hit.perp| ≤ h + 1/10000 := by
  have hrun : ddaLoop (columnSetup spawn_player 480) (MAP_WIDTH * MAP_HEIGHT)
      (columnSetup spawn_player 480).start =
      some ('1', DState.mk 2 3 (some (1/2 + 1)) none 0 1) := by
    rw [columnSetup_spawn, show MAP_WIDTH * MAP_HEIGHT = 398 + 1 from rfl, ddaLoop_succ]
    have hstep : ddaStep
        { ray_dir_x := -1, ray_dir_y := 0, delta_dist_x := some 1, delta_dist_y := none,
          step_x := -1, step_y := 1,
          start := { map_x := 3, map_y := 3, side_dist_x := some (1/2), side_dist_y := none,
                     side := 0, steps := 0 } }
        { map_x := 3, map_y := 3, side_dist_x := some (1/2), side_dist_y := none,
          side := 0, steps := 0 } =
        DState.mk 2 3 (some (1/2 + 1)) none 0 1 := by
      unfold ddaStep
      norm_num [eLt, eAdd]
    rw [hstep]
    have hno : ¬ ddaOut (DState.mk 2 3 (some (1/2 + 1)) none 0 1) := by decide
    rw [if_neg hno]
    have htile : tileAt (2 : ℤ) (3 : ℤ) = '1' := rfl
    rw [if_pos (by rw [htile]; decide)]
    rw [htile]
  apply dda_march_amended spawn_player 480 '1' (DState.mk 2 3 (some (1/2 + 1)) none 0 1)
  · rw [columnSetup_spawn]
    norm_num
  · intro t ht hcon
    obtain ⟨cx, cy, hx, hy⟩ := hcon
    rw [show (columnSetup spawn_player 480).ray_dir_y = 0 from by rw [columnSetup_spawn],
      show spawn_player.y = 3.5 from rfl, mul_zero, add_zero] at hy
    have h7 : (2 * cy : ℤ) = 7 := by
      have hq : ((2 * cy : ℤ) : ℚ) = 7 := by
        push_cast
        linarith
      exact_mod_cast hq
    omega
  · exact hrun
  · rw [show spawn_player.x = 3.5 from rfl, show spawn_player.y = 3.5 from rfl,
      show pyInt (3.5 : ℚ) = 3 from by norm_num [pyInt]]
    rfl
  · norm_num [spawn_player]
  · rw [MAP_WIDTH_eq]
    push_cast
    norm_num [spawn_player]
  · norm_num [spawn_player]
  · rw [MAP_HEIGHT_eq]
    push_cast
    norm_num [spawn_player]

end Labyrinth
